import Mathlib

/-!
# duckdb_azure: the `abfss` (Data Lake) filesystem adapter

A shallow embedding of `src/azure_dfs_filesystem.cpp`.

* C++ strings are lists of characters (`Str`), one `Char` per byte.
* `std::string::npos` is `Option.none`; `std::min (len, find ...)` is `npos_min`.
* Every operation returns the calls it issued to its collaborators (`Event`)
  together with its outcome, so that "no remote call" is a statement about a list.
* The collaborators that are not part of the translated file (the URL parser, the
  session context cache, `LikeFun::Glob`, the storage SDK) are parameters.
* `while (true)` over continuation pages takes a page budget (`fuel`); the outcome
  `Outcome.exhausted` is the budget running out, never a behaviour of the code.
-/

namespace DuckdbAzure

/-! ## Strings -/

/-- A `std::string`: a sequence of bytes, each written as a `Char`. -/
abbrev Str := List Char

/-- A byte of a file. -/
abbrev Byte := Fin 256

/-- Scan `s` from the left; `i` is the index of the head of `s` in the whole string. -/
def find_from (p : Char → Bool) : List Char → Nat → Option Nat
  | [], _ => none
  | c :: cs, i => if p c then some i else find_from p cs (i + 1)

/-- Embeds `s.find_first_of(chars)`: the first index whose byte is one of `chars`. -/
def find_first_of (s chars : Str) : Option Nat :=
  find_from (fun c => chars.contains c) s 0

/-- Embeds `s.find(c, pos)`: the first index `>= pos` holding `c`. -/
def find_char (s : Str) (c : Char) (pos : Nat) : Option Nat :=
  find_from (fun x => x == c) (s.drop pos) pos

/-- The largest `i < n` with `p i`, scanning downwards. -/
def rfind_below (p : Nat → Bool) : Nat → Option Nat
  | 0 => none
  | n + 1 => if p n then some n else rfind_below p n

/-- Embeds `s.rfind(c, pos)`: the last index `<= pos` holding `c`. -/
def rfind_char (s : Str) (c : Char) (pos : Nat) : Option Nat :=
  rfind_below (fun i => s.get? i == some c) (min (pos + 1) s.length)

/-- Embeds `s.rfind(needle, pos)`: the last index `<= pos` at which `needle` starts. -/
def rfind_str (s needle : Str) (pos : Nat) : Option Nat :=
  if needle.length ≤ s.length then
    rfind_below (fun i => needle.isPrefixOf (s.drop i)) (min pos (s.length - needle.length) + 1)
  else none

/-- Embeds `s.substr(0, n)`. -/
def substr0 (s : Str) (n : Nat) : Str := s.take n

/-- Embeds `std::min(len, r)` where `r` is an index or `npos`. -/
def npos_min (len : Nat) (r : Option Nat) : Nat :=
  match r with
  | none => len
  | some i => min len i

/-- The literal of `find_first_of("*[\\")` in `Glob`. -/
def wildcard_chars : Str := ['*', '[', '\\']

/-- The literal `"**"` of `Walk`. -/
def double_star_str : Str := ['*', '*']

/-! ## Errors and outcomes -/

/-- Embeds `Azure::Core::Http::HttpStatusCode::NotFound`. -/
def HttpStatusCode_NotFound : Nat := 404

/-- Embeds `Azure::Storage::StorageException`, the fields the code reads. -/
structure StorageException where
  StatusCode : Nat
  ErrorCode : Str
  ReasonPhrase : Str
  Message : Str
  deriving DecidableEq, Repr

/-- What a call into the storage SDK can throw. -/
inductive RemoteFailure where
  | storage (e : StorageException)
  | other (what : Str)
  deriving DecidableEq, Repr

/-- The exceptions that leave the filesystem. -/
inductive Error where
  | InternalException (msg : Str)
  | NotImplementedException (msg : Str)
  | IOException (msg : Str)
  | Uncaught (f : RemoteFailure)
  | InvalidInput (msg : Str)
  deriving DecidableEq, Repr

/-- How a call ends: a value, an exception, or the page budget of the model ran out. -/
inductive Outcome (α : Type) where
  | value (a : α)
  | raised (e : Error)
  | exhausted
  deriving DecidableEq, Repr

deriving instance DecidableEq for Except

/-- The call raised `NotImplementedException`. -/
def Outcome.isNotSupported {α : Type} : Outcome α → Bool
  | .raised (.NotImplementedException _) => true
  | _ => false

/-- The call raised `IOException`. -/
def Outcome.isIOFailure {α : Type} : Outcome α → Bool
  | .raised (.IOException _) => true
  | _ => false

/-! ## Data model -/

/-- The structure `AzureParsedUrl`; its field `prefix` is written `prefix_`. -/
structure AzureParsedUrl where
  is_fully_qualified : Bool
  prefix_ : Str
  storage_account_name : Str
  endpoint : Str
  container : Str
  path : Str
  deriving DecidableEq, Repr

/-- An entry of `ListPathsResult::Paths`. -/
structure PathItem where
  Name : Str
  IsDirectory : Bool
  deriving DecidableEq, Repr

/-- One page of `ListPaths`. -/
structure ListPathsResult where
  Paths : List PathItem
  NextPageToken : Option Str
  deriving DecidableEq, Repr

/-- The fields of `GetProperties` the code reads (`LastModified` already as `time_t`). -/
structure PathProperties where
  IsDirectory : Bool
  FileSize : Nat
  LastModified : Nat
  deriving DecidableEq, Repr

/-- A call made to a collaborator, in the order issued. `depth` is the nesting depth
of the `Walk` frame that made it. -/
inductive Event where
  | GetOrCreateStorageContext (path : Str)
  | Walk (depth : Nat) (path : Str) (end_match : Nat)
  | ListPaths (depth : Nat) (path : Str) (recursive : Bool) (token : Option Str)
  | GetProperties (container : Str) (path : Str)
  | RenameFile (container : Str) (source : Str) (target : Str)
  | DeleteIfExists
  | Create
  | Append (data : List Byte) (offset : Nat) (flush : Bool)
  | Flush (position : Nat)
  | CreateDirectoryIfNotExists (container : Str) (name : Str)
  | DeleteDirectoryRecursiveIfExists (container : Str) (name : Str)
  | DeleteFileIfExists (container : Str) (name : Str)
  deriving DecidableEq, Repr

/-- Embeds `DataLakeFileSystemClient` of one container, as the responses it gives:
`ListPaths p r t` is `GetDirectoryClient(p).ListPaths(r, options)` with continuation `t`,
`GetProperties p` is `GetFileClient(p).GetProperties()`,
`CreateDirectoryIfNotExists p` is `GetDirectoryClient(p).CreateIfNotExists()`,
`DeleteDirectoryRecursiveIfExists p` is `GetDirectoryClient(p).DeleteRecursiveIfExists()`,
`DeleteFileIfExists p` is `GetFileClient(p).DeleteIfExists()`. -/
structure DataLakeFileSystemClient where
  ListPaths : Str → Bool → Option Str → Except RemoteFailure ListPathsResult
  GetProperties : Str → Except RemoteFailure PathProperties
  RenameFile : Str → Str → Except RemoteFailure Unit
  CreateDirectoryIfNotExists : Str → Except RemoteFailure Unit
  DeleteDirectoryRecursiveIfExists : Str → Except RemoteFailure Unit
  DeleteFileIfExists : Str → Except RemoteFailure Unit

/-- Embeds `AzureDfsContextState`. -/
structure AzureDfsContextState where
  GetDfsFileSystemClient : Str → DataLakeFileSystemClient

/-- Embeds `FileOpener`, identified by its session. -/
structure FileOpener where
  session : Nat
  deriving DecidableEq, Repr

/-- The collaborators of `AzureDfsStorageFileSystem` that lie outside the translated file. -/
structure Env where
  ParseUrl : Str → Except Error AzureParsedUrl
  GetOrCreateStorageContext : Option FileOpener → Str → AzureParsedUrl → Except Error AzureDfsContextState
  LikeFun_Glob : Str → Str → Bool

/-- The result of a path-level operation: the calls issued and how it ended. -/
structure Run (α : Type) where
  trace : List Event
  outcome : Outcome α
  deriving DecidableEq, Repr

/-! ## Walk -/

/-- The state `Walk` threads: `*out_result` and the calls issued so far. -/
structure WalkState where
  out_result : List Str
  trace : List Event
  deriving DecidableEq, Repr

/-- The body of `for (const auto &elt : res.Paths)`; `recurse name` is the nested
`Walk(fs, name, path_pattern, next_end_match, out_result)`. -/
def WalkEntries (recurse : Str → WalkState → WalkState × Outcome Unit)
    (LikeFun_Glob : Str → Str → Bool) (path_pattern : Str) (end_match : Nat) (recursive : Bool) :
    List PathItem → WalkState → WalkState × Outcome Unit
  | [], st => (st, .value ())
  | elt :: rest, st =>
    if elt.IsDirectory then
      if !recursive then
        if LikeFun_Glob elt.Name (path_pattern.take end_match) then
          if end_match ≥ path_pattern.length then
            WalkEntries recurse LikeFun_Glob path_pattern end_match recursive rest st
          else
            match recurse elt.Name st with
            | (st1, .value ()) =>
              WalkEntries recurse LikeFun_Glob path_pattern end_match recursive rest st1
            | (st1, o) => (st1, o)
        else WalkEntries recurse LikeFun_Glob path_pattern end_match recursive rest st
      else WalkEntries recurse LikeFun_Glob path_pattern end_match recursive rest st
    else
      if LikeFun_Glob elt.Name path_pattern then
        WalkEntries recurse LikeFun_Glob path_pattern end_match recursive rest
          { st with out_result := st.out_result ++ [elt.Name] }
      else WalkEntries recurse LikeFun_Glob path_pattern end_match recursive rest st

/-- The loop `while (true)` of `Walk`, one iteration per `ListPaths` call;
`token` is `options.ContinuationToken`. -/
def WalkPages (fs : DataLakeFileSystemClient)
    (recurse : Str → WalkState → WalkState × Outcome Unit)
    (LikeFun_Glob : Str → Str → Bool) (depth : Nat) (path path_pattern : Str) (end_match : Nat)
    (recursive : Bool) : Nat → Option Str → WalkState → WalkState × Outcome Unit
  | 0, _, st => (st, .exhausted)
  | fuel + 1, token, st =>
    let st0 : WalkState := { st with trace := st.trace ++ [Event.ListPaths depth path recursive token] }
    match fs.ListPaths path recursive token with
    | .error f => (st0, .raised (.Uncaught f))
    | .ok res =>
      match WalkEntries recurse LikeFun_Glob path_pattern end_match recursive res.Paths st0 with
      | (st1, .value ()) =>
        match res.NextPageToken with
        | some t =>
          WalkPages fs recurse LikeFun_Glob depth path path_pattern end_match recursive fuel (some t) st1
        | none => (st1, .value ())
      | (st1, o) => (st1, o)

/-- The message of the exception `Walk` throws. -/
def Walk_illegal_msg (path_pattern : Str) : Str :=
  "abfss do not manage recursive lookup patterns, ".toList ++ path_pattern ++
    " is therefor illegal, only pattern ending by ** are allowed.".toList

/-- The function `Walk`, with `gas` bounding the nesting of calls (see `Walk`) and `fuel` the pages of
one listing loop. -/
def WalkGas (fs : DataLakeFileSystemClient) (LikeFun_Glob : Str → Str → Bool) (path_pattern : Str)
    (fuel : Nat) : Nat → Nat → Str → Nat → WalkState → WalkState × Outcome Unit
  | 0, _, _, _, st => (st, .exhausted)
  | gas + 1, depth, path, end_match, st =>
    let st0 : WalkState := { st with trace := st.trace ++ [Event.Walk depth path end_match] }
    let recurse : Str → WalkState → WalkState × Outcome Unit := fun name s =>
      WalkGas fs LikeFun_Glob path_pattern fuel gas (depth + 1) name
        (npos_min path_pattern.length (find_char path_pattern '/' (end_match + 1))) s
    match rfind_str path_pattern double_star_str end_match with
    | some _ =>
      if path_pattern.length > end_match then
        (st0, .raised (.NotImplementedException (Walk_illegal_msg path_pattern)))
      else
        WalkPages fs recurse LikeFun_Glob depth path path_pattern end_match true fuel none st0
    | none =>
      WalkPages fs recurse LikeFun_Glob depth path path_pattern end_match false fuel none st0

/-- Embeds `Walk(fs, path, path_pattern, end_match, out_result)`. A nested call is made only with
`end_match < path_pattern.length()` and gets a larger `end_match`, so
`path_pattern.length() - end_match + 1` frames always suffice. -/
def Walk (fs : DataLakeFileSystemClient) (LikeFun_Glob : Str → Str → Bool) (fuel : Nat)
    (path path_pattern : Str) (end_match : Nat) (st : WalkState) : WalkState × Outcome Unit :=
  WalkGas fs LikeFun_Glob path_pattern fuel (path_pattern.length - end_match + 1) 0 path
    end_match st

/-! ## Listings as sequences of pages -/

/-- One listing loop followed to its end, nothing being done with the entries: the entries of
the pages fetched, in order, the calls issued, and how the loop ended. -/
def collectPages (fs : DataLakeFileSystemClient) (depth : Nat) (path : Str) (recursive : Bool) :
    Nat → Option Str → List PathItem × List Event × Outcome Unit
  | 0, _ => ([], [], .exhausted)
  | fuel + 1, token =>
    match fs.ListPaths path recursive token with
    | .error f => ([], [Event.ListPaths depth path recursive token], .raised (.Uncaught f))
    | .ok res =>
      match res.NextPageToken with
      | none => (res.Paths, [Event.ListPaths depth path recursive token], .value ())
      | some t =>
        let r := collectPages fs depth path recursive fuel (some t)
        (res.Paths ++ r.1, Event.ListPaths depth path recursive token :: r.2.1, r.2.2)

/-- The names of the files among `entries` that match the whole pattern, in order. -/
def matchingFiles (LikeFun_Glob : Str → Str → Bool) (path_pattern : Str) (entries : List PathItem) :
    List Str :=
  (entries.filter (fun elt => !elt.IsDirectory && LikeFun_Glob elt.Name path_pattern)).map
    (fun elt => elt.Name)

/-- The listing of `path` in mode `recursive`, asked from `token` on, is served in exactly the
pages `pages`: every page but the last carries the token that fetches the next one. -/
def servedInPages (fs : DataLakeFileSystemClient) (path : Str) (recursive : Bool) :
    Option Str → List ListPathsResult → Bool
  | _, [] => false
  | token, [page] =>
    decide (fs.ListPaths path recursive token = .ok page) && page.NextPageToken.isNone
  | token, page :: next :: rest =>
    decide (fs.ListPaths path recursive token = .ok page) && page.NextPageToken.isSome &&
      servedInPages fs path recursive page.NextPageToken (next :: rest)

/-- One listing call per page, each continuing from the token of the page before. -/
def pageCalls (depth : Nat) (path : Str) (recursive : Bool) :
    Option Str → List ListPathsResult → List Event
  | _, [] => []
  | token, page :: rest =>
    Event.ListPaths depth path recursive token :: pageCalls depth path recursive page.NextPageToken rest

/-- The entries of `pages` as one page without a continuation token. -/
def mergedPage (pages : List ListPathsResult) : ListPathsResult :=
  { Paths := (pages.map (fun page => page.Paths)).flatten, NextPageToken := none }

/-- The client `fs`, except that the listing of `path` in mode `recursive` is answered in one
page holding the entries of `pages`. -/
def serveMerged (fs : DataLakeFileSystemClient) (path : Str) (recursive : Bool)
    (pages : List ListPathsResult) : DataLakeFileSystemClient :=
  { fs with
    ListPaths := fun p r t =>
      if p = path ∧ r = recursive ∧ t = none then .ok (mergedPage pages)
      else fs.ListPaths p r t }

/-- Two runs of `Walk` agree on what its caller sees: `*out_result` and how the call ended. -/
def sameResult (a b : WalkState × Outcome Unit) : Prop :=
  a.1.out_result = b.1.out_result ∧ a.2 = b.2

/-- The event comes from a `Walk` frame nested at depth `d` or deeper. -/
def Event.atDepthGe (d : Nat) : Event → Bool
  | .Walk d1 _ _ => decide (d ≤ d1)
  | .ListPaths d1 _ _ _ => decide (d ≤ d1)
  | _ => false

/-- The listing calls among `evs` made by the frame at depth `d`. -/
def ownListings (d : Nat) (evs : List Event) : List Event :=
  evs.filter (fun e =>
    match e with
    | .ListPaths d1 _ _ _ => d1 == d
    | _ => false)

/-! ## Glob -/

/-- Embeds `index_root_dir` of `Glob`. -/
def Glob_index_root_dir (p : Str) (first_wildcard_pos : Nat) : Nat :=
  match rfind_char p '/' first_wildcard_pos with
  | none => 0
  | some i => i

/-- Embeds `shared_path` of `Glob`. -/
def Glob_shared_path (p : Str) (first_wildcard_pos : Nat) : Str :=
  substr0 p (Glob_index_root_dir p first_wildcard_pos)

/-- The `end_match` argument of the call of `Walk` in `Glob`. -/
def Glob_end_match (p : Str) (first_wildcard_pos : Nat) : Nat :=
  npos_min p.length (find_char p '/' (Glob_index_root_dir p first_wildcard_pos + 1))

/-- Embeds `path_result_prefix` of `Glob`. -/
def Glob_path_result_prefix (azure_url : AzureParsedUrl) : Str :=
  (if azure_url.is_fully_qualified then
      azure_url.prefix_ ++ azure_url.storage_account_name ++ ['.'] ++ azure_url.endpoint ++ ['/'] ++
        azure_url.container
    else azure_url.prefix_ ++ azure_url.container) ++ ['/']

/-- The end of `Glob`, from `if (!result.empty())` on: a non-empty result is rewritten with
`path_result_prefix`; an exception of `Walk` leaves `Glob`. -/
def Glob_return (azure_url : AzureParsedUrl) (walked : WalkState × Outcome Unit) :
    Run (List Str) :=
  match walked with
  | (st, .value ()) =>
    if st.out_result.isEmpty then ⟨st.trace, .value st.out_result⟩
    else
      ⟨st.trace, .value (st.out_result.map (fun elt => Glob_path_result_prefix azure_url ++ elt))⟩
  | (st, .raised e) => ⟨st.trace, .raised e⟩
  | (st, .exhausted) => ⟨st.trace, .exhausted⟩

/-- Embeds `AzureDfsStorageFileSystem::Glob(path, opener)`. -/
def Glob (env : Env) (fuel : Nat) (path : Str) (opener : Option FileOpener) : Run (List Str) :=
  match opener with
  | none =>
    ⟨[], .raised (.InternalException "Cannot do Azure storage Glob without FileOpener".toList)⟩
  | some op =>
    match env.ParseUrl path with
    | .error e => ⟨[], .raised e⟩
    | .ok azure_url =>
      match find_first_of azure_url.path wildcard_chars with
      | none => ⟨[], .value [path]⟩
      | some first_wildcard_pos =>
        match env.GetOrCreateStorageContext (some op) path azure_url with
        | .error e => ⟨[Event.GetOrCreateStorageContext path], .raised e⟩
        | .ok storage_context =>
          let dfs_filesystem_client := storage_context.GetDfsFileSystemClient azure_url.container
          Glob_return azure_url
            (Walk dfs_filesystem_client env.LikeFun_Glob fuel
              (Glob_shared_path azure_url.path first_wildcard_pos) azure_url.path
              (Glob_end_match azure_url.path first_wildcard_pos)
              ⟨[], [Event.GetOrCreateStorageContext path]⟩)

/-- The prefix of the paths `Glob` returns, without its final separator: scheme prefix,
storage account, a dot, endpoint, a slash and the container for a fully qualified locator;
scheme prefix and container otherwise. -/
def canonicalPrefix (azure_url : AzureParsedUrl) : Str :=
  if azure_url.is_fully_qualified then
    azure_url.prefix_ ++ azure_url.storage_account_name ++ ['.'] ++ azure_url.endpoint ++ ['/'] ++
      azure_url.container
  else azure_url.prefix_ ++ azure_url.container

/-- The name `name` was returned by one of the listing calls among `evs`, as an entry that is
not a directory, and `LikeFun::Glob` accepts it for the whole pattern. -/
def ListedFile (fs : DataLakeFileSystemClient) (LikeFun_Glob : Str → Str → Bool)
    (path_pattern : Str) (evs : List Event) (name : Str) : Prop :=
  ∃ depth path recursive token res elt,
    Event.ListPaths depth path recursive token ∈ evs ∧
    fs.ListPaths path recursive token = .ok res ∧ elt ∈ res.Paths ∧
    elt.IsDirectory = false ∧ elt.Name = name ∧ LikeFun_Glob name path_pattern = true

/-- The event comes from inside the frame at depth `d`: a listing call of that frame or of a
nested one, or the entry of a nested frame. -/
def Event.insideFrame (d : Nat) : Event → Bool
  | .Walk d1 _ _ => decide (d + 1 ≤ d1)
  | .ListPaths d1 _ _ _ => decide (d ≤ d1)
  | _ => false

/-- The event is not a call of a `Walk` frame nested deeper than `b`. -/
def Event.depthAtMost (b : Nat) : Event → Bool
  | .Walk d1 _ _ => decide (d1 ≤ b)
  | .ListPaths d1 _ _ _ => decide (d1 ≤ b)
  | _ => true

/-- The frame of `Walk` on `path` with `end_match` enters a nested frame on `name` with
`end_match1` under these conditions: it is not in recursive mode, `end_match` lies inside the
pattern, `name` is a directory entry of one of its listing pages and matches the pattern up
to `end_match`, and `end_match1` is the next `end_match`, strictly larger and within the
pattern. -/
def RecursesInto (fs : DataLakeFileSystemClient) (LikeFun_Glob : Str → Str → Bool)
    (path_pattern path : Str) (end_match : Nat) (name : Str) (end_match1 : Nat) : Prop :=
  rfind_str path_pattern double_star_str end_match = none ∧
  end_match < path_pattern.length ∧
  LikeFun_Glob name (path_pattern.take end_match) = true ∧
  (∃ token res elt, fs.ListPaths path false token = .ok res ∧ elt ∈ res.Paths ∧
    elt.IsDirectory = true ∧ elt.Name = name) ∧
  end_match1 = npos_min path_pattern.length (find_char path_pattern '/' (end_match + 1)) ∧
  end_match < end_match1 ∧ end_match1 ≤ path_pattern.length

/-! ## Existence probes and move -/

/-- Embeds `AzureDfsStorageFileSystem::GetName()`. -/
def GetName : Str := "AzureDfsStorageFileSystem".toList

/-- Embeds `AzureDfsStorageFileSystem::PATH_PREFIX`. -/
def PATH_PREFIX : Str := "abfss://".toList

/-- A `DataLakeFileClient` obtained from a filesystem client: the object it addresses. -/
structure PathFileClient where
  fs : DataLakeFileSystemClient
  container : Str
  name : Str

/-- Embeds `file_client.GetProperties()`. -/
def PathFileClient.GetProperties (c : PathFileClient) : Except RemoteFailure PathProperties :=
  c.fs.GetProperties c.name

/-- Embeds `AzureDfsStorageFileSystem::CreateFileClient(opener, path, parsed_url)`. -/
def CreateFileClient (env : Env) (opener : Option FileOpener) (path : Str)
    (parsed_url : AzureParsedUrl) : Except Error PathFileClient :=
  match env.GetOrCreateStorageContext opener path parsed_url with
  | .error e => .error e
  | .ok storage_context =>
    let file_system_client := storage_context.GetDfsFileSystemClient parsed_url.container
    .ok { fs := file_system_client, container := parsed_url.container, name := parsed_url.path }

/-- The message of the `IOException` of `FileExists`: the format string
`%s Failed to check if file exits '%s' failed with code'%s', Reason Phrase: '%s', Message: '%s'`
filled with `GetName()`, the file name and the three fields of the exception. -/
def FileExists_msg (filename : Str) (e : StorageException) : Str :=
  GetName ++ " Failed to check if file exits '".toList ++ filename ++
    "' failed with code'".toList ++ e.ErrorCode ++ "', Reason Phrase: '".toList ++
    e.ReasonPhrase ++ "', Message: '".toList ++ e.Message ++ "'".toList

/-- The message of the `IOException` of `DirectoryExists`: the format string
`%s Failed to check if directory exits '%s' failed with code'%s', Reason Phrase: '%s', Message: '%s'`
filled with `GetName()`, the directory name and the three fields of the exception. -/
def DirectoryExists_msg (directory : Str) (e : StorageException) : Str :=
  GetName ++ " Failed to check if directory exits '".toList ++ directory ++
    "' failed with code'".toList ++ e.ErrorCode ++ "', Reason Phrase: '".toList ++
    e.ReasonPhrase ++ "', Message: '".toList ++ e.Message ++ "'".toList

/-- Embeds `AzureDfsStorageFileSystem::FileExists(filename, opener)`. -/
def FileExists (env : Env) (filename : Str) (opener : Option FileOpener) : Run Bool :=
  match env.ParseUrl filename with
  | .error e => ⟨[], .raised e⟩
  | .ok parsed_url =>
    match CreateFileClient env opener filename parsed_url with
    | .error e => ⟨[Event.GetOrCreateStorageContext filename], .raised e⟩
    | .ok file_client =>
      let trace := [Event.GetOrCreateStorageContext filename,
        Event.GetProperties file_client.container file_client.name]
      match file_client.GetProperties with
      | .ok properties => ⟨trace, .value (!properties.IsDirectory)⟩
      | .error (.storage e) =>
        if e.StatusCode = HttpStatusCode_NotFound then ⟨trace, .value false⟩
        else ⟨trace, .raised (.IOException (FileExists_msg filename e))⟩
      | .error (.other what) => ⟨trace, .raised (.Uncaught (.other what))⟩

/-- Embeds `AzureDfsStorageFileSystem::DirectoryExists(directory, opener)`. -/
def DirectoryExists (env : Env) (directory : Str) (opener : Option FileOpener) : Run Bool :=
  match env.ParseUrl directory with
  | .error e => ⟨[], .raised e⟩
  | .ok parsed_url =>
    match CreateFileClient env opener directory parsed_url with
    | .error e => ⟨[Event.GetOrCreateStorageContext directory], .raised e⟩
    | .ok file_client =>
      let trace := [Event.GetOrCreateStorageContext directory,
        Event.GetProperties file_client.container file_client.name]
      match file_client.GetProperties with
      | .ok properties => ⟨trace, .value properties.IsDirectory⟩
      | .error (.storage e) =>
        if e.StatusCode = HttpStatusCode_NotFound then ⟨trace, .value false⟩
        else ⟨trace, .raised (.IOException (DirectoryExists_msg directory e))⟩
      | .error (.other what) => ⟨trace, .raised (.Uncaught (.other what))⟩

/-- The message of the exception of `MoveFile`: the format string
`Cannot move files ('%s' => '%s') into a different container/storage account.` filled with
the two paths. -/
def MoveFile_msg (source target : Str) : Str :=
  "Cannot move files ('".toList ++ source ++ "' => '".toList ++ target ++
    "') into a different container/storage account.".toList

/-- Embeds `AzureDfsStorageFileSystem::MoveFile(source, target, opener)`. -/
def MoveFile (env : Env) (source target : Str) (opener : Option FileOpener) : Run Unit :=
  match env.ParseUrl source with
  | .error e => ⟨[], .raised e⟩
  | .ok source_url =>
    match env.ParseUrl target with
    | .error e => ⟨[], .raised e⟩
    | .ok target_url =>
      if source_url.container ≠ target_url.container ∧
          source_url.storage_account_name ≠ target_url.storage_account_name then
        ⟨[], .raised (.NotImplementedException (MoveFile_msg source target))⟩
      else
        match env.GetOrCreateStorageContext opener source source_url with
        | .error e => ⟨[Event.GetOrCreateStorageContext source], .raised e⟩
        | .ok storage_context =>
          let file_system_client := storage_context.GetDfsFileSystemClient source_url.container
          let trace := [Event.GetOrCreateStorageContext source,
            Event.RenameFile source_url.container source_url.path target_url.path]
          match file_system_client.RenameFile source_url.path target_url.path with
          | .ok () => ⟨trace, .value ()⟩
          | .error f => ⟨trace, .raised (.Uncaught f)⟩

/-! ## Directories and removal -/

/-- Embeds `AzureDfsStorageFileSystem::CreateDirectory(directory, opener)`. The directory client
is obtained with `GetDirectoryClient(directory)`: its argument is the parameter `directory`. -/
def CreateDirectory (env : Env) (directory : Str) (opener : Option FileOpener) : Run Unit :=
  match env.ParseUrl directory with
  | .error e => ⟨[], .raised e⟩
  | .ok parsed_url =>
    match env.GetOrCreateStorageContext opener directory parsed_url with
    | .error e => ⟨[Event.GetOrCreateStorageContext directory], .raised e⟩
    | .ok storage_context =>
      let file_system_client := storage_context.GetDfsFileSystemClient parsed_url.container
      let trace := [Event.GetOrCreateStorageContext directory,
        Event.CreateDirectoryIfNotExists parsed_url.container directory]
      match file_system_client.CreateDirectoryIfNotExists directory with
      | .ok () => ⟨trace, .value ()⟩
      | .error f => ⟨trace, .raised (.Uncaught f)⟩

/-- Embeds `AzureDfsStorageFileSystem::RemoveDirectory(directory, opener)`. The directory client
is obtained with `GetDirectoryClient(directory)`: its argument is the parameter `directory`. -/
def RemoveDirectory (env : Env) (directory : Str) (opener : Option FileOpener) : Run Unit :=
  match env.ParseUrl directory with
  | .error e => ⟨[], .raised e⟩
  | .ok parsed_url =>
    match env.GetOrCreateStorageContext opener directory parsed_url with
    | .error e => ⟨[Event.GetOrCreateStorageContext directory], .raised e⟩
    | .ok storage_context =>
      let file_system_client := storage_context.GetDfsFileSystemClient parsed_url.container
      let trace := [Event.GetOrCreateStorageContext directory,
        Event.DeleteDirectoryRecursiveIfExists parsed_url.container directory]
      match file_system_client.DeleteDirectoryRecursiveIfExists directory with
      | .ok () => ⟨trace, .value ()⟩
      | .error f => ⟨trace, .raised (.Uncaught f)⟩

/-- Embeds `AzureDfsStorageFileSystem::RemoveFile(filename, opener)`. -/
def RemoveFile (env : Env) (filename : Str) (opener : Option FileOpener) : Run Unit :=
  match env.ParseUrl filename with
  | .error e => ⟨[], .raised e⟩
  | .ok parsed_url =>
    match CreateFileClient env opener filename parsed_url with
    | .error e => ⟨[Event.GetOrCreateStorageContext filename], .raised e⟩
    | .ok file_client =>
      let trace := [Event.GetOrCreateStorageContext filename,
        Event.DeleteFileIfExists file_client.container file_client.name]
      match file_client.fs.DeleteFileIfExists file_client.name with
      | .ok () => ⟨trace, .value ()⟩
      | .error f => ⟨trace, .raised (.Uncaught f)⟩

/-- The remote object a call addresses, as container and name; `none` for the calls that
address no object by name. -/
def Event.addressed : Event → Option (Str × Str)
  | .GetProperties container path => some (container, path)
  | .CreateDirectoryIfNotExists container name => some (container, name)
  | .DeleteDirectoryRecursiveIfExists container name => some (container, name)
  | .DeleteFileIfExists container name => some (container, name)
  | _ => none

/-- The objects addressed by the calls of a trace, in order. -/
def addressedObjects (trace : List Event) : List (Str × Str) :=
  trace.filterMap Event.addressed

/-! ## Handles: write, sync, create -/

/-- Embeds `FileOpenFlags`, the one query the code makes. -/
structure FileOpenFlags where
  OpenForWriting : Bool
  deriving DecidableEq, Repr

/-- Embeds `AzureDfsStorageFileHandle`: the fields these operations read or write.
`length` is an `idx_t` (64 bits), `last_modified` a `time_t`. -/
structure AzureDfsStorageFileHandle where
  path : Str
  flags : FileOpenFlags
  length : Nat
  last_modified : Nat
  deriving DecidableEq, Repr

/-- The `DataLakeFileClient` of a handle, acting on a remote state `σ`. `Create` and
`Flush` answer with `LastModified`. -/
structure DataLakeFileClient (σ : Type) where
  DeleteIfExists : σ → Except RemoteFailure σ
  Create : σ → Except RemoteFailure (Nat × σ)
  Append : List Byte → Nat → Bool → σ → Except RemoteFailure σ
  Flush : Nat → σ → Except RemoteFailure (Nat × σ)

/-- A handle, the remote it talks to, and the calls issued so far. -/
structure HandleState (σ : Type) where
  hfh : AzureDfsStorageFileHandle
  remote : σ
  trace : List Event

/-- The message of `AssertOpenForWriting`. -/
def AssertOpenForWriting_msg (path : Str) : Str :=
  path ++ " hasn't been open with any writing flags".toList

/-- Embeds `AzureDfsStorageFileSystem::Write(handle, buffer, nr_bytes, location)`. -/
def Write {σ : Type} (file_client : DataLakeFileClient σ) (s : HandleState σ)
    (buffer : List Byte) (nr_bytes : Nat) (location : Nat) : HandleState σ × Outcome Unit :=
  if !s.hfh.flags.OpenForWriting then
    (s, .raised (.IOException (AssertOpenForWriting_msg s.hfh.path)))
  else if location ≠ s.hfh.length then
    (s, .raised (.NotImplementedException "Non-sequential write not supported!".toList))
  else
    let mbs := buffer.take nr_bytes
    let trace := s.trace ++ [Event.Append mbs location false]
    match file_client.Append mbs location false s.remote with
    | .error f => ({ s with trace := trace }, .raised (.Uncaught f))
    | .ok remote1 =>
      ({ hfh := { s.hfh with length := (s.hfh.length + nr_bytes) % 2 ^ 64 },
         remote := remote1, trace := trace }, .value ())

/-- Embeds `AzureDfsStorageFileSystem::FileSync(handle)`. -/
def FileSync {σ : Type} (file_client : DataLakeFileClient σ) (s : HandleState σ) :
    HandleState σ × Outcome Unit :=
  if !s.hfh.flags.OpenForWriting then
    (s, .raised (.IOException (AssertOpenForWriting_msg s.hfh.path)))
  else
    let trace := s.trace ++ [Event.Flush s.hfh.length]
    match file_client.Flush s.hfh.length s.remote with
    | .error f => ({ s with trace := trace }, .raised (.Uncaught f))
    | .ok (last_modified, remote1) =>
      ({ hfh := { s.hfh with last_modified := last_modified }, remote := remote1, trace := trace },
        .value ())

/-- Embeds `AzureDfsStorageFileSystem::CreateOrOverwrite(handle)`. -/
def CreateOrOverwrite {σ : Type} (file_client : DataLakeFileClient σ) (s : HandleState σ) :
    HandleState σ × Outcome Unit :=
  if !s.hfh.flags.OpenForWriting then
    (s, .raised (.IOException (AssertOpenForWriting_msg s.hfh.path)))
  else
    let trace1 := s.trace ++ [Event.DeleteIfExists]
    match file_client.DeleteIfExists s.remote with
    | .error f => ({ s with trace := trace1 }, .raised (.Uncaught f))
    | .ok remote1 =>
      let trace2 := trace1 ++ [Event.Create]
      match file_client.Create remote1 with
      | .error f => ({ s with remote := remote1, trace := trace2 }, .raised (.Uncaught f))
      | .ok (last_modified, remote2) =>
        ({ hfh := { s.hfh with length := 0, last_modified := last_modified },
           remote := remote2, trace := trace2 }, .value ())

/-- The sequence `CreateOrOverwrite(h); Write(h, b, |b|, 0); FileSync(h)`, stopping at the
first call that does not return. -/
def createWriteSync {σ : Type} (file_client : DataLakeFileClient σ) (s : HandleState σ)
    (b : List Byte) : HandleState σ × Outcome Unit :=
  match CreateOrOverwrite file_client s with
  | (s1, .value ()) =>
    match Write file_client s1 b b.length 0 with
    | (s2, .value ()) => FileSync file_client s2
    | (s2, o) => (s2, o)
  | (s1, o) => (s1, o)

/-! ## A remote object with uncommitted appends -/

/-- One remote object: created or not, the bytes appended so far, and how many of them a
flush has committed. -/
structure ModelFile where
  present : Bool
  appended : List Byte
  committed : Nat
  clock : Nat
  deriving DecidableEq, Repr

/-- What a reader of the object sees: the committed bytes. -/
def ModelFile.readable (f : ModelFile) : List Byte := f.appended.take f.committed

/-- The failure the model answers to a call it cannot serve. -/
def modelFailure (status : Nat) (code : String) : RemoteFailure :=
  .storage { StatusCode := status, ErrorCode := code.toList, ReasonPhrase := [], Message := [] }

/-- The storage service seen by one file client: create yields an empty object, append adds
uncommitted bytes at the given offset (which must be the end of the data uploaded so far),
flush `n` commits the first `n` bytes. -/
def modelFileClient : DataLakeFileClient ModelFile where
  DeleteIfExists := fun f =>
    .ok { present := false, appended := [], committed := 0, clock := f.clock + 1 }
  Create := fun f =>
    .ok (f.clock + 1, { present := true, appended := [], committed := 0, clock := f.clock + 1 })
  Append := fun data offset _ f =>
    if !f.present then .error (modelFailure 404 "PathNotFound")
    else if offset ≠ f.appended.length then .error (modelFailure 400 "InvalidRange")
    else .ok { f with appended := f.appended ++ data }
  Flush := fun position f =>
    if !f.present then .error (modelFailure 404 "PathNotFound")
    else if position > f.appended.length then .error (modelFailure 400 "InvalidFlushPosition")
    else .ok (f.clock + 1, { f with committed := position, clock := f.clock + 1 })

/-! ## Sample collaborators

Concrete values for the parameters, used where a statement is evaluated at an input. -/

/-- A glob matcher in the manner of `LikeFun::Glob`, without classes and escapes: an asterisk
matches any run of bytes, a question mark one byte. The first argument bounds the recursion. -/
def sampleGlobFuel : Nat → List Char → List Char → Bool
  | 0, _, _ => false
  | _ + 1, [], [] => true
  | _ + 1, [], _ :: _ => false
  | n + 1, c :: p, [] => if c == '*' then sampleGlobFuel n p [] else false
  | n + 1, c :: p, d :: s =>
    if c == '*' then sampleGlobFuel n p (d :: s) || sampleGlobFuel n (c :: p) s
    else if c == '?' then sampleGlobFuel n p s
    else c == d && sampleGlobFuel n p s

/-- The sample matcher, in the argument order of `LikeFun::Glob`: string, then pattern. -/
def sampleGlob (name pattern : Str) : Bool :=
  sampleGlobFuel (name.length + pattern.length + 1) pattern name

/-- Modelled from the spec: the locator parser is not among the translated sources. This one
reads the short form `abfss://container/object_path` and, when the first segment has a dot, the
fully qualified form `abfss://account.endpoint/container/object_path`. -/
def sampleParseUrl (url : Str) : Except Error AzureParsedUrl :=
  if PATH_PREFIX.isPrefixOf url then
    let rest := url.drop PATH_PREFIX.length
    let first := rest.takeWhile (fun c => c != '/')
    let after := (rest.dropWhile (fun c => c != '/')).drop 1
    if first.contains '.' then
      .ok { is_fully_qualified := true, prefix_ := PATH_PREFIX,
            storage_account_name := first.takeWhile (fun c => c != '.'),
            endpoint := (first.dropWhile (fun c => c != '.')).drop 1,
            container := after.takeWhile (fun c => c != '/'),
            path := (after.dropWhile (fun c => c != '/')).drop 1 }
    else
      .ok { is_fully_qualified := false, prefix_ := PATH_PREFIX, storage_account_name := [],
            endpoint := [], container := first, path := after }
  else .error (.InvalidInput url)

/-- The continuation token that asks for page `i`. -/
def pageToken (i : Nat) : Str := List.replicate i 'p'

/-- A listing service over finitely many pages per directory and mode: page `i` carries the
token of page `i + 1` unless it is the last. -/
def servePages (listing : Str → Bool → List (List PathItem)) (path : Str) (recursive : Bool)
    (token : Option Str) : Except RemoteFailure ListPathsResult :=
  let pages := listing path recursive
  let i := match token with
    | none => 0
    | some t => t.length
  match pages.get? i with
  | none => if i = 0 then .ok ⟨[], none⟩ else .error (.other "unknown continuation token".toList)
  | some page => .ok ⟨page, if i + 1 < pages.length then some (pageToken (i + 1)) else none⟩

/-- A filesystem client over `servePages` that answers `GetProperties` from `properties`. -/
def sampleClientWith (listing : Str → Bool → List (List PathItem))
    (properties : Str → Except RemoteFailure PathProperties) : DataLakeFileSystemClient where
  ListPaths := servePages listing
  GetProperties := properties
  RenameFile := fun _ _ => .ok ()
  CreateDirectoryIfNotExists := fun _ => .ok ()
  DeleteDirectoryRecursiveIfExists := fun _ => .ok ()
  DeleteFileIfExists := fun _ => .ok ()

/-- A filesystem client over `servePages`; it holds no object properties. -/
def sampleClient (listing : Str → Bool → List (List PathItem)) : DataLakeFileSystemClient :=
  sampleClientWith listing (fun _ => .error (modelFailure 404 "PathNotFound"))

/-- An environment in which every container is served by `fs`. -/
def sampleEnv (fs : DataLakeFileSystemClient) : Env where
  ParseUrl := sampleParseUrl
  GetOrCreateStorageContext := fun _ _ _ => .ok ⟨fun _ => fs⟩
  LikeFun_Glob := sampleGlob

/-- The store with nothing in it. -/
def emptyListing : Str → Bool → List (List PathItem) := fun _ _ => []

/-- An entry of a listing. -/
def item (name : String) (isDirectory : Bool) : PathItem :=
  { Name := name.toList, IsDirectory := isDirectory }

/-- A small store: `a` holds two sub-directories and is listed in two pages, `dir` holds two
files, `logs` is listed recursively in two pages. -/
def sampleListing : Str → Bool → List (List PathItem) := fun path recursive =>
  if path = "a".toList ∧ recursive = false then
    [[item "a/x" true, item "a/f1" false], [item "a/y" true]]
  else if path = "a/x".toList ∧ recursive = false then
    [[item "a/x/b1" false], [item "a/x/c" false, item "a/x/b2" false]]
  else if path = "a/y".toList ∧ recursive = false then
    [[item "a/y/b1" false]]
  else if path = "dir".toList ∧ recursive = false then
    [[item "dir/f1.csv" false, item "dir/f22.csv" false]]
  else if path = "logs".toList ∧ recursive = true then
    [[item "logs/2024" true, item "logs/2024/jan.log" false],
     [item "logs/2024/feb.log" false, item "logs/readme" false]]
  else []

/-- Object properties of a small store: `dir` is a directory, `dir/f1.csv` a file, `locked`
cannot be read, nothing else is there. -/
def sampleProperties (path : Str) : Except RemoteFailure PathProperties :=
  if path = "dir".toList then .ok { IsDirectory := true, FileSize := 0, LastModified := 5 }
  else if path = "dir/f1.csv".toList then
    .ok { IsDirectory := false, FileSize := 10, LastModified := 6 }
  else if path = "locked".toList then .error (modelFailure 403 "AuthorizationFailure")
  else .error (modelFailure 404 "PathNotFound")

/-- An object of a remote store keyed by container and name. -/
structure StoreObject where
  container : Str
  name : Str
  isDirectory : Bool
  deriving DecidableEq, Repr

/-- The object `o` is the one keyed by `container` and `name`. -/
def StoreObject.isAt (container name : Str) (o : StoreObject) : Bool :=
  o.container == container && o.name == name

/-- The object `o` lies under the directory keyed by `container` and `name`. -/
def StoreObject.isUnder (container name : Str) (o : StoreObject) : Bool :=
  o.container == container && (name ++ ['/']).isPrefixOf o.name

/-- The effect of a call on a remote store keyed by container and name: create-if-absent adds
a directory under the key it is given, the deletions remove what is under their key, every
other call leaves the store as it is. -/
def applyCall (store : List StoreObject) : Event → List StoreObject
  | .CreateDirectoryIfNotExists container name =>
    if store.any (StoreObject.isAt container name) then store
    else store ++ [{ container := container, name := name, isDirectory := true }]
  | .DeleteDirectoryRecursiveIfExists container name =>
    store.filter (fun o => !(o.isAt container name || o.isUnder container name))
  | .DeleteFileIfExists container name =>
    store.filter (fun o => !(o.isAt container name))
  | _ => store

/-- The filesystem client of `container` over a keyed store: properties are looked up under
container and name, absent objects answer `NotFound`. -/
def storeClient (store : List StoreObject) (container : Str) : DataLakeFileSystemClient :=
  sampleClientWith emptyListing (fun name =>
    match store.find? (StoreObject.isAt container name) with
    | some o => .ok { IsDirectory := o.isDirectory, FileSize := 0, LastModified := 0 }
    | none => .error (modelFailure 404 "PathNotFound"))

/-- The environment over a keyed store. -/
def storeEnv (store : List StoreObject) : Env where
  ParseUrl := sampleParseUrl
  GetOrCreateStorageContext := fun _ _ _ => .ok ⟨fun container => storeClient store container⟩
  LikeFun_Glob := sampleGlob

/-- A handle opened for writing on an object that holds two uncommitted bytes. -/
def sampleHandle : HandleState ModelFile :=
  { hfh := { path := "abfss://data/out.bin".toList, flags := ⟨true⟩, length := 2, last_modified := 0 },
    remote := { present := true, appended := [1, 2], committed := 0, clock := 3 },
    trace := [] }

/-! # Theorems -/

/-! ## String search -/

/-- The downward scan finds nothing exactly when the predicate fails below the bound. -/
theorem rfind_below_eq_none (p : Nat → Bool) (n : Nat) :
    rfind_below p n = none ↔ ∀ j, j < n → p j = false := by
  induction n with
  | zero => simp [rfind_below]
  | succ n ih =>
    cases hp : p n with
    | true =>
      simp only [rfind_below, hp, if_true]
      constructor
      · intro hc; cases hc
      · intro hall
        have := hall n (Nat.lt_succ_self n)
        rw [hp] at this; cases this
    | false =>
      have hstep : rfind_below p (n + 1) = rfind_below p n := by simp [rfind_below, hp]
      rw [hstep, ih]
      constructor
      · intro hall j hj
        rcases Nat.lt_succ_iff_lt_or_eq.mp hj with hlt | heq
        · exact hall j hlt
        · subst heq; exact hp
      · intro hall j hj
        exact hall j (Nat.lt_succ_of_lt hj)

/-- The downward scan returns the largest index below the bound at which the predicate holds. -/
theorem rfind_below_eq_some (p : Nat → Bool) (n i : Nat) (h : rfind_below p n = some i) :
    i < n ∧ p i = true ∧ ∀ j, i < j → j < n → p j = false := by
  induction n with
  | zero => simp [rfind_below] at h
  | succ n ih =>
    cases hp : p n with
    | true =>
      simp only [rfind_below, hp, if_true, Option.some.injEq] at h
      subst h
      exact ⟨Nat.lt_succ_self _, hp, fun j h1 h2 => absurd h1 (by omega)⟩
    | false =>
      have hstep : rfind_below p (n + 1) = rfind_below p n := by simp [rfind_below, hp]
      rw [hstep] at h
      obtain ⟨h1, h2, h3⟩ := ih h
      refine ⟨by omega, h2, ?_⟩
      intro j hij hj
      rcases Nat.lt_succ_iff_lt_or_eq.mp hj with hlt | heq
      · exact h3 j hij hlt
      · subst heq; exact hp

/-- The upward scan finds nothing exactly when the predicate fails on every byte. -/
theorem find_from_eq_none (p : Char → Bool) (s : List Char) (i : Nat) :
    find_from p s i = none ↔ ∀ c ∈ s, p c = false := by
  induction s generalizing i with
  | nil => simp [find_from]
  | cons c cs ih =>
    simp only [find_from, List.mem_cons, forall_eq_or_imp]
    by_cases h : p c = true
    · simp [h]
    · simp [h, ih]

/-- The upward scan returns the first position at which the predicate holds. -/
theorem find_from_eq_some (p : Char → Bool) (s : List Char) (k r : Nat)
    (h : find_from p s k = some r) :
    k ≤ r ∧ (∃ c, s[r - k]? = some c ∧ p c = true) ∧
      ∀ j, j < r - k → ∀ c, s[j]? = some c → p c = false := by
  induction s generalizing k with
  | nil => simp [find_from] at h
  | cons c cs ih =>
    cases hp : p c with
    | true =>
      simp only [find_from, hp, if_true, Option.some.injEq] at h
      subst h
      simp [hp]
    | false =>
      have hstep : find_from p (c :: cs) k = find_from p cs (k + 1) := by simp [find_from, hp]
      rw [hstep] at h
      obtain ⟨h1, ⟨d, h2, h3⟩, h4⟩ := ih (k + 1) h
      have hrk : r - k = (r - (k + 1)) + 1 := by omega
      refine ⟨by omega, ⟨d, ?_, h3⟩, ?_⟩
      · rw [hrk, List.getElem?_cons_succ]; exact h2
      · intro j hj e he
        cases j with
        | zero => simp at he; subst he; exact hp
        | succ j =>
          rw [List.getElem?_cons_succ] at he
          exact h4 j (by omega) e he

/-- A result of `find_first_of` holds one of the bytes sought, and no earlier index does. -/
theorem find_first_of_eq_some (s chars : Str) (w : Nat) (h : find_first_of s chars = some w) :
    (∃ c, s[w]? = some c ∧ c ∈ chars) ∧ ∀ j, j < w → ∀ c, s[j]? = some c → c ∉ chars := by
  obtain ⟨_, ⟨c, h2, h3⟩, h4⟩ := find_from_eq_some _ _ _ _ h
  refine ⟨⟨c, by simpa using h2, by simpa using h3⟩, ?_⟩
  intro j hj d hd
  have := h4 j (by simpa using hj) d hd
  simpa using this

/-- A result of `find` is the first index from `pos` on that holds the byte. -/
theorem find_char_eq_some (s : Str) (c : Char) (pos r : Nat) (h : find_char s c pos = some r) :
    pos ≤ r ∧ s[r]? = some c ∧ ∀ j, pos ≤ j → j < r → s[j]? ≠ some c := by
  obtain ⟨h1, ⟨d, h2, h3⟩, h4⟩ := find_from_eq_some _ _ _ _ h
  have hd : d = c := by simpa using h3
  subst hd
  refine ⟨h1, ?_, ?_⟩
  · rw [List.getElem?_drop] at h2
    have : pos + (r - pos) = r := by omega
    rw [this] at h2; exact h2
  · intro j hpj hjr hc
    have := h4 (j - pos) (by omega) d (by
      rw [List.getElem?_drop]
      have : pos + (j - pos) = j := by omega
      rw [this]; exact hc)
    simp at this

/-- When `find` returns `npos`, no index from `pos` on holds the byte. -/
theorem find_char_eq_none (s : Str) (c : Char) (pos : Nat) (h : find_char s c pos = none) :
    ∀ j, pos ≤ j → s[j]? ≠ some c := by
  intro j hj hc
  unfold find_char at h
  rw [find_from_eq_none] at h
  have hmem : c ∈ s.drop pos := by
    rw [List.mem_iff_getElem?]
    refine ⟨j - pos, ?_⟩
    rw [List.getElem?_drop]
    have : pos + (j - pos) = j := by omega
    rw [this]; exact hc
  have := h c hmem
  simp at this

/-- A result of `rfind` is the last index up to `pos` that holds the byte. -/
theorem rfind_char_eq_some (s : Str) (c : Char) (pos i : Nat) (h : rfind_char s c pos = some i) :
    i ≤ pos ∧ s[i]? = some c ∧ ∀ j, i < j → j ≤ pos → s[j]? ≠ some c := by
  obtain ⟨h1, h2, h3⟩ := rfind_below_eq_some _ _ _ h
  refine ⟨by omega, by simpa using h2, ?_⟩
  intro j hij hjp hc
  have hjlen : j < s.length := by
    by_contra hge
    rw [List.getElem?_eq_none (by omega)] at hc
    cases hc
  have := h3 j hij (by omega)
  simp [hc] at this

/-- When `rfind` returns `npos`, no index up to `pos` holds the byte. -/
theorem rfind_char_eq_none (s : Str) (c : Char) (pos : Nat) (h : rfind_char s c pos = none) :
    ∀ j, j ≤ pos → s[j]? ≠ some c := by
  intro j hj hc
  unfold rfind_char at h
  rw [rfind_below_eq_none] at h
  have hjlen : j < s.length := by
    by_contra hge
    rw [List.getElem?_eq_none (by omega)] at hc
    cases hc
  have := h j (by omega)
  simp [hc] at this


/-- The value of `index_root_dir`: the last `/` before the first wildcard, or 0 when no `/` precedes it. -/
theorem index_root_dir_spec (p : Str) (w : Nat) (hw : find_first_of p wildcard_chars = some w) :
    w < p.length ∧ p[w]? ≠ some '/' ∧ Glob_index_root_dir p w ≤ w ∧
    (∀ j, Glob_index_root_dir p w < j → j ≤ w → p[j]? ≠ some '/') ∧
    ((p[Glob_index_root_dir p w]? = some '/' ∧ Glob_index_root_dir p w < w) ∨
      (Glob_index_root_dir p w = 0 ∧ ∀ j, j ≤ w → p[j]? ≠ some '/')) := by
  obtain ⟨⟨c, hc, hmem⟩, _⟩ := find_first_of_eq_some _ _ _ hw
  have hwlen : w < p.length := by
    by_contra hge
    rw [List.getElem?_eq_none (by omega)] at hc
    cases hc
  have hslash : p[w]? ≠ some '/' := by
    intro h
    rw [hc] at h
    have : c = '/' := by simpa using h
    subst this
    simp [wildcard_chars] at hmem
  refine ⟨hwlen, hslash, ?_⟩
  unfold Glob_index_root_dir
  cases hr : rfind_char p '/' w with
  | none =>
    have hnone := rfind_char_eq_none _ _ _ hr
    exact ⟨Nat.zero_le _, fun j _ hj => hnone j hj, Or.inr ⟨rfl, hnone⟩⟩
  | some i =>
    obtain ⟨h1, h2, h3⟩ := rfind_char_eq_some _ _ _ _ hr
    have hlt : i < w := by
      rcases Nat.lt_or_eq_of_le h1 with h | h
      · exact h
      · subst h; exact absurd h2 hslash
    exact ⟨h1, h3, Or.inl ⟨h2, hlt⟩⟩

/-- The first `end_match`: the first `/` after the first wildcard, or the length of the pattern. -/
theorem end_match_spec (p : Str) (w : Nat) (hw : find_first_of p wildcard_chars = some w) :
    w < Glob_end_match p w ∧ Glob_end_match p w ≤ p.length ∧
    (Glob_end_match p w < p.length → p[Glob_end_match p w]? = some '/') ∧
    (∀ j, w < j → j < Glob_end_match p w → p[j]? ≠ some '/') := by
  obtain ⟨hwlen, hslash, hle, hbetween, _⟩ := index_root_dir_spec p w hw
  unfold Glob_end_match npos_min
  cases hf : find_char p '/' (Glob_index_root_dir p w + 1) with
  | none =>
    have hnone := find_char_eq_none _ _ _ hf
    refine ⟨hwlen, le_refl _, fun h => absurd h (lt_irrefl _), ?_⟩
    intro j hj _
    exact hnone j (by omega)
  | some r =>
    obtain ⟨h1, h2, h3⟩ := find_char_eq_some _ _ _ _ hf
    have hrlen : r < p.length := by
      by_contra hge
      rw [List.getElem?_eq_none (by omega)] at h2
      cases h2
    have hwr : w < r := by
      by_contra hge
      exact hbetween r (by omega) (by omega) h2
    have hmin : min p.length r = r := Nat.min_eq_right (Nat.le_of_lt hrlen)
    simp only [hmin]
    refine ⟨hwr, Nat.le_of_lt hrlen, fun _ => h2, ?_⟩
    intro j hj hjr
    exact h3 j (by omega) hjr

/-- The value of `shared_path`: the prefix up to `index_root_dir`, free of wildcards, and the longest such directory prefix. -/
theorem shared_path_spec (p : Str) (w : Nat) (hw : find_first_of p wildcard_chars = some w) :
    Glob_shared_path p w = p.take (Glob_index_root_dir p w) ∧
    (Glob_shared_path p w).length = Glob_index_root_dir p w ∧
    (∀ c ∈ Glob_shared_path p w, c ∉ wildcard_chars) ∧
    (∀ j, (Glob_shared_path p w).length < j → p[j]? = some '/' →
      ∃ c ∈ p.take j, c ∈ wildcard_chars) := by
  obtain ⟨hwlen, hslash, hle, hbetween, _⟩ := index_root_dir_spec p w hw
  obtain ⟨⟨cw, hcw, hmemw⟩, hfirst⟩ := find_first_of_eq_some _ _ _ hw
  have hlen : (Glob_shared_path p w).length = Glob_index_root_dir p w := by
    simp only [Glob_shared_path, substr0, List.length_take]
    omega
  refine ⟨rfl, hlen, ?_, ?_⟩
  · intro c hc
    simp only [Glob_shared_path, substr0] at hc
    obtain ⟨j, hj⟩ := List.mem_iff_getElem?.mp hc
    rw [List.getElem?_take] at hj
    split at hj
    · rename_i hlt
      exact hfirst j (by omega) c hj
    · cases hj
  · intro j hj hsl
    rw [hlen] at hj
    have hwj : w < j := by
      by_contra hge
      exact hbetween j hj (by omega) hsl
    refine ⟨cw, ?_, hmemw⟩
    rw [List.mem_iff_getElem?]
    refine ⟨w, ?_⟩
    rw [List.getElem?_take, if_pos hwj]
    exact hcw

/-! ## The nesting of `Walk` is bounded by the pattern -/

/-- The `end_match` of a nested call lies strictly after the current one and within the
pattern. -/
theorem next_end_match_bounds (path_pattern : Str) (end_match : Nat)
    (h : end_match < path_pattern.length) :
    end_match < npos_min path_pattern.length (find_char path_pattern '/' (end_match + 1)) ∧
    npos_min path_pattern.length (find_char path_pattern '/' (end_match + 1))
      ≤ path_pattern.length := by
  unfold npos_min
  cases hf : find_char path_pattern '/' (end_match + 1) with
  | none => exact ⟨h, le_refl _⟩
  | some r =>
    obtain ⟨h1, _, _⟩ := find_char_eq_some _ _ _ _ hf
    simp only
    omega

/-- The loop over the entries calls `recurse` only while `end_match` is inside the pattern. -/
theorem WalkEntries_recurse_irrelevant
    (recurse recurse' : Str → WalkState → WalkState × Outcome Unit)
    (LikeFun_Glob : Str → Str → Bool) (path_pattern : Str) (end_match : Nat) (recursive : Bool)
    (hrec : end_match < path_pattern.length → ∀ name s, recurse name s = recurse' name s)
    (entries : List PathItem) (st : WalkState) :
    WalkEntries recurse LikeFun_Glob path_pattern end_match recursive entries st
      = WalkEntries recurse' LikeFun_Glob path_pattern end_match recursive entries st := by
  induction entries generalizing st with
  | nil => rfl
  | cons elt rest ih =>
    simp only [WalkEntries]
    cases hd : elt.IsDirectory with
    | false => simp [ih]
    | true =>
      cases recursive with
      | true => simp [ih]
      | false =>
        cases hm : LikeFun_Glob elt.Name (List.take end_match path_pattern) with
        | false => simp [ih]
        | true =>
          by_cases hge : end_match ≥ path_pattern.length
          · simp [hge, ih]
          · have hlt : end_match < path_pattern.length := Nat.lt_of_not_ge hge
            simp only [Bool.not_false, if_true, hge, if_false, hrec hlt elt.Name st]
            rcases recurse' elt.Name st with ⟨st1, o⟩
            cases o <;> simp [ih]

/-- The loop over the pages, likewise. -/
theorem WalkPages_recurse_irrelevant (fs : DataLakeFileSystemClient)
    (recurse recurse' : Str → WalkState → WalkState × Outcome Unit)
    (LikeFun_Glob : Str → Str → Bool) (depth : Nat) (path path_pattern : Str) (end_match : Nat)
    (recursive : Bool)
    (hrec : end_match < path_pattern.length → ∀ name s, recurse name s = recurse' name s)
    (fuel : Nat) (token : Option Str) (st : WalkState) :
    WalkPages fs recurse LikeFun_Glob depth path path_pattern end_match recursive fuel token st
      = WalkPages fs recurse' LikeFun_Glob depth path path_pattern end_match recursive fuel token
          st := by
  induction fuel generalizing token st with
  | zero => rfl
  | succ fuel ih =>
    simp only [WalkPages]
    cases fs.ListPaths path recursive token with
    | error f => rfl
    | ok res =>
      simp only [WalkEntries_recurse_irrelevant recurse recurse' LikeFun_Glob path_pattern
        end_match recursive hrec]
      rcases WalkEntries recurse' LikeFun_Glob path_pattern end_match recursive res.Paths
        { st with trace := st.trace ++ [Event.ListPaths depth path recursive token] }
        with ⟨st1, o⟩
      cases o with
      | value u =>
        cases res.NextPageToken with
        | none => rfl
        | some t => exact ih (some t) st1
      | raised e => rfl
      | exhausted => rfl

/-- More frames than `path_pattern.length() - end_match + 1` are never used: the bound on the
nesting in `Walk` cuts no run short, and `Outcome.exhausted` can only come from the page
budget. -/
theorem WalkGas_enough (fs : DataLakeFileSystemClient) (LikeFun_Glob : Str → Str → Bool)
    (path_pattern : Str) (fuel gas gas' depth : Nat) (path : Str) (end_match : Nat)
    (st : WalkState) (hgas : path_pattern.length - end_match < gas)
    (hgas' : path_pattern.length - end_match < gas') :
    WalkGas fs LikeFun_Glob path_pattern fuel gas depth path end_match st
      = WalkGas fs LikeFun_Glob path_pattern fuel gas' depth path end_match st := by
  induction gas generalizing gas' depth path end_match st with
  | zero => omega
  | succ gas ih =>
    cases gas' with
    | zero => omega
    | succ gas' =>
      have hrec : end_match < path_pattern.length → ∀ name s,
          WalkGas fs LikeFun_Glob path_pattern fuel gas (depth + 1) name
            (npos_min path_pattern.length (find_char path_pattern '/' (end_match + 1))) s
          = WalkGas fs LikeFun_Glob path_pattern fuel gas' (depth + 1) name
            (npos_min path_pattern.length (find_char path_pattern '/' (end_match + 1))) s := by
        intro hlt name s
        obtain ⟨h1, h2⟩ := next_end_match_bounds path_pattern end_match hlt
        exact ih gas' (depth + 1) name _ s (by omega) (by omega)
      simp only [WalkGas]
      cases rfind_str path_pattern double_star_str end_match with
      | none =>
        exact WalkPages_recurse_irrelevant fs _ _ LikeFun_Glob depth path path_pattern end_match
          false hrec fuel none _
      | some i =>
        simp only
        split
        · rfl
        · exact WalkPages_recurse_irrelevant fs _ _ LikeFun_Glob depth path path_pattern
            end_match true hrec fuel none _

/-! ## The calls a walk issues -/

/-- An event of depth `d + 1` or more is of depth `d` or more. -/
theorem atDepthGe_mono (d : Nat) (e : Event) (h : e.atDepthGe (d + 1) = true) :
    e.atDepthGe d = true := by
  cases e <;> simp [Event.atDepthGe] at h ⊢ <;> omega

/-- Events of deeper frames hold no listing call of the frame at depth `d`. -/
theorem ownListings_of_deeper (d : Nat) (evs : List Event)
    (h : ∀ e ∈ evs, e.atDepthGe (d + 1) = true) : ownListings d evs = [] := by
  simp only [ownListings, List.filter_eq_nil_iff]
  intro e he
  have := h e he
  cases e <;> simp [Event.atDepthGe] at this ⊢
  omega

/-- The loop over the entries only appends to the trace, and only events of nested frames. -/
theorem WalkEntries_trace (recurse : Str → WalkState → WalkState × Outcome Unit)
    (LikeFun_Glob : Str → Str → Bool) (path_pattern : Str) (end_match : Nat) (recursive : Bool)
    (d : Nat)
    (hrec : ∀ name s, ∃ added, (recurse name s).1.trace = s.trace ++ added ∧
      ∀ e ∈ added, e.atDepthGe (d + 1) = true)
    (entries : List PathItem) (st : WalkState) :
    ∃ added, (WalkEntries recurse LikeFun_Glob path_pattern end_match recursive entries st).1.trace
        = st.trace ++ added ∧ ∀ e ∈ added, e.atDepthGe (d + 1) = true := by
  induction entries generalizing st with
  | nil => exact ⟨[], by simp [WalkEntries], by simp⟩
  | cons elt rest ih =>
    simp only [WalkEntries]
    cases hd : elt.IsDirectory with
    | false =>
      cases hm : LikeFun_Glob elt.Name path_pattern with
      | false => simpa using ih st
      | true => simpa using ih { st with out_result := st.out_result ++ [elt.Name] }
    | true =>
      cases recursive with
      | true => simpa using ih st
      | false =>
        cases hm : LikeFun_Glob elt.Name (List.take end_match path_pattern) with
        | false => simpa using ih st
        | true =>
          by_cases hge : end_match ≥ path_pattern.length
          · simpa [hge] using ih st
          · obtain ⟨a, ha, hdeep⟩ := hrec elt.Name st
            rcases hr : recurse elt.Name st with ⟨st1, o⟩
            rw [hr] at ha
            simp only at ha
            cases o with
            | value u =>
              obtain ⟨b, hb, hbdeep⟩ := ih st1
              refine ⟨a ++ b, ?_, ?_⟩
              · simp [hge, hr, hb, ha]
              · intro e he
                rcases List.mem_append.mp he with h | h
                · exact hdeep e h
                · exact hbdeep e h
            | raised e => exact ⟨a, by simp [hge, hr, ha], hdeep⟩
            | exhausted => exact ⟨a, by simp [hge, hr, ha], hdeep⟩

/-- The loop over the pages only appends to the trace, and only events of this frame or deeper. -/
theorem WalkPages_trace (fs : DataLakeFileSystemClient)
    (recurse : Str → WalkState → WalkState × Outcome Unit)
    (LikeFun_Glob : Str → Str → Bool) (depth : Nat) (path path_pattern : Str) (end_match : Nat)
    (recursive : Bool)
    (hrec : ∀ name s, ∃ added, (recurse name s).1.trace = s.trace ++ added ∧
      ∀ e ∈ added, e.atDepthGe (depth + 1) = true)
    (fuel : Nat) (token : Option Str) (st : WalkState) :
    ∃ added, (WalkPages fs recurse LikeFun_Glob depth path path_pattern end_match recursive fuel
        token st).1.trace = st.trace ++ added ∧ ∀ e ∈ added, e.atDepthGe depth = true := by
  induction fuel generalizing token st with
  | zero => exact ⟨[], by simp [WalkPages], by simp⟩
  | succ fuel ih =>
    simp only [WalkPages]
    cases hl : fs.ListPaths path recursive token with
    | error f => exact ⟨[Event.ListPaths depth path recursive token], rfl, by simp [Event.atDepthGe]⟩
    | ok res =>
      simp only
      obtain ⟨a, ha, hdeep⟩ := WalkEntries_trace recurse LikeFun_Glob path_pattern end_match
        recursive depth hrec res.Paths
        { st with trace := st.trace ++ [Event.ListPaths depth path recursive token] }
      rcases hr : WalkEntries recurse LikeFun_Glob path_pattern end_match recursive res.Paths
        { st with trace := st.trace ++ [Event.ListPaths depth path recursive token] }
        with ⟨st1, o⟩
      rw [hr] at ha
      simp only at ha
      have hfirst : ∀ e ∈ Event.ListPaths depth path recursive token :: a,
          e.atDepthGe depth = true := by
        intro e he
        rcases List.mem_cons.mp he with h | h
        · subst h; simp [Event.atDepthGe]
        · exact atDepthGe_mono depth e (hdeep e h)
      cases o with
      | value u =>
        cases ht : res.NextPageToken with
        | none => exact ⟨Event.ListPaths depth path recursive token :: a, by simp [ha], hfirst⟩
        | some t =>
          obtain ⟨b, hb, hbdeep⟩ := ih (some t) st1
          refine ⟨Event.ListPaths depth path recursive token :: a ++ b, by simp [hb, ha], ?_⟩
          intro e he
          rcases List.mem_append.mp he with h | h
          · exact hfirst e h
          · exact hbdeep e h
      | raised e => exact ⟨Event.ListPaths depth path recursive token :: a, by simp [ha], hfirst⟩
      | exhausted => exact ⟨Event.ListPaths depth path recursive token :: a, by simp [ha], hfirst⟩

/-- A `Walk` frame only appends to the trace, and only events of its own depth or deeper. -/
theorem WalkGas_trace (fs : DataLakeFileSystemClient) (LikeFun_Glob : Str → Str → Bool)
    (path_pattern : Str) (fuel gas depth : Nat) (path : Str) (end_match : Nat) (st : WalkState) :
    ∃ added, (WalkGas fs LikeFun_Glob path_pattern fuel gas depth path end_match st).1.trace
        = st.trace ++ added ∧ ∀ e ∈ added, e.atDepthGe depth = true := by
  induction gas generalizing depth path end_match st with
  | zero => exact ⟨[], by simp [WalkGas], by simp⟩
  | succ gas ih =>
    have hpages : ∀ recursive, ∃ added,
        (WalkPages fs (fun name s =>
            WalkGas fs LikeFun_Glob path_pattern fuel gas (depth + 1) name
              (npos_min path_pattern.length (find_char path_pattern '/' (end_match + 1))) s)
          LikeFun_Glob depth path path_pattern end_match recursive fuel none
          { st with trace := st.trace ++ [Event.Walk depth path end_match] }).1.trace
          = st.trace ++ added ∧ ∀ e ∈ added, e.atDepthGe depth = true := by
      intro recursive
      obtain ⟨a, ha, hdeep⟩ := WalkPages_trace fs (fun name s =>
            WalkGas fs LikeFun_Glob path_pattern fuel gas (depth + 1) name
              (npos_min path_pattern.length (find_char path_pattern '/' (end_match + 1))) s)
          LikeFun_Glob depth path path_pattern end_match recursive
          (fun name s => ih (depth + 1) name _ s) fuel none
          { st with trace := st.trace ++ [Event.Walk depth path end_match] }
      refine ⟨Event.Walk depth path end_match :: a, by simp [ha], ?_⟩
      intro e he
      rcases List.mem_cons.mp he with h | h
      · subst h; simp [Event.atDepthGe]
      · exact hdeep e h
    simp only [WalkGas]
    cases hstar : rfind_str path_pattern double_star_str end_match with
    | none => exact hpages false
    | some i =>
      simp only
      by_cases hlen : path_pattern.length > end_match
      · simp only [hlen, if_true]
        exact ⟨[Event.Walk depth path end_match], rfl, by simp [Event.atDepthGe]⟩
      · simp only [hlen, if_false]
        exact hpages true


/-- The first event a `Walk` frame appends is its own entry. -/
theorem WalkGas_succ_trace (fs : DataLakeFileSystemClient) (LikeFun_Glob : Str → Str → Bool)
    (path_pattern : Str) (fuel gas depth : Nat) (path : Str) (end_match : Nat) (st : WalkState) :
    ∃ added, (WalkGas fs LikeFun_Glob path_pattern fuel (gas + 1) depth path end_match st).1.trace
        = st.trace ++ Event.Walk depth path end_match :: added ∧
      ∀ e ∈ added, e.atDepthGe depth = true := by
  have hpages : ∀ recursive, ∃ added,
      (WalkPages fs (fun name s =>
          WalkGas fs LikeFun_Glob path_pattern fuel gas (depth + 1) name
            (npos_min path_pattern.length (find_char path_pattern '/' (end_match + 1))) s)
        LikeFun_Glob depth path path_pattern end_match recursive fuel none
        { st with trace := st.trace ++ [Event.Walk depth path end_match] }).1.trace
        = st.trace ++ Event.Walk depth path end_match :: added ∧
        ∀ e ∈ added, e.atDepthGe depth = true := by
    intro recursive
    obtain ⟨a, ha, hdeep⟩ := WalkPages_trace fs (fun name s =>
          WalkGas fs LikeFun_Glob path_pattern fuel gas (depth + 1) name
            (npos_min path_pattern.length (find_char path_pattern '/' (end_match + 1))) s)
        LikeFun_Glob depth path path_pattern end_match recursive
        (fun name s => WalkGas_trace fs LikeFun_Glob path_pattern fuel gas (depth + 1) name _ s)
        fuel none { st with trace := st.trace ++ [Event.Walk depth path end_match] }
    exact ⟨a, by simp [ha], hdeep⟩
  simp only [WalkGas]
  cases hstar : rfind_str path_pattern double_star_str end_match with
  | none => exact hpages false
  | some i =>
    simp only
    by_cases hlen : path_pattern.length > end_match
    · simp only [hlen, if_true]
      exact ⟨[], rfl, by simp⟩
    · simp only [hlen, if_false]
      exact hpages true

/-- The own listing calls of a concatenation. -/
theorem ownListings_append (d : Nat) (xs ys : List Event) :
    ownListings d (xs ++ ys) = ownListings d xs ++ ownListings d ys := by
  simp [ownListings]

/-- A listing call of depth `d` is an own listing call of the frame at depth `d`. -/
theorem ownListings_cons_self (d : Nat) (path : Str) (recursive : Bool) (token : Option Str)
    (xs : List Event) :
    ownListings d (Event.ListPaths d path recursive token :: xs)
      = Event.ListPaths d path recursive token :: ownListings d xs := by
  simp [ownListings]

/-- The entry of a frame is not a listing call. -/
theorem ownListings_cons_walk (d d1 : Nat) (path : Str) (end_match : Nat) (xs : List Event) :
    ownListings d (Event.Walk d1 path end_match :: xs) = ownListings d xs := by
  simp [ownListings]

/-- There is one call per page. -/
theorem pageCalls_length (depth : Nat) (path : Str) (recursive : Bool) (token : Option Str)
    (pages : List ListPathsResult) :
    (pageCalls depth path recursive token pages).length = pages.length := by
  induction pages generalizing token with
  | nil => rfl
  | cons page rest ih => simp [pageCalls, ih]

/-- On a listing served in the pages `pages`, the listing calls of the loop itself are a prefix of the token chain, and the whole chain when the loop returns normally. -/
theorem WalkPages_own (fs : DataLakeFileSystemClient)
    (recurse : Str → WalkState → WalkState × Outcome Unit)
    (LikeFun_Glob : Str → Str → Bool) (depth : Nat) (path path_pattern : Str) (end_match : Nat)
    (recursive : Bool)
    (hrec : ∀ name s, ∃ added, (recurse name s).1.trace = s.trace ++ added ∧
      ∀ e ∈ added, e.atDepthGe (depth + 1) = true)
    (pages : List ListPathsResult) (fuel : Nat) (token : Option Str) (st : WalkState)
    (hserved : servedInPages fs path recursive token pages = true)
    (hfuel : pages.length ≤ fuel) :
    ∃ added, (WalkPages fs recurse LikeFun_Glob depth path path_pattern end_match recursive fuel
        token st).1.trace = st.trace ++ added ∧
      ownListings depth added <+: pageCalls depth path recursive token pages ∧
      ((WalkPages fs recurse LikeFun_Glob depth path path_pattern end_match recursive fuel
        token st).2 = .value () →
        ownListings depth added = pageCalls depth path recursive token pages) := by
  induction pages generalizing fuel token st with
  | nil => simp [servedInPages] at hserved
  | cons page rest ih =>
    cases fuel with
    | zero => simp at hfuel
    | succ fuel =>
      obtain ⟨a, ha, hdeep⟩ := WalkEntries_trace recurse LikeFun_Glob path_pattern end_match
        recursive depth hrec page.Paths
        { st with trace := st.trace ++ [Event.ListPaths depth path recursive token] }
      have hown : ownListings depth a = [] := ownListings_of_deeper depth a hdeep
      rcases hr : WalkEntries recurse LikeFun_Glob path_pattern end_match recursive page.Paths
        { st with trace := st.trace ++ [Event.ListPaths depth path recursive token] }
        with ⟨st1, o⟩
      rw [hr] at ha
      simp only at ha
      have hsingle : ownListings depth (Event.ListPaths depth path recursive token :: a)
          = [Event.ListPaths depth path recursive token] := by
        rw [ownListings_cons_self, hown]
      cases rest with
      | nil =>
        simp only [servedInPages, Bool.and_eq_true, decide_eq_true_eq, Option.isNone_iff_eq_none]
          at hserved
        obtain ⟨hl, hnone⟩ := hserved
        refine ⟨Event.ListPaths depth path recursive token :: a, ?_, ?_, ?_⟩
        · simp only [WalkPages, hl, hr, hnone]
          cases o <;> simp [ha]
        · rw [hsingle]; simp [pageCalls]
        · intro _; rw [hsingle]; simp [pageCalls]
      | cons next rest =>
        simp only [servedInPages, Bool.and_eq_true, decide_eq_true_eq] at hserved
        obtain ⟨⟨hl, hsome⟩, hnext⟩ := hserved
        obtain ⟨t, ht⟩ := Option.isSome_iff_exists.mp hsome
        cases o with
        | value u =>
          rw [ht] at hnext
          obtain ⟨b, hb, hpre, hfull⟩ := ih fuel (some t) st1 hnext (by simpa using hfuel)
          refine ⟨Event.ListPaths depth path recursive token :: a ++ b, ?_, ?_, ?_⟩
          · simp only [WalkPages, hl, hr, ht]
            simp [hb, ha]
          · rw [ownListings_append, hsingle]
            simp only [pageCalls, ht, List.singleton_append]
            exact (List.prefix_cons_inj _).mpr hpre
          · intro hv
            simp only [WalkPages, hl, hr, ht] at hv
            rw [ownListings_append, hsingle, hfull hv]
            simp [pageCalls, ht]
        | raised e =>
          refine ⟨Event.ListPaths depth path recursive token :: a, ?_, ?_, ?_⟩
          · simp only [WalkPages, hl, hr]
            simp [ha]
          · rw [hsingle]; simp [pageCalls]
          · intro hv
            simp [WalkPages, hl, hr] at hv
        | exhausted =>
          refine ⟨Event.ListPaths depth path recursive token :: a, ?_, ?_, ?_⟩
          · simp only [WalkPages, hl, hr]
            simp [ha]
          · rw [hsingle]; simp [pageCalls]
          · intro hv
            simp [WalkPages, hl, hr] at hv

/-! ## What a walk returns -/

/-- The loop over the entries only appends names that match the whole pattern. -/
theorem WalkEntries_out (recurse : Str → WalkState → WalkState × Outcome Unit)
    (LikeFun_Glob : Str → Str → Bool) (path_pattern : Str) (end_match : Nat) (recursive : Bool)
    (hrec : ∀ name s, ∃ added, (recurse name s).1.out_result = s.out_result ++ added ∧
      ∀ n ∈ added, LikeFun_Glob n path_pattern = true)
    (entries : List PathItem) (st : WalkState) :
    ∃ added, (WalkEntries recurse LikeFun_Glob path_pattern end_match recursive entries
        st).1.out_result = st.out_result ++ added ∧
      ∀ n ∈ added, LikeFun_Glob n path_pattern = true := by
  induction entries generalizing st with
  | nil => exact ⟨[], by simp [WalkEntries], by simp⟩
  | cons elt rest ih =>
    simp only [WalkEntries]
    cases hd : elt.IsDirectory with
    | false =>
      cases hm : LikeFun_Glob elt.Name path_pattern with
      | false => simpa using ih st
      | true =>
        obtain ⟨b, hb, hbs⟩ := ih { st with out_result := st.out_result ++ [elt.Name] }
        refine ⟨elt.Name :: b, by simpa using hb, ?_⟩
        intro n hn
        rcases List.mem_cons.mp hn with h | h
        · subst h; exact hm
        · exact hbs n h
    | true =>
      cases recursive with
      | true => simpa using ih st
      | false =>
        cases hm : LikeFun_Glob elt.Name (List.take end_match path_pattern) with
        | false => simpa using ih st
        | true =>
          by_cases hge : end_match ≥ path_pattern.length
          · simpa [hge] using ih st
          · obtain ⟨a, ha, has⟩ := hrec elt.Name st
            rcases hr : recurse elt.Name st with ⟨st1, o⟩
            rw [hr] at ha
            simp only at ha
            cases o with
            | value u =>
              obtain ⟨b, hb, hbs⟩ := ih st1
              refine ⟨a ++ b, by simp [hge, hr, hb, ha], ?_⟩
              intro n hn
              rcases List.mem_append.mp hn with h | h
              · exact has n h
              · exact hbs n h
            | raised e => exact ⟨a, by simp [hge, hr, ha], has⟩
            | exhausted => exact ⟨a, by simp [hge, hr, ha], has⟩

/-- The loop over the pages only appends names that match the whole pattern. -/
theorem WalkPages_out (fs : DataLakeFileSystemClient)
    (recurse : Str → WalkState → WalkState × Outcome Unit)
    (LikeFun_Glob : Str → Str → Bool) (depth : Nat) (path path_pattern : Str) (end_match : Nat)
    (recursive : Bool)
    (hrec : ∀ name s, ∃ added, (recurse name s).1.out_result = s.out_result ++ added ∧
      ∀ n ∈ added, LikeFun_Glob n path_pattern = true)
    (fuel : Nat) (token : Option Str) (st : WalkState) :
    ∃ added, (WalkPages fs recurse LikeFun_Glob depth path path_pattern end_match recursive fuel
        token st).1.out_result = st.out_result ++ added ∧
      ∀ n ∈ added, LikeFun_Glob n path_pattern = true := by
  induction fuel generalizing token st with
  | zero => exact ⟨[], by simp [WalkPages], by simp⟩
  | succ fuel ih =>
    simp only [WalkPages]
    cases hl : fs.ListPaths path recursive token with
    | error f => exact ⟨[], by simp, by simp⟩
    | ok res =>
      simp only
      obtain ⟨a, ha, has⟩ := WalkEntries_out recurse LikeFun_Glob path_pattern end_match
        recursive hrec res.Paths
        { st with trace := st.trace ++ [Event.ListPaths depth path recursive token] }
      rcases hr : WalkEntries recurse LikeFun_Glob path_pattern end_match recursive res.Paths
        { st with trace := st.trace ++ [Event.ListPaths depth path recursive token] }
        with ⟨st1, o⟩
      rw [hr] at ha
      simp only at ha
      cases o with
      | value u =>
        cases ht : res.NextPageToken with
        | none => exact ⟨a, by simp [ha], has⟩
        | some t =>
          obtain ⟨b, hb, hbs⟩ := ih (some t) st1
          refine ⟨a ++ b, by simp [hb, ha], ?_⟩
          intro n hn
          rcases List.mem_append.mp hn with h | h
          · exact has n h
          · exact hbs n h
      | raised e => exact ⟨a, by simp [ha], has⟩
      | exhausted => exact ⟨a, by simp [ha], has⟩

/-- A `Walk` frame only appends to the result, and only names that match the whole pattern. -/
theorem WalkGas_out (fs : DataLakeFileSystemClient) (LikeFun_Glob : Str → Str → Bool)
    (path_pattern : Str) (fuel gas depth : Nat) (path : Str) (end_match : Nat) (st : WalkState) :
    ∃ added, (WalkGas fs LikeFun_Glob path_pattern fuel gas depth path end_match st).1.out_result
        = st.out_result ++ added ∧ ∀ n ∈ added, LikeFun_Glob n path_pattern = true := by
  induction gas generalizing depth path end_match st with
  | zero => exact ⟨[], by simp [WalkGas], by simp⟩
  | succ gas ih =>
    have hpages : ∀ recursive, ∃ added,
        (WalkPages fs (fun name s =>
            WalkGas fs LikeFun_Glob path_pattern fuel gas (depth + 1) name
              (npos_min path_pattern.length (find_char path_pattern '/' (end_match + 1))) s)
          LikeFun_Glob depth path path_pattern end_match recursive fuel none
          { st with trace := st.trace ++ [Event.Walk depth path end_match] }).1.out_result
          = st.out_result ++ added ∧ ∀ n ∈ added, LikeFun_Glob n path_pattern = true := by
      intro recursive
      exact WalkPages_out fs _ LikeFun_Glob depth path path_pattern end_match recursive
          (fun name s => ih (depth + 1) name _ s) fuel none
          { st with trace := st.trace ++ [Event.Walk depth path end_match] }
    simp only [WalkGas]
    cases hstar : rfind_str path_pattern double_star_str end_match with
    | none => exact hpages false
    | some i =>
      simp only
      by_cases hlen : path_pattern.length > end_match
      · simp only [hlen, if_true]
        exact ⟨[], by simp, by simp⟩
      · simp only [hlen, if_false]
        exact hpages true

/-! ## Where the returned names come from -/

/-- A name listed by the calls among `evs` is listed by the calls of any trace holding them. -/
theorem ListedFile_mono (fs : DataLakeFileSystemClient) (LikeFun_Glob : Str → Str → Bool)
    (path_pattern : Str) (evs evs' : List Event) (name : Str)
    (hsub : ∀ e ∈ evs, e ∈ evs') (h : ListedFile fs LikeFun_Glob path_pattern evs name) :
    ListedFile fs LikeFun_Glob path_pattern evs' name := by
  obtain ⟨depth, path, recursive, token, res, elt, hev, hrest⟩ := h
  exact ⟨depth, path, recursive, token, res, elt, hsub _ hev, hrest⟩

/-- The loop over the entries of a page appends names of files of that page, or names the
nested calls listed. -/
theorem WalkEntries_listed (fs : DataLakeFileSystemClient)
    (recurse : Str → WalkState → WalkState × Outcome Unit)
    (LikeFun_Glob : Str → Str → Bool) (path_pattern : Str) (end_match : Nat) (recursive : Bool)
    (base : List Event)
    (hrec : ∀ name s, ∃ ao at1, (recurse name s).1.out_result = s.out_result ++ ao ∧
      (recurse name s).1.trace = s.trace ++ at1 ∧
      ∀ n ∈ ao, ListedFile fs LikeFun_Glob path_pattern at1 n)
    (entries : List PathItem)
    (hent : ∀ elt ∈ entries, elt.IsDirectory = false →
      LikeFun_Glob elt.Name path_pattern = true →
      ListedFile fs LikeFun_Glob path_pattern base elt.Name)
    (st : WalkState) :
    ∃ ao at1,
      (WalkEntries recurse LikeFun_Glob path_pattern end_match recursive entries st).1.out_result
        = st.out_result ++ ao ∧
      (WalkEntries recurse LikeFun_Glob path_pattern end_match recursive entries st).1.trace
        = st.trace ++ at1 ∧
      ∀ n ∈ ao, ListedFile fs LikeFun_Glob path_pattern (base ++ at1) n := by
  induction entries generalizing st with
  | nil => exact ⟨[], [], by simp [WalkEntries], by simp [WalkEntries], by simp⟩
  | cons elt rest ih =>
    have hrest : ∀ e ∈ rest, e.IsDirectory = false →
        LikeFun_Glob e.Name path_pattern = true →
        ListedFile fs LikeFun_Glob path_pattern base e.Name :=
      fun e he => hent e (List.mem_cons_of_mem _ he)
    simp only [WalkEntries]
    cases hd : elt.IsDirectory with
    | false =>
      cases hm : LikeFun_Glob elt.Name path_pattern with
      | false => simpa using ih hrest st
      | true =>
        obtain ⟨bo, bt, hbo, hbt, hbs⟩ :=
          ih hrest { st with out_result := st.out_result ++ [elt.Name] }
        refine ⟨elt.Name :: bo, bt, by simpa using hbo, by simpa using hbt, ?_⟩
        intro n hn
        rcases List.mem_cons.mp hn with h | h
        · subst h
          exact ListedFile_mono fs LikeFun_Glob path_pattern base _ _
            (fun e he => List.mem_append_left _ he) (hent elt (List.mem_cons_self _ _) hd hm)
        · exact hbs n h
    | true =>
      cases recursive with
      | true => simpa using ih hrest st
      | false =>
        cases hm : LikeFun_Glob elt.Name (List.take end_match path_pattern) with
        | false => simpa using ih hrest st
        | true =>
          by_cases hge : end_match ≥ path_pattern.length
          · simpa [hge] using ih hrest st
          · obtain ⟨ao, at1, hao, hat, has⟩ := hrec elt.Name st
            rcases hr : recurse elt.Name st with ⟨st1, o⟩
            rw [hr] at hao hat
            simp only at hao hat
            have hleft : ∀ n ∈ ao, ∀ more,
                ListedFile fs LikeFun_Glob path_pattern (base ++ (at1 ++ more)) n :=
              fun n hn more => ListedFile_mono fs LikeFun_Glob path_pattern at1 _ n
                (fun e he => List.mem_append_right _ (List.mem_append_left _ he)) (has n hn)
            cases o with
            | value u =>
              obtain ⟨bo, bt, hbo, hbt, hbs⟩ := ih hrest st1
              refine ⟨ao ++ bo, at1 ++ bt, by simp [hge, hr, hbo, hao],
                by simp [hge, hr, hbt, hat], ?_⟩
              intro n hn
              rcases List.mem_append.mp hn with h | h
              · exact hleft n h bt
              · exact ListedFile_mono fs LikeFun_Glob path_pattern (base ++ bt) _ n
                  (fun e he => by
                    rcases List.mem_append.mp he with h1 | h1
                    · exact List.mem_append_left _ h1
                    · exact List.mem_append_right _ (List.mem_append_right _ h1))
                  (hbs n h)
            | raised e =>
              refine ⟨ao, at1, by simp [hge, hr, hao], by simp [hge, hr, hat], ?_⟩
              intro n hn
              simpa using hleft n hn []
            | exhausted =>
              refine ⟨ao, at1, by simp [hge, hr, hao], by simp [hge, hr, hat], ?_⟩
              intro n hn
              simpa using hleft n hn []


/-- The loop over the pages appends names of files its own calls or the nested calls listed. -/
theorem WalkPages_listed (fs : DataLakeFileSystemClient)
    (recurse : Str → WalkState → WalkState × Outcome Unit)
    (LikeFun_Glob : Str → Str → Bool) (depth : Nat) (path path_pattern : Str) (end_match : Nat)
    (recursive : Bool)
    (hrec : ∀ name s, ∃ ao at1, (recurse name s).1.out_result = s.out_result ++ ao ∧
      (recurse name s).1.trace = s.trace ++ at1 ∧
      ∀ n ∈ ao, ListedFile fs LikeFun_Glob path_pattern at1 n)
    (fuel : Nat) (token : Option Str) (st : WalkState) :
    ∃ ao at1,
      (WalkPages fs recurse LikeFun_Glob depth path path_pattern end_match recursive fuel token
        st).1.out_result = st.out_result ++ ao ∧
      (WalkPages fs recurse LikeFun_Glob depth path path_pattern end_match recursive fuel token
        st).1.trace = st.trace ++ at1 ∧
      ∀ n ∈ ao, ListedFile fs LikeFun_Glob path_pattern at1 n := by
  induction fuel generalizing token st with
  | zero => exact ⟨[], [], by simp [WalkPages], by simp [WalkPages], by simp⟩
  | succ fuel ih =>
    simp only [WalkPages]
    cases hl : fs.ListPaths path recursive token with
    | error f =>
      exact ⟨[], [Event.ListPaths depth path recursive token], by simp, by simp, by simp⟩
    | ok res =>
      simp only
      have hent : ∀ elt ∈ res.Paths, elt.IsDirectory = false →
          LikeFun_Glob elt.Name path_pattern = true →
          ListedFile fs LikeFun_Glob path_pattern [Event.ListPaths depth path recursive token]
            elt.Name :=
        fun elt he hd hm =>
          ⟨depth, path, recursive, token, res, elt, List.mem_singleton.mpr rfl, hl, he, hd, rfl,
            hm⟩
      obtain ⟨ao, at1, hao, hat, has⟩ := WalkEntries_listed fs recurse LikeFun_Glob path_pattern
        end_match recursive [Event.ListPaths depth path recursive token] hrec res.Paths hent
        { st with trace := st.trace ++ [Event.ListPaths depth path recursive token] }
      rcases hr : WalkEntries recurse LikeFun_Glob path_pattern end_match recursive res.Paths
        { st with trace := st.trace ++ [Event.ListPaths depth path recursive token] }
        with ⟨st1, o⟩
      rw [hr] at hao hat
      simp only at hao hat
      have hstop : ∃ ao' at', st1.out_result = st.out_result ++ ao' ∧
          st1.trace = st.trace ++ at' ∧
          ∀ n ∈ ao', ListedFile fs LikeFun_Glob path_pattern at' n :=
        ⟨ao, Event.ListPaths depth path recursive token :: at1, hao, by simp [hat],
          fun n hn => by simpa using has n hn⟩
      cases o with
      | value u =>
        cases ht : res.NextPageToken with
        | none => exact hstop
        | some t =>
          obtain ⟨bo, bt, hbo, hbt, hbs⟩ := ih (some t) st1
          refine ⟨ao ++ bo, Event.ListPaths depth path recursive token :: at1 ++ bt,
            by simp [hbo, hao], by simp [hbt, hat], ?_⟩
          intro n hn
          rcases List.mem_append.mp hn with h | h
          · exact ListedFile_mono fs LikeFun_Glob path_pattern _ _ n
              (fun e he => by
                have : e ∈ Event.ListPaths depth path recursive token :: at1 := by
                  simpa using he
                exact List.mem_append_left _ this)
              (has n h)
          · exact ListedFile_mono fs LikeFun_Glob path_pattern bt _ n
              (fun e he => List.mem_append_right _ he) (hbs n h)
      | raised e => exact hstop
      | exhausted => exact hstop

/-- A `Walk` frame appends to the result only names of files that its own listing calls, or
those of the frames nested in it, returned and that match the whole pattern. -/
theorem WalkGas_listed (fs : DataLakeFileSystemClient) (LikeFun_Glob : Str → Str → Bool)
    (path_pattern : Str) (fuel gas depth : Nat) (path : Str) (end_match : Nat) (st : WalkState) :
    ∃ ao at1,
      (WalkGas fs LikeFun_Glob path_pattern fuel gas depth path end_match st).1.out_result
        = st.out_result ++ ao ∧
      (WalkGas fs LikeFun_Glob path_pattern fuel gas depth path end_match st).1.trace
        = st.trace ++ at1 ∧
      ∀ n ∈ ao, ListedFile fs LikeFun_Glob path_pattern at1 n := by
  induction gas generalizing depth path end_match st with
  | zero => exact ⟨[], [], by simp [WalkGas], by simp [WalkGas], by simp⟩
  | succ gas ih =>
    have hpages : ∀ recursive, ∃ ao at1,
        (WalkPages fs (fun name s =>
            WalkGas fs LikeFun_Glob path_pattern fuel gas (depth + 1) name
              (npos_min path_pattern.length (find_char path_pattern '/' (end_match + 1))) s)
          LikeFun_Glob depth path path_pattern end_match recursive fuel none
          { st with trace := st.trace ++ [Event.Walk depth path end_match] }).1.out_result
          = st.out_result ++ ao ∧
        (WalkPages fs (fun name s =>
            WalkGas fs LikeFun_Glob path_pattern fuel gas (depth + 1) name
              (npos_min path_pattern.length (find_char path_pattern '/' (end_match + 1))) s)
          LikeFun_Glob depth path path_pattern end_match recursive fuel none
          { st with trace := st.trace ++ [Event.Walk depth path end_match] }).1.trace
          = st.trace ++ at1 ∧
        ∀ n ∈ ao, ListedFile fs LikeFun_Glob path_pattern at1 n := by
      intro recursive
      obtain ⟨ao, at1, hao, hat, has⟩ := WalkPages_listed fs (fun name s =>
            WalkGas fs LikeFun_Glob path_pattern fuel gas (depth + 1) name
              (npos_min path_pattern.length (find_char path_pattern '/' (end_match + 1))) s)
          LikeFun_Glob depth path path_pattern end_match recursive
          (fun name s => ih (depth + 1) name _ s) fuel none
          { st with trace := st.trace ++ [Event.Walk depth path end_match] }
      refine ⟨ao, Event.Walk depth path end_match :: at1, hao, by simp [hat], ?_⟩
      intro n hn
      exact ListedFile_mono fs LikeFun_Glob path_pattern at1 _ n
        (fun e he => List.mem_cons_of_mem _ he) (has n hn)
    simp only [WalkGas]
    cases hstar : rfind_str path_pattern double_star_str end_match with
    | none => exact hpages false
    | some i =>
      simp only
      by_cases hlen : path_pattern.length > end_match
      · simp only [hlen, if_true]
        exact ⟨[], [Event.Walk depth path end_match], by simp, by simp, by simp⟩
      · simp only [hlen, if_false]
        exact hpages true

/-! ## When `Walk` recurses, how deep, and that it ends -/

/-- The loop over the entries calls `recurse` only on the name of a directory entry that
matches the pattern up to `end_match`, outside recursive mode and with `end_match` inside the
pattern; what holds of the events of such calls holds of the events of the loop. -/
theorem WalkEntries_events (recurse : Str → WalkState → WalkState × Outcome Unit)
    (LikeFun_Glob : Str → Str → Bool) (path_pattern : Str) (end_match : Nat) (recursive : Bool)
    (C : Event → Prop) (NameOk : Str → Prop)
    (hrec : ∀ name s, NameOk name →
      ∃ added, (recurse name s).1.trace = s.trace ++ added ∧ ∀ e ∈ added, C e)
    (entries : List PathItem)
    (hent : ∀ elt ∈ entries, elt.IsDirectory = true → recursive = false →
      LikeFun_Glob elt.Name (path_pattern.take end_match) = true →
      end_match < path_pattern.length → NameOk elt.Name)
    (st : WalkState) :
    ∃ added, (WalkEntries recurse LikeFun_Glob path_pattern end_match recursive entries st).1.trace
        = st.trace ++ added ∧ ∀ e ∈ added, C e := by
  induction entries generalizing st with
  | nil => exact ⟨[], by simp [WalkEntries], by simp⟩
  | cons elt rest ih =>
    have hrest : ∀ e ∈ rest, e.IsDirectory = true → recursive = false →
        LikeFun_Glob e.Name (path_pattern.take end_match) = true →
        end_match < path_pattern.length → NameOk e.Name :=
      fun e he => hent e (List.mem_cons_of_mem _ he)
    simp only [WalkEntries]
    cases hd : elt.IsDirectory with
    | false =>
      cases hm : LikeFun_Glob elt.Name path_pattern with
      | false => simpa using ih hrest st
      | true => simpa using ih hrest { st with out_result := st.out_result ++ [elt.Name] }
    | true =>
      cases hmode : recursive with
      | true => subst hmode; simpa using ih hrest st
      | false =>
        subst hmode
        cases hm : LikeFun_Glob elt.Name (List.take end_match path_pattern) with
        | false => simpa using ih hrest st
        | true =>
          by_cases hge : end_match ≥ path_pattern.length
          · simpa [hge] using ih hrest st
          · have hok : NameOk elt.Name :=
              hent elt (List.mem_cons_self _ _) hd rfl hm (Nat.lt_of_not_ge hge)
            obtain ⟨a, ha, hdeep⟩ := hrec elt.Name st hok
            rcases hr : recurse elt.Name st with ⟨st1, o⟩
            rw [hr] at ha
            simp only at ha
            cases o with
            | value u =>
              obtain ⟨b, hb, hbdeep⟩ := ih hrest st1
              refine ⟨a ++ b, by simp [hge, hr, hb, ha], ?_⟩
              intro e he
              rcases List.mem_append.mp he with h | h
              · exact hdeep e h
              · exact hbdeep e h
            | raised e => exact ⟨a, by simp [hge, hr, ha], hdeep⟩
            | exhausted => exact ⟨a, by simp [hge, hr, ha], hdeep⟩

/-- The loop over the pages, likewise: its events are its own listing calls and those of the
calls of `recurse`, which are made on names its own pages returned. -/
theorem WalkPages_events (fs : DataLakeFileSystemClient)
    (recurse : Str → WalkState → WalkState × Outcome Unit)
    (LikeFun_Glob : Str → Str → Bool) (depth : Nat) (path path_pattern : Str) (end_match : Nat)
    (recursive : Bool) (C : Event → Prop) (NameOk : Str → Prop)
    (hrec : ∀ name s, NameOk name →
      ∃ added, (recurse name s).1.trace = s.trace ++ added ∧ ∀ e ∈ added, C e)
    (hpage : ∀ token, C (Event.ListPaths depth path recursive token))
    (hent : ∀ token res, fs.ListPaths path recursive token = .ok res →
      ∀ elt ∈ res.Paths, elt.IsDirectory = true → recursive = false →
      LikeFun_Glob elt.Name (path_pattern.take end_match) = true →
      end_match < path_pattern.length → NameOk elt.Name)
    (fuel : Nat) (token : Option Str) (st : WalkState) :
    ∃ added, (WalkPages fs recurse LikeFun_Glob depth path path_pattern end_match recursive fuel
        token st).1.trace = st.trace ++ added ∧ ∀ e ∈ added, C e := by
  induction fuel generalizing token st with
  | zero => exact ⟨[], by simp [WalkPages], by simp⟩
  | succ fuel ih =>
    simp only [WalkPages]
    cases hl : fs.ListPaths path recursive token with
    | error f =>
      exact ⟨[Event.ListPaths depth path recursive token], rfl, by simpa using hpage token⟩
    | ok res =>
      simp only
      obtain ⟨a, ha, hdeep⟩ := WalkEntries_events recurse LikeFun_Glob path_pattern end_match
        recursive C NameOk hrec res.Paths (hent token res hl)
        { st with trace := st.trace ++ [Event.ListPaths depth path recursive token] }
      rcases hr : WalkEntries recurse LikeFun_Glob path_pattern end_match recursive res.Paths
        { st with trace := st.trace ++ [Event.ListPaths depth path recursive token] }
        with ⟨st1, o⟩
      rw [hr] at ha
      simp only at ha
      have hfirst : ∀ e ∈ Event.ListPaths depth path recursive token :: a, C e := by
        intro e he
        rcases List.mem_cons.mp he with h | h
        · subst h; exact hpage token
        · exact hdeep e h
      cases o with
      | value u =>
        cases ht : res.NextPageToken with
        | none => exact ⟨Event.ListPaths depth path recursive token :: a, by simp [ha], hfirst⟩
        | some t =>
          obtain ⟨b, hb, hbdeep⟩ := ih (some t) st1
          refine ⟨Event.ListPaths depth path recursive token :: a ++ b, by simp [hb, ha], ?_⟩
          intro e he
          rcases List.mem_append.mp he with h | h
          · exact hfirst e h
          · exact hbdeep e h
      | raised e => exact ⟨Event.ListPaths depth path recursive token :: a, by simp [ha], hfirst⟩
      | exhausted => exact ⟨Event.ListPaths depth path recursive token :: a, by simp [ha], hfirst⟩

/-- What a `Walk` frame appends to the trace: its own entry first, then its listing calls and
the events of the frames nested in it, which hold on a property `C` of the events as soon as
the listing calls of the frame and the events of its nested frames do. -/
theorem WalkGas_frame_events (fs : DataLakeFileSystemClient) (LikeFun_Glob : Str → Str → Bool)
    (path_pattern : Str) (fuel gas depth : Nat) (path : Str) (end_match : Nat) (st : WalkState)
    (C : Event → Prop) (NameOk : Str → Prop)
    (hrec : ∀ name s, NameOk name →
      ∃ added, (WalkGas fs LikeFun_Glob path_pattern fuel gas (depth + 1) name
          (npos_min path_pattern.length (find_char path_pattern '/' (end_match + 1))) s).1.trace
        = s.trace ++ added ∧ ∀ e ∈ added, C e)
    (hpage : ∀ recursive token, C (Event.ListPaths depth path recursive token))
    (hent : ∀ token res, rfind_str path_pattern double_star_str end_match = none →
      fs.ListPaths path false token = .ok res →
      ∀ elt ∈ res.Paths, elt.IsDirectory = true →
      LikeFun_Glob elt.Name (path_pattern.take end_match) = true →
      end_match < path_pattern.length → NameOk elt.Name) :
    ∃ tail, (WalkGas fs LikeFun_Glob path_pattern fuel (gas + 1) depth path end_match st).1.trace
        = st.trace ++ Event.Walk depth path end_match :: tail ∧ ∀ e ∈ tail, C e := by
  have hpages : ∀ recursive,
      (recursive = false → rfind_str path_pattern double_star_str end_match = none) →
      ∃ tail,
      (WalkPages fs (fun name s =>
          WalkGas fs LikeFun_Glob path_pattern fuel gas (depth + 1) name
            (npos_min path_pattern.length (find_char path_pattern '/' (end_match + 1))) s)
        LikeFun_Glob depth path path_pattern end_match recursive fuel none
        { st with trace := st.trace ++ [Event.Walk depth path end_match] }).1.trace
        = st.trace ++ Event.Walk depth path end_match :: tail ∧ ∀ e ∈ tail, C e := by
    intro recursive hmode
    obtain ⟨a, ha, hdeep⟩ := WalkPages_events fs (fun name s =>
          WalkGas fs LikeFun_Glob path_pattern fuel gas (depth + 1) name
            (npos_min path_pattern.length (find_char path_pattern '/' (end_match + 1))) s)
        LikeFun_Glob depth path path_pattern end_match recursive C NameOk hrec (hpage recursive)
        (fun token res hl elt he hd hfalse hm hlt => by
          subst hfalse
          exact hent token res (hmode rfl) hl elt he hd hm hlt)
        fuel none { st with trace := st.trace ++ [Event.Walk depth path end_match] }
    exact ⟨a, by simp [ha], hdeep⟩
  simp only [WalkGas]
  cases hstar : rfind_str path_pattern double_star_str end_match with
  | none => exact hpages false (fun _ => hstar)
  | some i =>
    simp only
    by_cases hlen : path_pattern.length > end_match
    · simp only [hlen, if_true]
      exact ⟨[], rfl, by simp⟩
    · simp only [hlen, if_false]
      exact hpages true (fun h => by cases h)


/-- An event from inside a nested frame is from inside the frame around it. -/
theorem insideFrame_mono (d : Nat) (e : Event) (h : e.insideFrame (d + 1) = true) :
    e.insideFrame d = true := by
  cases e <;> simp [Event.insideFrame] at h ⊢ <;> omega

/-- The events of a `Walk` frame are its own entry and events from inside it. -/
theorem WalkGas_inside (fs : DataLakeFileSystemClient) (LikeFun_Glob : Str → Str → Bool)
    (path_pattern : Str) (fuel gas depth : Nat) (path : Str) (end_match : Nat) (st : WalkState) :
    ∃ added, (WalkGas fs LikeFun_Glob path_pattern fuel gas depth path end_match st).1.trace
        = st.trace ++ added ∧
      ∀ e ∈ added, e = Event.Walk depth path end_match ∨ e.insideFrame depth = true := by
  induction gas generalizing depth path end_match st with
  | zero => exact ⟨[], by simp [WalkGas], by simp⟩
  | succ gas ih =>
    obtain ⟨tail, htail, hin⟩ := WalkGas_frame_events fs LikeFun_Glob path_pattern fuel gas depth
      path end_match st (fun e => e.insideFrame depth = true) (fun _ => True)
      (fun name s _ => by
        obtain ⟨added, hadded, hall⟩ := ih (depth + 1) name
          (npos_min path_pattern.length (find_char path_pattern '/' (end_match + 1))) s
        refine ⟨added, hadded, ?_⟩
        intro e he
        rcases hall e he with h | h
        · subst h; simp [Event.insideFrame]
        · exact insideFrame_mono depth e h)
      (fun recursive token => by simp [Event.insideFrame])
      (fun _ _ _ _ _ _ _ _ _ => trivial)
    refine ⟨Event.Walk depth path end_match :: tail, htail, ?_⟩
    intro e he
    rcases List.mem_cons.mp he with h | h
    · exact Or.inl h
    · exact Or.inr (hin e h)

/-- The frames a `Walk` frame enters directly: each under the conditions of `RecursesInto`. -/
theorem WalkGas_children (fs : DataLakeFileSystemClient) (LikeFun_Glob : Str → Str → Bool)
    (path_pattern : Str) (fuel gas depth : Nat) (path : Str) (end_match : Nat) (st : WalkState) :
    ∃ tail, (WalkGas fs LikeFun_Glob path_pattern fuel (gas + 1) depth path end_match st).1.trace
        = st.trace ++ Event.Walk depth path end_match :: tail ∧
      ∀ e ∈ tail, ∀ name end_match1, e = Event.Walk (depth + 1) name end_match1 →
        RecursesInto fs LikeFun_Glob path_pattern path end_match name end_match1 := by
  refine WalkGas_frame_events fs LikeFun_Glob path_pattern fuel gas depth path end_match st
    (fun e => ∀ name end_match1, e = Event.Walk (depth + 1) name end_match1 →
      RecursesInto fs LikeFun_Glob path_pattern path end_match name end_match1)
    (fun name => RecursesInto fs LikeFun_Glob path_pattern path end_match name
      (npos_min path_pattern.length (find_char path_pattern '/' (end_match + 1))))
    ?_ ?_ ?_
  · intro name s hok
    obtain ⟨added, hadded, hall⟩ := WalkGas_inside fs LikeFun_Glob path_pattern fuel gas
      (depth + 1) name
      (npos_min path_pattern.length (find_char path_pattern '/' (end_match + 1))) s
    refine ⟨added, hadded, ?_⟩
    intro e he n e1 heq
    rcases hall e he with h | h
    · rw [heq] at h
      injection h with _ hn he1
      subst hn he1
      exact hok
    · rw [heq] at h
      simp [Event.insideFrame] at h
  · intro recursive token name end_match1 heq
    cases heq
  · intro token res hnone hl elt he hd hm hlt
    obtain ⟨h1, h2⟩ := next_end_match_bounds path_pattern end_match hlt
    exact ⟨hnone, hlt, hm, ⟨token, res, elt, hl, he, hd, rfl⟩, rfl, h1, h2⟩

/-- No event of a `Walk` frame comes from deeper than the pattern allows: the frame at depth
`depth` with `end_match` stays within depth `depth + (|pattern| - end_match)`. -/
theorem WalkGas_depth_bound (fs : DataLakeFileSystemClient) (LikeFun_Glob : Str → Str → Bool)
    (path_pattern : Str) (fuel gas depth : Nat) (path : Str) (end_match : Nat) (st : WalkState)
    (bound : Nat) (hbound : depth + (path_pattern.length - end_match) ≤ bound) :
    ∃ added, (WalkGas fs LikeFun_Glob path_pattern fuel gas depth path end_match st).1.trace
        = st.trace ++ added ∧ ∀ e ∈ added, e.depthAtMost bound = true := by
  induction gas generalizing depth path end_match st with
  | zero => exact ⟨[], by simp [WalkGas], by simp⟩
  | succ gas ih =>
    obtain ⟨tail, htail, hin⟩ := WalkGas_frame_events fs LikeFun_Glob path_pattern fuel gas depth
      path end_match st (fun e => e.depthAtMost bound = true)
      (fun _ => end_match < path_pattern.length)
      (fun name s hlt => by
        obtain ⟨h1, h2⟩ := next_end_match_bounds path_pattern end_match hlt
        exact ih (depth + 1) name
          (npos_min path_pattern.length (find_char path_pattern '/' (end_match + 1))) s
          (by omega))
      (fun recursive token => by simp [Event.depthAtMost]; omega)
      (fun _ _ _ _ _ _ _ _ hlt => hlt)
    refine ⟨Event.Walk depth path end_match :: tail, htail, ?_⟩
    intro e he
    rcases List.mem_cons.mp he with h | h
    · subst h; simp [Event.depthAtMost]; omega
    · exact hin e h


/-- The depth is only a label on the calls of a listing loop: entries and outcome do not
depend on it. -/
theorem collectPages_depth (fs : DataLakeFileSystemClient) (d d1 : Nat) (path : Str)
    (recursive : Bool) (n : Nat) (token : Option Str) :
    (collectPages fs d path recursive n token).1 = (collectPages fs d1 path recursive n token).1 ∧
    (collectPages fs d path recursive n token).2.2
      = (collectPages fs d1 path recursive n token).2.2 := by
  induction n generalizing token with
  | zero => exact ⟨rfl, rfl⟩
  | succ n ih =>
    cases hl : fs.ListPaths path recursive token with
    | error f => simp [collectPages, hl]
    | ok res =>
      cases ht : res.NextPageToken with
      | none => simp [collectPages, hl, ht]
      | some t =>
        simp only [collectPages, hl, ht]
        exact ⟨by rw [(ih (some t)).1], (ih (some t)).2⟩

/-- A budget that serves each member of a finite list serves them all. -/
theorem exists_fuel_for_all {α : Type} (P : α → Nat → Prop) (l : List α)
    (h : ∀ x ∈ l, ∃ f, ∀ fuel, f ≤ fuel → P x fuel) :
    ∃ f, ∀ fuel, f ≤ fuel → ∀ x ∈ l, P x fuel := by
  induction l with
  | nil => exact ⟨0, fun _ _ x hx => by cases hx⟩
  | cons a rest ih =>
    obtain ⟨fa, hfa⟩ := h a (List.mem_cons_self _ _)
    obtain ⟨fr, hfr⟩ := ih (fun x hx => h x (List.mem_cons_of_mem _ hx))
    refine ⟨max fa fr, ?_⟩
    intro fuel hfuel x hx
    rcases List.mem_cons.mp hx with hxa | hxr
    · subst hxa
      exact hfa fuel (le_trans (le_max_left _ _) hfuel)
    · exact hfr fuel (le_trans (le_max_right _ _) hfuel) x hxr

/-- The loop over the entries does not run out of budget when the nested calls it can make
do not. -/
theorem WalkEntries_ends (recurse : Str → WalkState → WalkState × Outcome Unit)
    (LikeFun_Glob : Str → Str → Bool) (path_pattern : Str) (end_match : Nat) (recursive : Bool)
    (entries : List PathItem)
    (hrec : end_match < path_pattern.length → ∀ elt ∈ entries, elt.IsDirectory = true →
      ∀ s, (recurse elt.Name s).2 ≠ .exhausted)
    (st : WalkState) :
    (WalkEntries recurse LikeFun_Glob path_pattern end_match recursive entries st).2
      ≠ .exhausted := by
  induction entries generalizing st with
  | nil => simp [WalkEntries]
  | cons elt rest ih =>
    have hrest : end_match < path_pattern.length → ∀ e ∈ rest, e.IsDirectory = true →
        ∀ s, (recurse e.Name s).2 ≠ .exhausted :=
      fun hlt e he => hrec hlt e (List.mem_cons_of_mem _ he)
    simp only [WalkEntries]
    cases hd : elt.IsDirectory with
    | false =>
      cases hm : LikeFun_Glob elt.Name path_pattern with
      | false => simpa using ih hrest st
      | true => simpa using ih hrest { st with out_result := st.out_result ++ [elt.Name] }
    | true =>
      cases recursive with
      | true => simpa using ih hrest st
      | false =>
        cases hm : LikeFun_Glob elt.Name (List.take end_match path_pattern) with
        | false => simpa using ih hrest st
        | true =>
          by_cases hge : end_match ≥ path_pattern.length
          · simpa [hge] using ih hrest st
          · have hgood := hrec (Nat.lt_of_not_ge hge) elt (List.mem_cons_self _ _) hd st
            rcases hr : recurse elt.Name st with ⟨st1, o⟩
            rw [hr] at hgood
            cases o with
            | value u => simpa [hge, hr] using ih hrest st1
            | raised e => simp [hge, hr]
            | exhausted => exact absurd rfl hgood

/-- The loop over the pages does not run out of budget when the listing ends within the budget
and the nested calls on the directories it lists do not run out either. -/
theorem WalkPages_ends (fs : DataLakeFileSystemClient)
    (recurse : Str → WalkState → WalkState × Outcome Unit)
    (LikeFun_Glob : Str → Str → Bool) (depth : Nat) (path path_pattern : Str) (end_match : Nat)
    (recursive : Bool) (n : Nat) (token : Option Str) (fuel : Nat) (st : WalkState)
    (hends : (collectPages fs depth path recursive n token).2.2 ≠ .exhausted)
    (hfuel : n ≤ fuel)
    (hrec : end_match < path_pattern.length →
      ∀ elt ∈ (collectPages fs depth path recursive n token).1, elt.IsDirectory = true →
      ∀ s, (recurse elt.Name s).2 ≠ .exhausted) :
    (WalkPages fs recurse LikeFun_Glob depth path path_pattern end_match recursive fuel token
      st).2 ≠ .exhausted := by
  induction n generalizing token fuel st with
  | zero => simp [collectPages] at hends
  | succ n ih =>
    cases fuel with
    | zero => omega
    | succ fuel =>
      simp only [WalkPages]
      simp only [collectPages] at hends hrec
      cases hl : fs.ListPaths path recursive token with
      | error f => simp
      | ok res =>
        rw [hl] at hends hrec
        simp only at hends hrec ⊢
        cases ht : res.NextPageToken with
        | none =>
          rw [ht] at hrec
          simp only at hrec
          have hgood := WalkEntries_ends recurse LikeFun_Glob path_pattern end_match recursive
            res.Paths hrec
            { st with trace := st.trace ++ [Event.ListPaths depth path recursive token] }
          rcases hr : WalkEntries recurse LikeFun_Glob path_pattern end_match recursive
            res.Paths
            { st with trace := st.trace ++ [Event.ListPaths depth path recursive token] }
            with ⟨st1, o⟩
          rw [hr] at hgood
          cases o with
          | value u => simp
          | raised e => simp
          | exhausted => exact absurd rfl hgood
        | some t =>
          rw [ht] at hends hrec
          simp only at hends hrec
          have hgood := WalkEntries_ends recurse LikeFun_Glob path_pattern end_match recursive
            res.Paths
            (fun hlt elt he => hrec hlt elt (List.mem_append_left _ he))
            { st with trace := st.trace ++ [Event.ListPaths depth path recursive token] }
          rcases hr : WalkEntries recurse LikeFun_Glob path_pattern end_match recursive
            res.Paths
            { st with trace := st.trace ++ [Event.ListPaths depth path recursive token] }
            with ⟨st1, o⟩
          rw [hr] at hgood
          cases o with
          | value u =>
            simp only
            exact ih (some t) fuel st1 hends (by omega)
              (fun hlt elt he => hrec hlt elt (List.mem_append_right _ he))
          | raised e => simp
          | exhausted => exact absurd rfl hgood

/-- When every listing of the store ends after finitely many pages, a `Walk` frame that has
the frames the pattern can need ends for every page budget from some budget on. -/
theorem WalkGas_ends (fs : DataLakeFileSystemClient) (LikeFun_Glob : Str → Str → Bool)
    (path_pattern : Str)
    (hfin : ∀ path recursive, ∃ n, (collectPages fs 0 path recursive n none).2.2 ≠ .exhausted)
    (gas depth : Nat) (path : Str) (end_match : Nat)
    (hgas : path_pattern.length - end_match < gas) :
    ∃ fuel0, ∀ fuel, fuel0 ≤ fuel → ∀ st,
      (WalkGas fs LikeFun_Glob path_pattern fuel gas depth path end_match st).2
        ≠ .exhausted := by
  induction gas generalizing depth path end_match with
  | zero => omega
  | succ gas ih =>
    have hpages : ∀ recursive, ∃ fuel0, ∀ fuel, fuel0 ≤ fuel → ∀ st : WalkState,
        (WalkPages fs (fun name s =>
            WalkGas fs LikeFun_Glob path_pattern fuel gas (depth + 1) name
              (npos_min path_pattern.length (find_char path_pattern '/' (end_match + 1))) s)
          LikeFun_Glob depth path path_pattern end_match recursive fuel none st).2
          ≠ .exhausted := by
      intro recursive
      obtain ⟨n, hn⟩ := hfin path recursive
      have hn' : (collectPages fs depth path recursive n none).2.2 ≠ .exhausted := by
        rw [(collectPages_depth fs depth 0 path recursive n none).2]; exact hn
      by_cases hlt : end_match < path_pattern.length
      · obtain ⟨h1, h2⟩ := next_end_match_bounds path_pattern end_match hlt
        obtain ⟨f, hf⟩ := exists_fuel_for_all
          (fun (elt : PathItem) fuel => ∀ s,
            (WalkGas fs LikeFun_Glob path_pattern fuel gas (depth + 1) elt.Name
              (npos_min path_pattern.length (find_char path_pattern '/' (end_match + 1))) s).2
              ≠ .exhausted)
          (collectPages fs depth path recursive n none).1
          (fun elt _ => ih (depth + 1) elt.Name
            (npos_min path_pattern.length (find_char path_pattern '/' (end_match + 1)))
            (by omega))
        refine ⟨max n f, ?_⟩
        intro fuel hfuel st
        exact WalkPages_ends fs _ LikeFun_Glob depth path path_pattern end_match recursive n
          none fuel st hn' (le_trans (le_max_left _ _) hfuel)
          (fun _ elt he _ s => hf fuel (le_trans (le_max_right _ _) hfuel) elt he s)
      · refine ⟨n, ?_⟩
        intro fuel hfuel st
        exact WalkPages_ends fs _ LikeFun_Glob depth path path_pattern end_match recursive n
          none fuel st hn' hfuel (fun h => absurd h hlt)
    cases hstar : rfind_str path_pattern double_star_str end_match with
    | none =>
      obtain ⟨f, hf⟩ := hpages false
      refine ⟨f, ?_⟩
      intro fuel hfuel st
      simp only [WalkGas, hstar]
      exact hf fuel hfuel _
    | some i =>
      by_cases hlen : path_pattern.length > end_match
      · refine ⟨0, ?_⟩
        intro fuel _ st
        simp [WalkGas, hstar, hlen]
      · obtain ⟨f, hf⟩ := hpages true
        refine ⟨f, ?_⟩
        intro fuel hfuel st
        simp only [WalkGas, hstar, hlen, if_false]
        exact hf fuel hfuel _


/-- The page a store of finite page lists serves for the token of index `i`. -/
theorem servePages_at (listing : Str → Bool → List (List PathItem)) (path : Str)
    (recursive : Bool) (i : Nat) (page : List PathItem)
    (hpage : (listing path recursive)[i]? = some page) :
    servePages listing path recursive (if i = 0 then none else some (pageToken i))
      = .ok ⟨page, if i + 1 < (listing path recursive).length then some (pageToken (i + 1))
          else none⟩ := by
  by_cases h : i = 0
  · subst h
    simp only [List.get?_eq_getElem?] at *
    simp [servePages, hpage]
  · simp only [List.get?_eq_getElem?] at *
    simp [servePages, h, pageToken, hpage]

/-- A listing served from finite page lists ends: from page `i` on, the pages left suffice. -/
theorem collectPages_servePages_from (listing : Str → Bool → List (List PathItem)) (d : Nat)
    (path : Str) (recursive : Bool) (k i : Nat)
    (hk : i + k = (listing path recursive).length) (hi : i < (listing path recursive).length) :
    (collectPages (sampleClient listing) d path recursive k
      (if i = 0 then none else some (pageToken i))).2.2 ≠ .exhausted := by
  induction k generalizing i with
  | zero => omega
  | succ k ih =>
    obtain ⟨page, hpage⟩ : ∃ page, (listing path recursive)[i]? = some page :=
      ⟨(listing path recursive)[i], List.getElem?_eq_getElem hi⟩
    have hserve : (sampleClient listing).ListPaths path recursive
        (if i = 0 then none else some (pageToken i))
        = .ok ⟨page, if i + 1 < (listing path recursive).length then some (pageToken (i + 1))
            else none⟩ := servePages_at listing path recursive i page hpage
    simp only [collectPages, hserve]
    by_cases hnext : i + 1 < (listing path recursive).length
    · simp only [hnext, if_true]
      have := ih (i + 1) (by omega) hnext
      simpa using this
    · simp [hnext]

/-- Every listing of a store of finite page lists ends after finitely many pages. -/
theorem collectPages_servePages_ends (listing : Str → Bool → List (List PathItem)) (path : Str)
    (recursive : Bool) :
    ∃ n, (collectPages (sampleClient listing) 0 path recursive n none).2.2 ≠ .exhausted := by
  by_cases hlen : 0 < (listing path recursive).length
  · exact ⟨(listing path recursive).length, by
      simpa using collectPages_servePages_from listing 0 path recursive
        (listing path recursive).length 0 (by omega) hlen⟩
  · refine ⟨1, ?_⟩
    have hnil : listing path recursive = [] := List.length_eq_zero.mp (by omega)
    have hserve : (sampleClient listing).ListPaths path recursive none = .ok ⟨[], none⟩ := by
      show servePages listing path recursive none = _
      simp [servePages, hnil]
    simp [collectPages, hserve]

/-- C12: a `Walk` frame on `path` with `end_match` inside the pattern enters a nested frame
only when it is not in recursive mode, on the name of a directory entry of its listing that
matches the pattern up to `end_match`, and only with `end_match < |pattern|`; the nested frame
gets an `end_match1` with `end_match < end_match1 <= |pattern|`. Whatever the store holds,
every frame and every listing call of the walk lies at most `|pattern| - end_match` levels
below the first frame, so at most `|pattern| - end_match + 1` frames are nested. When every
listing of the store ends after finitely many pages, the walk ends, by a value or by an
exception, for every page budget from some budget on. -/
theorem Walk_recursion_bounded (fs : DataLakeFileSystemClient) (LikeFun_Glob : Str → Str → Bool)
    (path_pattern : Str) (fuel gas depth : Nat) (path : Str) (end_match : Nat) (st : WalkState)
    (hle : end_match ≤ path_pattern.length) :
    (∃ tail,
      (WalkGas fs LikeFun_Glob path_pattern fuel (gas + 1) depth path end_match st).1.trace
        = st.trace ++ Event.Walk depth path end_match :: tail ∧
      (∀ name end_match1, Event.Walk (depth + 1) name end_match1 ∈ tail →
        RecursesInto fs LikeFun_Glob path_pattern path end_match name end_match1) ∧
      (∀ d1 name end_match1, Event.Walk d1 name end_match1 ∈ tail →
        d1 + end_match ≤ depth + path_pattern.length) ∧
      (∀ d1 p r t, Event.ListPaths d1 p r t ∈ tail →
        d1 + end_match ≤ depth + path_pattern.length)) ∧
    ((∀ p r, ∃ n, (collectPages fs 0 p r n none).2.2 ≠ .exhausted) →
      ∃ fuel0, ∀ fuel1, fuel0 ≤ fuel1 → ∀ st1,
        (Walk fs LikeFun_Glob fuel1 path path_pattern end_match st1).2 ≠ .exhausted) := by
  constructor
  · obtain ⟨tail, htail, hchildren⟩ := WalkGas_children fs LikeFun_Glob path_pattern fuel gas
      depth path end_match st
    obtain ⟨added, hadded, hdepth⟩ := WalkGas_depth_bound fs LikeFun_Glob path_pattern fuel
      (gas + 1) depth path end_match st (depth + (path_pattern.length - end_match))
      (le_refl _)
    have hsame : added = Event.Walk depth path end_match :: tail :=
      List.append_cancel_left (hadded.symm.trans htail)
    have htaildepth : ∀ e ∈ tail,
        e.depthAtMost (depth + (path_pattern.length - end_match)) = true :=
      fun e he => hdepth e (hsame ▸ List.mem_cons_of_mem _ he)
    refine ⟨tail, htail, ?_, ?_, ?_⟩
    · intro name end_match1 hmem
      exact hchildren _ hmem name end_match1 rfl
    · intro d1 name end_match1 hmem
      have := htaildepth _ hmem
      simp only [Event.depthAtMost, decide_eq_true_eq] at this
      omega
    · intro d1 p r t hmem
      have := htaildepth _ hmem
      simp only [Event.depthAtMost, decide_eq_true_eq] at this
      omega
  · intro hfin
    exact WalkGas_ends fs LikeFun_Glob path_pattern hfin
      (path_pattern.length - end_match + 1) 0 path end_match (Nat.lt_succ_self _)

/-- C12 on the sample store for `a/*/b*`, from the frame on `a` with `end_match = 3`: the
walk enters the frames on `a/x` and `a/y` at depth 1 with `end_match = 6`, none deeper, and
ends for every budget from some budget on. -/
theorem Walk_recursion_bounded_witness :
    3 ≤ "a/*/b*".toList.length ∧
    (WalkGas (sampleClient sampleListing) sampleGlob "a/*/b*".toList 5 (3 + 1) 0 "a".toList 3
      ⟨[], []⟩).1.trace
      = [Event.Walk 0 "a".toList 3, Event.ListPaths 0 "a".toList false none,
         Event.Walk 1 "a/x".toList 6, Event.ListPaths 1 "a/x".toList false none,
         Event.ListPaths 1 "a/x".toList false (some (pageToken 1)),
         Event.ListPaths 0 "a".toList false (some (pageToken 1)),
         Event.Walk 1 "a/y".toList 6, Event.ListPaths 1 "a/y".toList false none] ∧
    (∃ fuel0, ∀ fuel1, fuel0 ≤ fuel1 → ∀ st1,
      (Walk (sampleClient sampleListing) sampleGlob fuel1 "a".toList "a/*/b*".toList 3 st1).2
        ≠ .exhausted) :=
  ⟨by decide, by rfl,
    (Walk_recursion_bounded (sampleClient sampleListing) sampleGlob "a/*/b*".toList 5 3 0
      "a".toList 3 ⟨[], []⟩ (by decide)).2
      (fun p r => collectPages_servePages_ends sampleListing p r)⟩

/-! ## The recursive listing -/

/-- In a pattern ending in `**`, the search from the end of the pattern finds a `**`. -/
theorem rfind_str_of_suffix (q : Str) :
    ∃ i, rfind_str (q ++ double_star_str) double_star_str (q ++ double_star_str).length = some i := by
  cases h : rfind_str (q ++ double_star_str) double_star_str (q ++ double_star_str).length with
  | some i => exact ⟨i, rfl⟩
  | none =>
    exfalso
    unfold rfind_str at h
    have hlen : double_star_str.length ≤ (q ++ double_star_str).length := by simp
    rw [if_pos hlen, rfind_below_eq_none] at h
    have := h q.length (by simp [double_star_str])
    simp [double_star_str] at this

/-- In recursive mode the loop over the entries makes no nested call and keeps the matching files. -/
theorem WalkEntries_recursive (recurse : Str → WalkState → WalkState × Outcome Unit)
    (LikeFun_Glob : Str → Str → Bool) (path_pattern : Str) (end_match : Nat)
    (entries : List PathItem) (st : WalkState) :
    WalkEntries recurse LikeFun_Glob path_pattern end_match true entries st
      = ({ st with out_result := st.out_result ++ matchingFiles LikeFun_Glob path_pattern entries },
          .value ()) := by
  induction entries generalizing st with
  | nil => simp [WalkEntries, matchingFiles]
  | cons elt rest ih =>
    cases hd : elt.IsDirectory <;> cases hm : LikeFun_Glob elt.Name path_pattern <;>
      simp [WalkEntries, hd, hm, ih, matchingFiles]

/-- In recursive mode the loop over the pages is the plain listing loop followed by the file filter. -/
theorem WalkPages_recursive (fs : DataLakeFileSystemClient)
    (recurse : Str → WalkState → WalkState × Outcome Unit)
    (LikeFun_Glob : Str → Str → Bool) (depth : Nat) (path path_pattern : Str) (end_match : Nat)
    (fuel : Nat) (token : Option Str) (st : WalkState) :
    WalkPages fs recurse LikeFun_Glob depth path path_pattern end_match true fuel token st
      = ({ out_result := st.out_result ++
            matchingFiles LikeFun_Glob path_pattern (collectPages fs depth path true fuel token).1,
           trace := st.trace ++ (collectPages fs depth path true fuel token).2.1 },
          (collectPages fs depth path true fuel token).2.2) := by
  induction fuel generalizing token st with
  | zero => simp [WalkPages, collectPages, matchingFiles]
  | succ fuel ih =>
    simp only [WalkPages, collectPages]
    cases hl : fs.ListPaths path true token with
    | error f => simp [matchingFiles]
    | ok res =>
      simp only [WalkEntries_recursive]
      cases ht : res.NextPageToken with
      | none => simp
      | some t => simp [ih, matchingFiles]

/-- C7: for a pattern ending in `**`, the `Walk` frame whose `end_match` is the length of the
pattern asks for the listing in recursive mode (every call it issues is a `ListPaths` of its
own path with `recursive = true`), enters no further frame (its trace holds its own entry and
those listing calls only), and appends to the result exactly the names of the non-directory
entries of that listing that match the whole pattern, in listing order. The frame ends as the
listing loop ends. -/
theorem Walk_recursive_listing (fs : DataLakeFileSystemClient) (LikeFun_Glob : Str → Str → Bool)
    (path_pattern : Str) (fuel gas depth : Nat) (path : Str) (st : WalkState)
    (hstar : ∃ q, path_pattern = q ++ double_star_str) :
    WalkGas fs LikeFun_Glob path_pattern fuel (gas + 1) depth path path_pattern.length st
      = ({ out_result := st.out_result ++
            matchingFiles LikeFun_Glob path_pattern (collectPages fs depth path true fuel none).1,
           trace := st.trace ++ Event.Walk depth path path_pattern.length ::
            (collectPages fs depth path true fuel none).2.1 },
          (collectPages fs depth path true fuel none).2.2) ∧
    (∀ ev ∈ (collectPages fs depth path true fuel none).2.1,
      ∃ token, ev = Event.ListPaths depth path true token) := by
  obtain ⟨q, rfl⟩ := hstar
  obtain ⟨i, hi⟩ := rfind_str_of_suffix q
  constructor
  · simp only [WalkGas, hi, lt_irrefl, if_false, gt_iff_lt, WalkPages_recursive]
    simp
  · generalize (none : Option Str) = token
    induction fuel generalizing token with
    | zero => simp [collectPages]
    | succ fuel ih =>
      intro ev hev
      simp only [collectPages] at hev
      cases hl : fs.ListPaths path true token with
      | error f => simp only [hl, List.mem_singleton] at hev; exact ⟨token, hev⟩
      | ok res =>
        cases ht : res.NextPageToken with
        | none => simp only [hl, ht, List.mem_singleton] at hev; exact ⟨token, hev⟩
        | some t =>
          simp only [hl, ht, List.mem_cons] at hev
          rcases hev with h | h
          · exact ⟨token, h⟩
          · exact ih (some t) ev h

/-- C7 at `logs/**`: the frame on `logs` with `end_match = 7` asks for the recursive listing,
page after page, enters no other frame, and adds the three files of that listing, those of
the nested level included, in listing order. -/
theorem Walk_recursive_listing_witness :
    (∃ q, "logs/**".toList = q ++ double_star_str) ∧
    WalkGas (sampleClient sampleListing) sampleGlob "logs/**".toList 5 1 0 "logs".toList
        "logs/**".toList.length ⟨[], []⟩
      = (⟨["logs/2024/jan.log".toList, "logs/2024/feb.log".toList, "logs/readme".toList],
          [Event.Walk 0 "logs".toList 7, Event.ListPaths 0 "logs".toList true none,
           Event.ListPaths 0 "logs".toList true (some (pageToken 1))]⟩, .value ()) :=
  ⟨⟨"logs/".toList, by rfl⟩,
    (Walk_recursive_listing (sampleClient sampleListing) sampleGlob "logs/**".toList 5 0 0
      "logs".toList ⟨[], []⟩ ⟨"logs/".toList, by rfl⟩).1.trans (by rfl)⟩


/-! ## Pagination -/

/-- Processing two lists of entries in a row is processing their concatenation. -/
theorem WalkEntries_append (recurse : Str → WalkState → WalkState × Outcome Unit)
    (LikeFun_Glob : Str → Str → Bool) (path_pattern : Str) (end_match : Nat) (recursive : Bool)
    (xs ys : List PathItem) (st : WalkState) :
    WalkEntries recurse LikeFun_Glob path_pattern end_match recursive (xs ++ ys) st
      = match WalkEntries recurse LikeFun_Glob path_pattern end_match recursive xs st with
        | (st1, .value ()) =>
          WalkEntries recurse LikeFun_Glob path_pattern end_match recursive ys st1
        | (st1, o) => (st1, o) := by
  induction xs generalizing st with
  | nil => simp [WalkEntries]
  | cons elt rest ih =>
    simp only [List.cons_append, WalkEntries]
    cases hd : elt.IsDirectory with
    | false =>
      cases hm : LikeFun_Glob elt.Name path_pattern <;> simp [ih]
    | true =>
      cases recursive with
      | true => simp [ih]
      | false =>
        cases hm : LikeFun_Glob elt.Name (List.take end_match path_pattern) with
        | false => simp [ih]
        | true =>
          by_cases hge : end_match ≥ path_pattern.length
          · simp [hge, ih]
          · rcases hr : recurse elt.Name st with ⟨st1, o⟩
            cases o with
            | value u => simp [hge, hr, ih]
            | raised e => simp [hge, hr]
            | exhausted => simp [hge, hr]


/-- The loop over the entries respects agreement on output and outcome of the nested calls. -/
theorem WalkEntries_congr (recurse recurse' : Str → WalkState → WalkState × Outcome Unit)
    (LikeFun_Glob : Str → Str → Bool) (path_pattern : Str) (end_match : Nat) (recursive : Bool)
    (hrec : ∀ name s s', s.out_result = s'.out_result →
      sameResult (recurse name s) (recurse' name s'))
    (entries : List PathItem) (st st' : WalkState) (h : st.out_result = st'.out_result) :
    sameResult (WalkEntries recurse LikeFun_Glob path_pattern end_match recursive entries st)
      (WalkEntries recurse' LikeFun_Glob path_pattern end_match recursive entries st') := by
  induction entries generalizing st st' with
  | nil => exact ⟨h, rfl⟩
  | cons elt rest ih =>
    simp only [WalkEntries]
    cases hd : elt.IsDirectory with
    | false =>
      cases hm : LikeFun_Glob elt.Name path_pattern with
      | false => simpa using ih st st' h
      | true =>
        simp only [Bool.false_eq_true, if_false, if_true]
        exact ih _ _ (by simp [h])
    | true =>
      cases recursive with
      | true => simpa using ih st st' h
      | false =>
        cases hm : LikeFun_Glob elt.Name (List.take end_match path_pattern) with
        | false => simpa using ih st st' h
        | true =>
          by_cases hge : end_match ≥ path_pattern.length
          · simpa [hge] using ih st st' h
          · have hsame := hrec elt.Name st st' h
            rcases hr : recurse elt.Name st with ⟨st1, o⟩
            rcases hr' : recurse' elt.Name st' with ⟨st1', o'⟩
            rw [hr, hr'] at hsame
            obtain ⟨hout, ho⟩ := hsame
            simp only at hout ho
            subst ho
            cases o with
            | value u => simpa [hge, hr, hr'] using ih st1 st1' hout
            | raised e => simpa [hge, hr, hr', sameResult] using hout
            | exhausted => simpa [hge, hr, hr', sameResult] using hout

/-- The loop over the pages respects agreement of the listings and of the nested calls. -/
theorem WalkPages_congr (fs fs' : DataLakeFileSystemClient)
    (recurse recurse' : Str → WalkState → WalkState × Outcome Unit)
    (LikeFun_Glob : Str → Str → Bool) (depth : Nat) (path path_pattern : Str) (end_match : Nat)
    (recursive : Bool)
    (hfs : ∀ t, fs.ListPaths path recursive t = fs'.ListPaths path recursive t)
    (hrec : ∀ name s s', s.out_result = s'.out_result →
      sameResult (recurse name s) (recurse' name s'))
    (fuel : Nat) (token : Option Str) (st st' : WalkState) (h : st.out_result = st'.out_result) :
    sameResult
      (WalkPages fs recurse LikeFun_Glob depth path path_pattern end_match recursive fuel token st)
      (WalkPages fs' recurse' LikeFun_Glob depth path path_pattern end_match recursive fuel token
        st') := by
  induction fuel generalizing token st st' with
  | zero => exact ⟨h, rfl⟩
  | succ fuel ih =>
    simp only [WalkPages, ← hfs]
    cases hl : fs.ListPaths path recursive token with
    | error f => exact ⟨h, rfl⟩
    | ok res =>
      simp only
      have hsame := WalkEntries_congr recurse recurse' LikeFun_Glob path_pattern end_match
        recursive hrec res.Paths
        { st with trace := st.trace ++ [Event.ListPaths depth path recursive token] }
        { st' with trace := st'.trace ++ [Event.ListPaths depth path recursive token] } h
      rcases hr : WalkEntries recurse LikeFun_Glob path_pattern end_match recursive res.Paths
        { st with trace := st.trace ++ [Event.ListPaths depth path recursive token] }
        with ⟨st1, o⟩
      rcases hr' : WalkEntries recurse' LikeFun_Glob path_pattern end_match recursive res.Paths
        { st' with trace := st'.trace ++ [Event.ListPaths depth path recursive token] }
        with ⟨st1', o'⟩
      rw [hr, hr'] at hsame
      obtain ⟨hout, ho⟩ := hsame
      simp only at hout ho
      subst ho
      cases o with
      | value u =>
        cases ht : res.NextPageToken with
        | none => exact ⟨hout, rfl⟩
        | some t => exact ih (some t) st1 st1' hout
      | raised e => exact ⟨hout, rfl⟩
      | exhausted => exact ⟨hout, rfl⟩


/-- The loop over a listing served in several pages agrees with the loop over the entries of the merged page. -/
theorem WalkPages_served (fs : DataLakeFileSystemClient)
    (recurse recurse' : Str → WalkState → WalkState × Outcome Unit)
    (LikeFun_Glob : Str → Str → Bool) (depth : Nat) (path path_pattern : Str) (end_match : Nat)
    (recursive : Bool)
    (hrec : ∀ name s s', s.out_result = s'.out_result →
      sameResult (recurse name s) (recurse' name s'))
    (pages : List ListPathsResult) (fuel : Nat) (token : Option Str) (st st' : WalkState)
    (hserved : servedInPages fs path recursive token pages = true)
    (hfuel : pages.length ≤ fuel) (h : st.out_result = st'.out_result) :
    sameResult
      (WalkPages fs recurse LikeFun_Glob depth path path_pattern end_match recursive fuel token st)
      (WalkEntries recurse' LikeFun_Glob path_pattern end_match recursive
        (mergedPage pages).Paths st') := by
  induction pages generalizing fuel token st st' with
  | nil => simp [servedInPages] at hserved
  | cons page rest ih =>
    cases fuel with
    | zero => simp at hfuel
    | succ fuel =>
      have hsame := WalkEntries_congr recurse recurse' LikeFun_Glob path_pattern end_match
        recursive hrec page.Paths
        { st with trace := st.trace ++ [Event.ListPaths depth path recursive token] } st' h
      rcases hr : WalkEntries recurse LikeFun_Glob path_pattern end_match recursive page.Paths
        { st with trace := st.trace ++ [Event.ListPaths depth path recursive token] }
        with ⟨st1, o⟩
      rcases hr' : WalkEntries recurse' LikeFun_Glob path_pattern end_match recursive page.Paths
        st' with ⟨st1', o'⟩
      rw [hr, hr'] at hsame
      obtain ⟨hout, ho⟩ := hsame
      simp only at hout ho
      subst ho
      have hmerged : (mergedPage (page :: rest)).Paths = page.Paths ++ (mergedPage rest).Paths := by
        simp [mergedPage]
      rw [hmerged, WalkEntries_append, hr']
      cases rest with
      | nil =>
        simp only [servedInPages, Bool.and_eq_true, decide_eq_true_eq, Option.isNone_iff_eq_none]
          at hserved
        obtain ⟨hl, hnone⟩ := hserved
        simp only [WalkPages, hl, hr, hnone]
        cases o with
        | value u => simpa [mergedPage, WalkEntries, sameResult] using hout
        | raised e => exact ⟨hout, rfl⟩
        | exhausted => exact ⟨hout, rfl⟩
      | cons next rest =>
        simp only [servedInPages, Bool.and_eq_true, decide_eq_true_eq] at hserved
        obtain ⟨⟨hl, hsome⟩, hnext⟩ := hserved
        obtain ⟨t, ht⟩ := Option.isSome_iff_exists.mp hsome
        simp only [WalkPages, hl, hr, ht]
        cases o with
        | value u =>
          rw [ht] at hnext
          exact ih fuel (some t) st1 st1' hnext (by simpa using hfuel) hout
        | raised e => exact ⟨hout, rfl⟩
        | exhausted => exact ⟨hout, rfl⟩

/-- A `Walk` frame agrees, on output and outcome, with the same frame against the client that serves one listing merged. -/
theorem WalkGas_serveMerged (fs : DataLakeFileSystemClient) (LikeFun_Glob : Str → Str → Bool)
    (path_pattern : Str) (fuel : Nat) (dir : Str) (mode : Bool) (pages : List ListPathsResult)
    (hserved : servedInPages fs dir mode none pages = true) (hfuel : pages.length ≤ fuel)
    (gas depth : Nat) (path : Str) (end_match : Nat) (st st' : WalkState)
    (h : st.out_result = st'.out_result) :
    sameResult (WalkGas fs LikeFun_Glob path_pattern fuel gas depth path end_match st)
      (WalkGas (serveMerged fs dir mode pages) LikeFun_Glob path_pattern fuel gas depth path
        end_match st') := by
  induction gas generalizing depth path end_match st st' with
  | zero => exact ⟨h, rfl⟩
  | succ gas ih =>
    have hrec : ∀ name s s', s.out_result = s'.out_result →
        sameResult
          (WalkGas fs LikeFun_Glob path_pattern fuel gas (depth + 1) name
            (npos_min path_pattern.length (find_char path_pattern '/' (end_match + 1))) s)
          (WalkGas (serveMerged fs dir mode pages) LikeFun_Glob path_pattern fuel gas (depth + 1)
            name (npos_min path_pattern.length (find_char path_pattern '/' (end_match + 1))) s') :=
      fun name s s' hs => ih (depth + 1) name _ s s' hs
    have hpages : ∀ (recursive : Bool) (s s' : WalkState), s.out_result = s'.out_result →
        sameResult
          (WalkPages fs (fun name s =>
              WalkGas fs LikeFun_Glob path_pattern fuel gas (depth + 1) name
                (npos_min path_pattern.length (find_char path_pattern '/' (end_match + 1))) s)
            LikeFun_Glob depth path path_pattern end_match recursive fuel none s)
          (WalkPages (serveMerged fs dir mode pages) (fun name s =>
              WalkGas (serveMerged fs dir mode pages) LikeFun_Glob path_pattern fuel gas
                (depth + 1) name
                (npos_min path_pattern.length (find_char path_pattern '/' (end_match + 1))) s)
            LikeFun_Glob depth path path_pattern end_match recursive fuel none s') := by
      intro recursive s s' hs
      by_cases hhit : path = dir ∧ recursive = mode
      · obtain ⟨hp, hm⟩ := hhit
        subst hp hm
        have hleft := WalkPages_served fs _ _ LikeFun_Glob depth path path_pattern end_match
          recursive hrec pages fuel none s
          { s' with trace := s'.trace ++ [Event.ListPaths depth path recursive none] }
          hserved hfuel hs
        cases fuel with
        | zero =>
          cases pages with
          | nil => simp [servedInPages] at hserved
          | cons _ _ => simp at hfuel
        | succ fuel =>
          have hright : WalkPages (serveMerged fs path recursive pages) (fun name s =>
              WalkGas (serveMerged fs path recursive pages) LikeFun_Glob path_pattern (fuel + 1)
                gas (depth + 1) name
                (npos_min path_pattern.length (find_char path_pattern '/' (end_match + 1))) s)
              LikeFun_Glob depth path path_pattern end_match recursive (fuel + 1) none s'
              = WalkEntries (fun name s =>
                  WalkGas (serveMerged fs path recursive pages) LikeFun_Glob path_pattern
                    (fuel + 1) gas (depth + 1) name
                    (npos_min path_pattern.length (find_char path_pattern '/' (end_match + 1))) s)
                LikeFun_Glob path_pattern end_match recursive (mergedPage pages).Paths
                { s' with trace := s'.trace ++ [Event.ListPaths depth path recursive none] } := by
            simp only [WalkPages, serveMerged, and_self, if_true]
            rcases WalkEntries _ LikeFun_Glob path_pattern end_match recursive
              (mergedPage pages).Paths
              { s' with trace := s'.trace ++ [Event.ListPaths depth path recursive none] }
              with ⟨s1, o⟩
            cases o <;> simp [mergedPage]
          rw [hright]
          exact hleft
      · refine WalkPages_congr fs (serveMerged fs dir mode pages) _ _ LikeFun_Glob depth path
          path_pattern end_match recursive ?_ hrec fuel none s s' hs
        intro t
        simp only [serveMerged]
        rw [if_neg]
        intro hc
        exact hhit ⟨hc.1, hc.2.1⟩
    simp only [WalkGas]
    cases hstar : rfind_str path_pattern double_star_str end_match with
    | none => exact hpages false _ _ h
    | some i =>
      simp only
      by_cases hlen : path_pattern.length > end_match
      · simp only [hlen, if_true]
        exact ⟨h, rfl⟩
      · simp only [hlen, if_false]
        exact hpages true _ _ h

/-- C8, counterexample: the directory `a` of the sample store is served in two pages, the
first holding the directory `a/x`. For the pattern `a/*/b**/c` the frame on `a` fetches the
first page, enters `a/x`, and the nested frame raises `NotImplementedException`: the frame
ends with that exception after one listing call for `a`, not two. -/
theorem Walk_pagination_cut_short :
    servedInPages (sampleClient sampleListing) "a".toList
      (rfind_str "a/*/b**/c".toList double_star_str 3).isSome none
      [⟨[item "a/x" true, item "a/f1" false], some (pageToken 1)⟩, ⟨[item "a/y" true], none⟩]
      = true ∧
    WalkGas (sampleClient sampleListing) sampleGlob "a/*/b**/c".toList 5 (6 + 1) 0 "a".toList 3
        ⟨[], []⟩
      = (⟨[], [Event.Walk 0 "a".toList 3, Event.ListPaths 0 "a".toList false none,
            Event.Walk 1 "a/x".toList 7]⟩,
          .raised (.NotImplementedException (Walk_illegal_msg "a/*/b**/c".toList))) ∧
    ownListings 0
        (WalkGas (sampleClient sampleListing) sampleGlob "a/*/b**/c".toList 5 (6 + 1) 0
          "a".toList 3 ⟨[], []⟩).1.trace
      = [Event.ListPaths 0 "a".toList false none] ∧
    (ownListings 0
        (WalkGas (sampleClient sampleListing) sampleGlob "a/*/b**/c".toList 5 (6 + 1) 0
          "a".toList 3 ⟨[], []⟩).1.trace).length ≠ 2 := by
  refine ⟨by rfl, by rfl, by rfl, by decide⟩

/-- C8, amended: let the listing of `path`, in the mode the frame asks for, be served in the
`k` pages `pages`, the first `k - 1` carrying a token and the last none, and let the page
budget cover them. Then the listing calls of the `Walk` frame on `path` follow the chain
"one call per page, each continuing from the token of the page before": they are a prefix of
it, so at most `k`, and exactly the `k` calls of the chain when the frame returns normally (a
nested frame that raises ends the loop before the remaining pages are asked for). In every
case the frame leaves the same output and ends the same way as against the client that
serves the same entries merged into one page. -/
theorem Walk_pagination (fs : DataLakeFileSystemClient) (LikeFun_Glob : Str → Str → Bool)
    (path_pattern : Str) (fuel gas depth : Nat) (path : Str) (end_match : Nat) (st : WalkState)
    (pages : List ListPathsResult)
    (hserved : servedInPages fs path (rfind_str path_pattern double_star_str end_match).isSome
      none pages = true)
    (hfuel : pages.length ≤ fuel) :
    ownListings depth
        ((WalkGas fs LikeFun_Glob path_pattern fuel (gas + 1) depth path end_match st).1.trace.drop
          st.trace.length)
      <+: pageCalls depth path (rfind_str path_pattern double_star_str end_match).isSome none
        pages ∧
    ((WalkGas fs LikeFun_Glob path_pattern fuel (gas + 1) depth path end_match st).2 = .value () →
      ownListings depth
          ((WalkGas fs LikeFun_Glob path_pattern fuel (gas + 1) depth path end_match
            st).1.trace.drop st.trace.length)
        = pageCalls depth path (rfind_str path_pattern double_star_str end_match).isSome none
          pages ∧
      (ownListings depth
          ((WalkGas fs LikeFun_Glob path_pattern fuel (gas + 1) depth path end_match
            st).1.trace.drop st.trace.length)).length = pages.length) ∧
    (WalkGas fs LikeFun_Glob path_pattern fuel (gas + 1) depth path end_match st).1.out_result
      = (WalkGas
          (serveMerged fs path (rfind_str path_pattern double_star_str end_match).isSome pages)
          LikeFun_Glob path_pattern fuel (gas + 1) depth path end_match st).1.out_result ∧
    (WalkGas fs LikeFun_Glob path_pattern fuel (gas + 1) depth path end_match st).2
      = (WalkGas
          (serveMerged fs path (rfind_str path_pattern double_star_str end_match).isSome pages)
          LikeFun_Glob path_pattern fuel (gas + 1) depth path end_match st).2 := by
  have hmerged := WalkGas_serveMerged fs LikeFun_Glob path_pattern fuel path
    (rfind_str path_pattern double_star_str end_match).isSome pages hserved hfuel (gas + 1) depth
    path end_match st st rfl
  have hrec : ∀ name s, ∃ added,
      (WalkGas fs LikeFun_Glob path_pattern fuel gas (depth + 1) name
        (npos_min path_pattern.length (find_char path_pattern '/' (end_match + 1))) s).1.trace
        = s.trace ++ added ∧ ∀ e ∈ added, e.atDepthGe (depth + 1) = true :=
    fun name s => WalkGas_trace fs LikeFun_Glob path_pattern fuel gas (depth + 1) name _ s
  have hown := WalkPages_own fs _ LikeFun_Glob depth path path_pattern end_match
    (rfind_str path_pattern double_star_str end_match).isSome hrec pages fuel none
    { st with trace := st.trace ++ [Event.Walk depth path end_match] } hserved hfuel
  obtain ⟨added, htrace, hpre, hfull⟩ := hown
  have hkey : ownListings depth
        ((WalkGas fs LikeFun_Glob path_pattern fuel (gas + 1) depth path end_match st).1.trace.drop
          st.trace.length)
      <+: pageCalls depth path (rfind_str path_pattern double_star_str end_match).isSome none
        pages ∧
      ((WalkGas fs LikeFun_Glob path_pattern fuel (gas + 1) depth path end_match st).2
          = .value () →
        ownListings depth
          ((WalkGas fs LikeFun_Glob path_pattern fuel (gas + 1) depth path end_match
            st).1.trace.drop st.trace.length)
        = pageCalls depth path (rfind_str path_pattern double_star_str end_match).isSome none
          pages) := by
    simp only [WalkGas]
    cases hstar : rfind_str path_pattern double_star_str end_match with
    | none =>
      simp only [hstar, Option.isSome_none] at htrace hpre hfull
      simp only [Option.isSome_none]
      rw [htrace]
      simp only [List.append_assoc, List.drop_left, List.singleton_append, ownListings_cons_walk]
      exact ⟨hpre, hfull⟩
    | some i =>
      simp only [hstar, Option.isSome_some] at htrace hpre hfull
      simp only [Option.isSome_some]
      by_cases hlen : path_pattern.length > end_match
      · simp only [hlen, if_true]
        refine ⟨?_, fun h => by cases h⟩
        simp [ownListings]
      · simp only [hlen, if_false]
        rw [htrace]
        simp only [List.append_assoc, List.drop_left, List.singleton_append,
          ownListings_cons_walk]
        exact ⟨hpre, hfull⟩
  refine ⟨hkey.1, fun hv => ⟨hkey.2 hv, ?_⟩, hmerged.1, hmerged.2⟩
  rw [hkey.2 hv, pageCalls_length]


/-- C8 at the directory `a` of the sample store, served in two pages, for the pattern
`a/*/b*`: the frame returns, issues two listing calls for `a`, and collects the same three
files as against the merged page. -/
theorem Walk_pagination_witness :
    servedInPages (sampleClient sampleListing) "a".toList
      (rfind_str "a/*/b*".toList double_star_str 3).isSome none
      [⟨[item "a/x" true, item "a/f1" false], some (pageToken 1)⟩, ⟨[item "a/y" true], none⟩]
      = true ∧
    (WalkGas (sampleClient sampleListing) sampleGlob "a/*/b*".toList 5 (1 + 1) 0 "a".toList 3
      ⟨[], []⟩).2 = .value () ∧
    (ownListings 0
      ((WalkGas (sampleClient sampleListing) sampleGlob "a/*/b*".toList 5 (1 + 1) 0 "a".toList 3
        ⟨[], []⟩).1.trace.drop 0)).length = 2 ∧
    (WalkGas (sampleClient sampleListing) sampleGlob "a/*/b*".toList 5 (1 + 1) 0 "a".toList 3
      ⟨[], []⟩).1.out_result
      = ["a/x/b1".toList, "a/x/b2".toList, "a/y/b1".toList] ∧
    (WalkGas
      (serveMerged (sampleClient sampleListing) "a".toList
        (rfind_str "a/*/b*".toList double_star_str 3).isSome
        [⟨[item "a/x" true, item "a/f1" false], some (pageToken 1)⟩, ⟨[item "a/y" true], none⟩])
      sampleGlob "a/*/b*".toList 5 (1 + 1) 0 "a".toList 3 ⟨[], []⟩).1.out_result
      = ["a/x/b1".toList, "a/x/b2".toList, "a/y/b1".toList] :=
  ⟨by rfl, by rfl,
    ((Walk_pagination (sampleClient sampleListing) sampleGlob "a/*/b*".toList 5 1 0 "a".toList 3
      ⟨[], []⟩
      [⟨[item "a/x" true, item "a/f1" false], some (pageToken 1)⟩, ⟨[item "a/y" true], none⟩]
      (by rfl) (by decide)).2.1 (by rfl)).2,
    by rfl,
    ((Walk_pagination (sampleClient sampleListing) sampleGlob "a/*/b*".toList 5 1 0 "a".toList 3
      ⟨[], []⟩
      [⟨[item "a/x" true, item "a/f1" false], some (pageToken 1)⟩, ⟨[item "a/y" true], none⟩]
      (by rfl) (by decide)).2.2.1).symm.trans (by rfl)⟩

/-! ## Glob -/

/-- A path in which `Glob` detects no wildcard is returned as it is, without any call. -/
theorem Glob_of_no_detected_wildcard (env : Env) (fuel : Nat) (path : Str) (op : FileOpener)
    (azure_url : AzureParsedUrl) (hparse : env.ParseUrl path = .ok azure_url)
    (h : ∀ c ∈ azure_url.path, c ≠ '*' ∧ c ≠ '[' ∧ c ≠ '\\') :
    Glob env fuel path (some op) = ⟨[], .value [path]⟩ := by
  have hnone : find_first_of azure_url.path wildcard_chars = none := by
    unfold find_first_of
    rw [find_from_eq_none]
    intro c hc
    obtain ⟨h1, h2, h3⟩ := h c hc
    simp [wildcard_chars, h1, h2, h3]
  simp only [Glob, hparse, hnone]

/-- Once a wildcard is detected and the storage context is there, `Glob` is the walk from
`shared_path`, its result rewritten with the canonical prefix. -/
theorem Glob_of_detected_wildcard (env : Env) (fuel : Nat) (path : Str) (op : FileOpener)
    (azure_url : AzureParsedUrl) (storage_context : AzureDfsContextState) (w : Nat)
    (hparse : env.ParseUrl path = .ok azure_url)
    (hw : find_first_of azure_url.path wildcard_chars = some w)
    (hctx : env.GetOrCreateStorageContext (some op) path azure_url = .ok storage_context) :
    Glob env fuel path (some op)
      = Glob_return azure_url
          (Walk (storage_context.GetDfsFileSystemClient azure_url.container) env.LikeFun_Glob
            fuel (Glob_shared_path azure_url.path w) azure_url.path
            (Glob_end_match azure_url.path w) ⟨[], [Event.GetOrCreateStorageContext path]⟩) := by
  simp only [Glob, hparse, hw, hctx]

/-- The first two calls of a `Glob` that detects a wildcard: the storage context, then `Walk`
on `shared_path` with the first `end_match`. -/
theorem Glob_trace_head (env : Env) (fuel : Nat) (path : Str) (op : FileOpener)
    (azure_url : AzureParsedUrl) (storage_context : AzureDfsContextState) (w : Nat)
    (hparse : env.ParseUrl path = .ok azure_url)
    (hw : find_first_of azure_url.path wildcard_chars = some w)
    (hctx : env.GetOrCreateStorageContext (some op) path azure_url = .ok storage_context) :
    ∃ rest, (Glob env fuel path (some op)).trace
      = Event.GetOrCreateStorageContext path ::
        Event.Walk 0 (Glob_shared_path azure_url.path w) (Glob_end_match azure_url.path w) ::
        rest := by
  rw [Glob_of_detected_wildcard env fuel path op azure_url storage_context w hparse hw hctx]
  obtain ⟨added, hadded, _⟩ := WalkGas_succ_trace
    (storage_context.GetDfsFileSystemClient azure_url.container) env.LikeFun_Glob azure_url.path
    fuel (azure_url.path.length - Glob_end_match azure_url.path w) 0
    (Glob_shared_path azure_url.path w) (Glob_end_match azure_url.path w)
    ⟨[], [Event.GetOrCreateStorageContext path]⟩
  unfold Walk
  rcases hr : WalkGas (storage_context.GetDfsFileSystemClient azure_url.container)
    env.LikeFun_Glob azure_url.path fuel
    (azure_url.path.length - Glob_end_match azure_url.path w + 1) 0
    (Glob_shared_path azure_url.path w) (Glob_end_match azure_url.path w)
    ⟨[], [Event.GetOrCreateStorageContext path]⟩ with ⟨st, o⟩
  rw [hr] at hadded
  simp only at hadded
  refine ⟨added, ?_⟩
  cases o with
  | value u =>
    simp only [Glob_return]
    split <;> simpa using hadded
  | raised e => simpa [Glob_return] using hadded
  | exhausted => simpa [Glob_return] using hadded

/-- Every path `Glob` returns after a walk is the canonical prefix followed by a name that
`LikeFun::Glob` accepts for the whole pattern. -/
theorem Glob_results_match (env : Env) (fuel : Nat) (path : Str) (op : FileOpener)
    (azure_url : AzureParsedUrl) (storage_context : AzureDfsContextState) (w : Nat)
    (hparse : env.ParseUrl path = .ok azure_url)
    (hw : find_first_of azure_url.path wildcard_chars = some w)
    (hctx : env.GetOrCreateStorageContext (some op) path azure_url = .ok storage_context)
    (names : List Str) (hnames : (Glob env fuel path (some op)).outcome = .value names) :
    ∀ r ∈ names, ∃ name, r = Glob_path_result_prefix azure_url ++ name ∧
      env.LikeFun_Glob name azure_url.path = true := by
  rw [Glob_of_detected_wildcard env fuel path op azure_url storage_context w hparse hw hctx]
    at hnames
  obtain ⟨added, hadded, hsound⟩ := WalkGas_out
    (storage_context.GetDfsFileSystemClient azure_url.container) env.LikeFun_Glob azure_url.path
    fuel (azure_url.path.length - Glob_end_match azure_url.path w + 1) 0
    (Glob_shared_path azure_url.path w) (Glob_end_match azure_url.path w)
    ⟨[], [Event.GetOrCreateStorageContext path]⟩
  unfold Walk at hnames
  rcases hr : WalkGas (storage_context.GetDfsFileSystemClient azure_url.container)
    env.LikeFun_Glob azure_url.path fuel
    (azure_url.path.length - Glob_end_match azure_url.path w + 1) 0
    (Glob_shared_path azure_url.path w) (Glob_end_match azure_url.path w)
    ⟨[], [Event.GetOrCreateStorageContext path]⟩ with ⟨st, o⟩
  rw [hr] at hadded hnames
  simp only [List.nil_append] at hadded
  intro r hr'
  cases o with
  | value u =>
    simp only [Glob_return] at hnames
    split at hnames
    · rename_i hempty
      simp only [Outcome.value.injEq] at hnames
      rw [← hnames, List.isEmpty_iff.mp hempty] at hr'
      cases hr'
    · simp only [Outcome.value.injEq] at hnames
      rw [← hnames] at hr'
      obtain ⟨name, hname, rfl⟩ := List.mem_map.mp hr'
      exact ⟨name, rfl, hsound name (hadded ▸ hname)⟩
  | raised e => simp [Glob_return] at hnames
  | exhausted => simp [Glob_return] at hnames


/-- C1: a path whose object path holds none of `*`, `?`, `[`, `\` is returned as the
one-element list of the input string itself, and `Glob` issues no call at all: the trace is
empty, so no storage context is requested, `Walk` is not entered and nothing is listed. -/
theorem Glob_no_wildcard (env : Env) (fuel : Nat) (path : Str) (op : FileOpener)
    (azure_url : AzureParsedUrl) (hparse : env.ParseUrl path = .ok azure_url)
    (hplain : ∀ c ∈ azure_url.path, c ≠ '*' ∧ c ≠ '?' ∧ c ≠ '[' ∧ c ≠ '\\') :
    Glob env fuel path (some op) = ⟨[], .value [path]⟩ :=
  Glob_of_no_detected_wildcard env fuel path op azure_url hparse
    (fun c hc => ⟨(hplain c hc).1, (hplain c hc).2.2.1, (hplain c hc).2.2.2⟩)

/-- C1 at `abfss://data/dir/file.csv`, against a store whose answers are never asked for. -/
theorem Glob_no_wildcard_witness :
    sampleParseUrl "abfss://data/dir/file.csv".toList
      = .ok { is_fully_qualified := false, prefix_ := PATH_PREFIX, storage_account_name := [],
              endpoint := [], container := "data".toList, path := "dir/file.csv".toList } ∧
    (∀ c ∈ "dir/file.csv".toList, c ≠ '*' ∧ c ≠ '?' ∧ c ≠ '[' ∧ c ≠ '\\') ∧
    Glob (sampleEnv (sampleClient sampleListing)) 0 "abfss://data/dir/file.csv".toList (some ⟨7⟩)
      = ⟨[], .value ["abfss://data/dir/file.csv".toList]⟩ :=
  ⟨by rfl, by decide,
    Glob_no_wildcard (sampleEnv (sampleClient sampleListing)) 0
      "abfss://data/dir/file.csv".toList ⟨7⟩
      { is_fully_qualified := false, prefix_ := PATH_PREFIX, storage_account_name := [],
        endpoint := [], container := "data".toList, path := "dir/file.csv".toList }
      (by rfl) (by decide)⟩

/-- When the `**` lies in the segment of the first wildcard and the pattern goes on after that
segment, `Glob` raises `NotImplementedException` whatever the store holds: the only calls are
the storage context and the entry of `Walk`, nothing is listed. -/
theorem Glob_double_star_in_first_segment (env : Env) (fuel : Nat) (path : Str) (op : FileOpener)
    (azure_url : AzureParsedUrl) (storage_context : AzureDfsContextState) (w i : Nat)
    (hparse : env.ParseUrl path = .ok azure_url)
    (hw : find_first_of azure_url.path wildcard_chars = some w)
    (hctx : env.GetOrCreateStorageContext (some op) path azure_url = .ok storage_context)
    (hstar : rfind_str azure_url.path double_star_str (Glob_end_match azure_url.path w) = some i)
    (hmore : Glob_end_match azure_url.path w < azure_url.path.length) :
    Glob env fuel path (some op)
      = ⟨[Event.GetOrCreateStorageContext path,
          Event.Walk 0 (Glob_shared_path azure_url.path w) (Glob_end_match azure_url.path w)],
         .raised (.NotImplementedException (Walk_illegal_msg azure_url.path))⟩ := by
  rw [Glob_of_detected_wildcard env fuel path op azure_url storage_context w hparse hw hctx]
  simp [Walk, WalkGas, hstar, hmore, Glob_return]

/-- C2, the code at `a/*/b**/c`: against a store in which `a` has no entry, `Glob` lists `a`
once and returns the empty list without raising; against a store in which `a` holds the
directory `a/x`, the same pattern raises `NotImplementedException`. -/
theorem Glob_double_star_in_later_segment :
    Glob (sampleEnv (sampleClient emptyListing)) 5 "abfss://c/a/*/b**/c".toList (some ⟨1⟩)
      = ⟨[Event.GetOrCreateStorageContext "abfss://c/a/*/b**/c".toList,
          Event.Walk 0 "a".toList 3, Event.ListPaths 0 "a".toList false none], .value []⟩ ∧
    (Glob (sampleEnv (sampleClient sampleListing)) 5 "abfss://c/a/*/b**/c".toList
      (some ⟨1⟩)).outcome
      = .raised (.NotImplementedException (Walk_illegal_msg "a/*/b**/c".toList)) := by
  constructor
  · rfl
  · rfl

/-- C9, the code at `dir/f?.csv`: the directory `dir` of the store lists `dir/f1.csv`, a name
the matcher accepts for that pattern, yet `Glob` returns the pattern string itself and issues
no call. With a detected wildcard next to the question mark, as in `dir/f?.cs*`, the same
store is listed and the question mark stands for one byte: `dir/f1.csv` is returned and
`dir/f22.csv` is not. -/
theorem question_mark_pattern_returned_unresolved :
    sampleListing "dir".toList false = [[item "dir/f1.csv" false, item "dir/f22.csv" false]] ∧
    sampleGlob "dir/f1.csv".toList "dir/f?.csv".toList = true ∧
    Glob (sampleEnv (sampleClient sampleListing)) 5 "abfss://c/dir/f?.csv".toList (some ⟨1⟩)
      = ⟨[], .value ["abfss://c/dir/f?.csv".toList]⟩ ∧
    Glob (sampleEnv (sampleClient sampleListing)) 5 "abfss://c/dir/f?.cs*".toList (some ⟨1⟩)
      = ⟨[Event.GetOrCreateStorageContext "abfss://c/dir/f?.cs*".toList,
          Event.Walk 0 "dir".toList 10, Event.ListPaths 0 "dir".toList false none],
         .value ["abfss://c/dir/f1.csv".toList]⟩ := by
  refine ⟨by rfl, by rfl, by rfl, by rfl⟩

/-- C10: when `Glob` detects its first wildcard of the object path `p` at index `w`, the call
of `Walk` that follows the storage context gets `shared_path` and `end_match` such that:
`shared_path` is the prefix of `p` that ends just before the last `/` located before `w`, and
is empty when no `/` precedes `w`; it holds no detected wildcard; every prefix of `p` that
ends just before a later `/` holds one; `end_match` is the index of the first `/` after `w`,
or the length of `p` when there is none, so `w < end_match <= |p|`. -/
theorem Glob_first_walk_arguments (env : Env) (fuel : Nat) (path : Str) (op : FileOpener)
    (azure_url : AzureParsedUrl) (storage_context : AzureDfsContextState) (w : Nat)
    (hparse : env.ParseUrl path = .ok azure_url)
    (hw : find_first_of azure_url.path wildcard_chars = some w)
    (hctx : env.GetOrCreateStorageContext (some op) path azure_url = .ok storage_context) :
    (∃ rest, (Glob env fuel path (some op)).trace
      = Event.GetOrCreateStorageContext path ::
        Event.Walk 0 (Glob_shared_path azure_url.path w) (Glob_end_match azure_url.path w) ::
        rest) ∧
    ((∃ c ∈ wildcard_chars, azure_url.path[w]? = some c) ∧
      ∀ j, j < w → ∀ c, azure_url.path[j]? = some c → c ∉ wildcard_chars) ∧
    Glob_shared_path azure_url.path w
      = azure_url.path.take (Glob_shared_path azure_url.path w).length ∧
    ((∃ j, j < w ∧ azure_url.path[j]? = some '/') →
      (Glob_shared_path azure_url.path w).length < w ∧
      azure_url.path[(Glob_shared_path azure_url.path w).length]? = some '/' ∧
      ∀ j, (Glob_shared_path azure_url.path w).length < j → j < w →
        azure_url.path[j]? ≠ some '/') ∧
    ((∀ j, j < w → azure_url.path[j]? ≠ some '/') → Glob_shared_path azure_url.path w = []) ∧
    (∀ c ∈ Glob_shared_path azure_url.path w, c ∉ wildcard_chars) ∧
    (∀ j, (Glob_shared_path azure_url.path w).length < j → azure_url.path[j]? = some '/' →
      ∃ c ∈ azure_url.path.take j, c ∈ wildcard_chars) ∧
    w < Glob_end_match azure_url.path w ∧
    Glob_end_match azure_url.path w ≤ azure_url.path.length ∧
    (Glob_end_match azure_url.path w < azure_url.path.length →
      azure_url.path[Glob_end_match azure_url.path w]? = some '/') ∧
    (∀ j, w < j → j < Glob_end_match azure_url.path w → azure_url.path[j]? ≠ some '/') := by
  obtain ⟨hwlen, hslash, hle, hbetween, hcases⟩ := index_root_dir_spec azure_url.path w hw
  obtain ⟨htake, hlen, hclean, hlonger⟩ := shared_path_spec azure_url.path w hw
  obtain ⟨he1, he2, he3, he4⟩ := end_match_spec azure_url.path w hw
  obtain ⟨⟨cw, hcw, hmemw⟩, hfirst⟩ := find_first_of_eq_some _ _ _ hw
  refine ⟨Glob_trace_head env fuel path op azure_url storage_context w hparse hw hctx,
    ⟨⟨cw, hmemw, hcw⟩, hfirst⟩, ?_, ?_, ?_, hclean, hlonger, he1, he2, he3, he4⟩
  · rw [hlen]; exact htake
  · rintro ⟨j, hj, hjs⟩
    rw [hlen]
    rcases hcases with ⟨hat, hlt⟩ | ⟨_, hnone⟩
    · exact ⟨hlt, hat, fun k hk hkw => hbetween k hk (Nat.le_of_lt hkw)⟩
    · exact absurd hjs (hnone j (Nat.le_of_lt hj))
  · intro hnone
    rcases hcases with ⟨hat, hlt⟩ | ⟨hzero, _⟩
    · exact absurd hat (hnone _ hlt)
    · rw [htake, hzero]; rfl

/-- C10 at `a/*/b*`: the first wildcard is at index 2, the walk starts in `a` with
`end_match = 3`. -/
theorem Glob_first_walk_arguments_witness :
    find_first_of "a/*/b*".toList wildcard_chars = some 2 ∧
    Glob_shared_path "a/*/b*".toList 2 = "a".toList ∧
    Glob_end_match "a/*/b*".toList 2 = 3 ∧
    (2 < Glob_end_match "a/*/b*".toList 2 ∧
      Glob_end_match "a/*/b*".toList 2 ≤ "a/*/b*".toList.length) :=
  ⟨by rfl, by rfl, by rfl,
    (Glob_first_walk_arguments (sampleEnv (sampleClient sampleListing)) 5
      "abfss://c/a/*/b*".toList ⟨1⟩
      { is_fully_qualified := false, prefix_ := PATH_PREFIX, storage_account_name := [],
        endpoint := [], container := "c".toList, path := "a/*/b*".toList }
      ⟨fun _ => sampleClient sampleListing⟩ 2 (by rfl) (by rfl) (by rfl)).2.2.2.2.2.2.2.1,
    (Glob_first_walk_arguments (sampleEnv (sampleClient sampleListing)) 5
      "abfss://c/a/*/b*".toList ⟨1⟩
      { is_fully_qualified := false, prefix_ := PATH_PREFIX, storage_account_name := [],
        endpoint := [], container := "c".toList, path := "a/*/b*".toList }
      ⟨fun _ => sampleClient sampleListing⟩ 2 (by rfl) (by rfl) (by rfl)).2.2.2.2.2.2.2.2.1⟩

/-! ## The results of `Glob` -/

/-- The prefix `Glob` puts in front of a name is the canonical prefix and a slash. -/
theorem Glob_path_result_prefix_eq (azure_url : AzureParsedUrl) (name : Str) :
    Glob_path_result_prefix azure_url ++ name = canonicalPrefix azure_url ++ ['/'] ++ name := by
  unfold Glob_path_result_prefix canonicalPrefix
  cases azure_url.is_fully_qualified <;> simp

/-- The value `Glob` returns after a walk that ended normally: the raw matches, each with the
canonical prefix in front, whether or not there are any. -/
theorem Glob_return_value (azure_url : AzureParsedUrl) (st : WalkState) :
    Glob_return azure_url (st, .value ())
      = ⟨st.trace,
          .value (st.out_result.map (fun name => canonicalPrefix azure_url ++ ['/'] ++ name))⟩ := by
  simp only [Glob_return]
  split
  · rename_i hempty
    rw [List.isEmpty_iff.mp hempty]
    rfl
  · have hfun : (fun elt => Glob_path_result_prefix azure_url ++ elt)
        = (fun name => canonicalPrefix azure_url ++ ['/'] ++ name) :=
      funext (Glob_path_result_prefix_eq azure_url)
    rw [hfun]

/-- C11: when `Glob` detects a wildcard, obtains the storage context, walks and returns
normally with the list `names`: `names` is the list of the walk's raw matches with
`P + '/'` put in front of each, in the same number and order, where `P` is prefix, storage
account, dot, endpoint, slash, container for a fully qualified locator and prefix, container
otherwise; and every raw match is the name of an entry that one of the listing calls of this
very run returned, that is not a directory, and that `LikeFun::Glob` accepts for the whole
pattern. -/
theorem Glob_results_sound (env : Env) (fuel : Nat) (path : Str) (op : FileOpener)
    (azure_url : AzureParsedUrl) (storage_context : AzureDfsContextState) (w : Nat)
    (names : List Str)
    (hparse : env.ParseUrl path = .ok azure_url)
    (hw : find_first_of azure_url.path wildcard_chars = some w)
    (hctx : env.GetOrCreateStorageContext (some op) path azure_url = .ok storage_context)
    (hnames : (Glob env fuel path (some op)).outcome = .value names) :
    names
      = (Walk (storage_context.GetDfsFileSystemClient azure_url.container) env.LikeFun_Glob fuel
          (Glob_shared_path azure_url.path w) azure_url.path (Glob_end_match azure_url.path w)
          ⟨[], [Event.GetOrCreateStorageContext path]⟩).1.out_result.map
        (fun name => canonicalPrefix azure_url ++ ['/'] ++ name) ∧
    names.length
      = (Walk (storage_context.GetDfsFileSystemClient azure_url.container) env.LikeFun_Glob fuel
          (Glob_shared_path azure_url.path w) azure_url.path (Glob_end_match azure_url.path w)
          ⟨[], [Event.GetOrCreateStorageContext path]⟩).1.out_result.length ∧
    (∀ name ∈ (Walk (storage_context.GetDfsFileSystemClient azure_url.container)
          env.LikeFun_Glob fuel (Glob_shared_path azure_url.path w) azure_url.path
          (Glob_end_match azure_url.path w)
          ⟨[], [Event.GetOrCreateStorageContext path]⟩).1.out_result,
      ListedFile (storage_context.GetDfsFileSystemClient azure_url.container) env.LikeFun_Glob
        azure_url.path (Glob env fuel path (some op)).trace name) ∧
    (∀ r ∈ names, ∃ name, r = canonicalPrefix azure_url ++ ['/'] ++ name ∧
      ListedFile (storage_context.GetDfsFileSystemClient azure_url.container) env.LikeFun_Glob
        azure_url.path (Glob env fuel path (some op)).trace name) := by
  have hglob := Glob_of_detected_wildcard env fuel path op azure_url storage_context w hparse hw
    hctx
  obtain ⟨ao, at1, hao, hat, hlisted⟩ := WalkGas_listed
    (storage_context.GetDfsFileSystemClient azure_url.container) env.LikeFun_Glob azure_url.path
    fuel (azure_url.path.length - Glob_end_match azure_url.path w + 1) 0
    (Glob_shared_path azure_url.path w) (Glob_end_match azure_url.path w)
    ⟨[], [Event.GetOrCreateStorageContext path]⟩
  rw [hglob] at hnames ⊢
  unfold Walk at hnames ⊢
  rcases hr : WalkGas (storage_context.GetDfsFileSystemClient azure_url.container)
    env.LikeFun_Glob azure_url.path fuel
    (azure_url.path.length - Glob_end_match azure_url.path w + 1) 0
    (Glob_shared_path azure_url.path w) (Glob_end_match azure_url.path w)
    ⟨[], [Event.GetOrCreateStorageContext path]⟩ with ⟨st, o⟩
  rw [hr] at hao hat hnames
  simp only [List.nil_append] at hao hat
  cases o with
  | raised e => simp [Glob_return] at hnames
  | exhausted => simp [Glob_return] at hnames
  | value u =>
    rw [Glob_return_value] at hnames ⊢
    simp only [Outcome.value.injEq] at hnames
    have hraw : ∀ name ∈ st.out_result,
        ListedFile (storage_context.GetDfsFileSystemClient azure_url.container)
          env.LikeFun_Glob azure_url.path st.trace name := by
      intro name hname
      rw [hao] at hname
      rw [hat]
      exact ListedFile_mono _ _ _ at1 _ name (fun e he => List.mem_append_right _ he)
        (hlisted name hname)
    refine ⟨hnames.symm, by rw [← hnames]; simp, hraw, ?_⟩
    intro r hr'
    rw [← hnames] at hr'
    obtain ⟨name, hname, rfl⟩ := List.mem_map.mp hr'
    exact ⟨name, rfl, hraw name hname⟩

/-- C11 on the sample store, for the fully qualified `abfss://acct.dfs.core.windows.net/c/dir/f*`:
the two files of `dir` come back, in listing order, behind
`abfss://acct.dfs.core.windows.net/c/`. -/
theorem Glob_results_sound_witness :
    sampleParseUrl "abfss://acct.dfs.core.windows.net/c/dir/f*".toList
      = .ok { is_fully_qualified := true, prefix_ := PATH_PREFIX,
              storage_account_name := "acct".toList, endpoint := "dfs.core.windows.net".toList,
              container := "c".toList, path := "dir/f*".toList } ∧
    find_first_of "dir/f*".toList wildcard_chars = some 5 ∧
    (Glob (sampleEnv (sampleClient sampleListing)) 5
      "abfss://acct.dfs.core.windows.net/c/dir/f*".toList (some ⟨1⟩)).outcome
      = .value ["abfss://acct.dfs.core.windows.net/c/dir/f1.csv".toList,
          "abfss://acct.dfs.core.windows.net/c/dir/f22.csv".toList] ∧
    ["abfss://acct.dfs.core.windows.net/c/dir/f1.csv".toList,
      "abfss://acct.dfs.core.windows.net/c/dir/f22.csv".toList]
      = (Walk (sampleClient sampleListing) sampleGlob 5 (Glob_shared_path "dir/f*".toList 5)
          "dir/f*".toList (Glob_end_match "dir/f*".toList 5)
          ⟨[], [Event.GetOrCreateStorageContext
            "abfss://acct.dfs.core.windows.net/c/dir/f*".toList]⟩).1.out_result.map
        (fun name =>
          canonicalPrefix
            ({ is_fully_qualified := true, prefix_ := PATH_PREFIX,
               storage_account_name := "acct".toList,
               endpoint := "dfs.core.windows.net".toList,
               container := "c".toList, path := "dir/f*".toList } : AzureParsedUrl) ++
            ['/'] ++ name) :=
  ⟨by rfl, by rfl, by rfl,
    (Glob_results_sound (sampleEnv (sampleClient sampleListing)) 5
      "abfss://acct.dfs.core.windows.net/c/dir/f*".toList ⟨1⟩
      { is_fully_qualified := true, prefix_ := PATH_PREFIX,
        storage_account_name := "acct".toList, endpoint := "dfs.core.windows.net".toList,
        container := "c".toList, path := "dir/f*".toList }
      ⟨fun _ => sampleClient sampleListing⟩ 5
      ["abfss://acct.dfs.core.windows.net/c/dir/f1.csv".toList,
        "abfss://acct.dfs.core.windows.net/c/dir/f22.csv".toList]
      (by rfl) (by rfl) (by rfl) (by rfl)).1⟩

/-! ## Write, sync, create -/

/-- C3: for a handle opened for writing whose length is `L`: a `Write` at a location other
than `L` raises `NotImplementedException` and leaves the handle, the remote and the trace as
they were (no append is issued, the length stays `L`); a `Write` at `L` whose remote append
succeeds returns, having issued one append of the buffer at offset `L` with flush disabled,
and the length becomes `L + n` (in 64-bit arithmetic, which is `L + n` itself below `2^64`).
Hence, when the append would succeed, `Write` succeeds exactly when the location is `L`. -/
theorem Write_sequentiality {σ : Type} (file_client : DataLakeFileClient σ) (s : HandleState σ)
    (buffer : List Byte) (n location : Nat) (hopen : s.hfh.flags.OpenForWriting = true) :
    (location ≠ s.hfh.length →
      Write file_client s buffer n location
        = (s, .raised (.NotImplementedException "Non-sequential write not supported!".toList))) ∧
    (∀ remote1, location = s.hfh.length →
      file_client.Append (buffer.take n) s.hfh.length false s.remote = .ok remote1 →
      Write file_client s buffer n location
        = ({ hfh := { s.hfh with length := (s.hfh.length + n) % 2 ^ 64 }, remote := remote1,
             trace := s.trace ++ [Event.Append (buffer.take n) s.hfh.length false] }, .value ()) ∧
      (s.hfh.length + n < 2 ^ 64 →
        (Write file_client s buffer n location).1.hfh.length = s.hfh.length + n)) ∧
    ((∃ remote1, file_client.Append (buffer.take n) location false s.remote = .ok remote1) →
      ((Write file_client s buffer n location).2 = .value () ↔ location = s.hfh.length)) := by
  refine ⟨?_, ?_, ?_⟩
  · intro hne
    simp [Write, hopen, hne]
  · intro remote1 heq happ
    subst heq
    have hw : Write file_client s buffer n s.hfh.length
        = ({ hfh := { s.hfh with length := (s.hfh.length + n) % 2 ^ 64 }, remote := remote1,
             trace := s.trace ++ [Event.Append (buffer.take n) s.hfh.length false] }, .value ()) := by
      simp [Write, hopen, happ]
    refine ⟨hw, ?_⟩
    intro hlt
    rw [hw]
    exact Nat.mod_eq_of_lt hlt
  · rintro ⟨remote1, happ⟩
    constructor
    · intro hok
      by_contra hne
      simp [Write, hopen, hne] at hok
    · intro heq
      subst heq
      simp [Write, hopen, happ]

/-- C3 on a handle of length 2: a write of three bytes at 1 is refused and changes nothing,
the same write at 2 brings the length to 5. -/
theorem Write_sequentiality_witness :
    sampleHandle.hfh.flags.OpenForWriting = true ∧
    Write modelFileClient sampleHandle [7, 8, 9] 3 1
      = (sampleHandle,
          .raised (.NotImplementedException "Non-sequential write not supported!".toList)) ∧
    (Write modelFileClient sampleHandle [7, 8, 9] 3 2).1.hfh.length = sampleHandle.hfh.length + 3 :=
  ⟨by rfl,
    (Write_sequentiality modelFileClient sampleHandle [7, 8, 9] 3 1 (by rfl)).1 (by decide),
    ((Write_sequentiality modelFileClient sampleHandle [7, 8, 9] 3 2 (by rfl)).2.1
      { sampleHandle.remote with appended := [1, 2, 7, 8, 9] } (by rfl) (by rfl)).2
      (by decide)⟩

/-- C6: for a handle opened for writing and bytes `b` (fewer than `2^64`), the sequence
`CreateOrOverwrite; Write(b, |b|, 0); FileSync`, when the four remote calls succeed, issues
exactly delete-if-exists, create, append of `b` at offset 0 with flush disabled, flush to
position `|b|`, in this order, and ends with length `|b|`. Against the remote object in which
create yields an empty object, append adds uncommitted bytes and flush `n` commits the first
`n` bytes, all four calls succeed and the readable content afterwards is exactly `b`. -/
theorem create_write_sync_round_trip :
    (∀ (σ : Type) (file_client : DataLakeFileClient σ) (s : HandleState σ) (b : List Byte)
        (remote1 remote2 remote3 remote4 : σ) (t2 t4 : Nat),
      s.hfh.flags.OpenForWriting = true → b.length < 2 ^ 64 →
      file_client.DeleteIfExists s.remote = .ok remote1 →
      file_client.Create remote1 = .ok (t2, remote2) →
      file_client.Append b 0 false remote2 = .ok remote3 →
      file_client.Flush b.length remote3 = .ok (t4, remote4) →
      createWriteSync file_client s b
        = ({ hfh := { s.hfh with length := b.length, last_modified := t4 }, remote := remote4,
             trace := s.trace ++ [Event.DeleteIfExists, Event.Create, Event.Append b 0 false,
               Event.Flush b.length] }, .value ())) ∧
    (∀ (s : HandleState ModelFile) (b : List Byte),
      s.hfh.flags.OpenForWriting = true → b.length < 2 ^ 64 →
      (createWriteSync modelFileClient s b).2 = .value () ∧
      (createWriteSync modelFileClient s b).1.trace
        = s.trace ++ [Event.DeleteIfExists, Event.Create, Event.Append b 0 false,
            Event.Flush b.length] ∧
      (createWriteSync modelFileClient s b).1.hfh.length = b.length ∧
      (createWriteSync modelFileClient s b).1.remote.readable = b) := by
  have generic : ∀ (σ : Type) (file_client : DataLakeFileClient σ) (s : HandleState σ)
      (b : List Byte) (remote1 remote2 remote3 remote4 : σ) (t2 t4 : Nat),
      s.hfh.flags.OpenForWriting = true → b.length < 2 ^ 64 →
      file_client.DeleteIfExists s.remote = .ok remote1 →
      file_client.Create remote1 = .ok (t2, remote2) →
      file_client.Append b 0 false remote2 = .ok remote3 →
      file_client.Flush b.length remote3 = .ok (t4, remote4) →
      createWriteSync file_client s b
        = ({ hfh := { s.hfh with length := b.length, last_modified := t4 }, remote := remote4,
             trace := s.trace ++ [Event.DeleteIfExists, Event.Create, Event.Append b 0 false,
               Event.Flush b.length] }, .value ()) := by
    intro σ file_client s b remote1 remote2 remote3 remote4 t2 t4 hopen hlen hdel hcreate happ hflush
    have hmod : b.length % 18446744073709551616 = b.length := Nat.mod_eq_of_lt (by omega)
    simp [createWriteSync, CreateOrOverwrite, Write, FileSync, hopen, hdel, hcreate, happ, hflush,
      hmod]
  refine ⟨generic, ?_⟩
  intro s b hopen hlen
  have h := generic ModelFile modelFileClient s b
    { present := false, appended := [], committed := 0, clock := s.remote.clock + 1 }
    { present := true, appended := [], committed := 0, clock := s.remote.clock + 1 + 1 }
    { present := true, appended := b, committed := 0, clock := s.remote.clock + 1 + 1 }
    { present := true, appended := b, committed := b.length, clock := s.remote.clock + 1 + 1 + 1 }
    (s.remote.clock + 1 + 1) (s.remote.clock + 1 + 1 + 1) hopen hlen
    (by simp [modelFileClient]) (by simp [modelFileClient]) (by simp [modelFileClient])
    (by simp [modelFileClient])
  rw [h]
  simp [ModelFile.readable]

/-- C6 with `b = "abc"` (the bytes 97, 98, 99): the object reads back as `abc`. -/
theorem create_write_sync_round_trip_witness :
    sampleHandle.hfh.flags.OpenForWriting = true ∧
    ([97, 98, 99] : List Byte).length < 2 ^ 64 ∧
    (createWriteSync modelFileClient sampleHandle [97, 98, 99]).1.remote.readable
      = [97, 98, 99] ∧
    (createWriteSync modelFileClient sampleHandle [97, 98, 99]).1.trace
      = [Event.DeleteIfExists, Event.Create, Event.Append [97, 98, 99] 0 false, Event.Flush 3] :=
  ⟨by rfl, by decide,
    (create_write_sync_round_trip.2 sampleHandle [97, 98, 99] (by rfl) (by decide)).2.2.2,
    (create_write_sync_round_trip.2 sampleHandle [97, 98, 99] (by rfl) (by decide)).2.1⟩

/-! ## Move and existence probes -/

/-- The guard of `MoveFile` rejects, before any call, exactly when the container and the storage account
both differ; in every other case it goes on to request the storage context. -/
theorem MoveFile_rejects_iff (env : Env) (source target : Str) (opener : Option FileOpener)
    (source_url target_url : AzureParsedUrl)
    (hs : env.ParseUrl source = .ok source_url) (ht : env.ParseUrl target = .ok target_url) :
    (MoveFile env source target opener
        = ⟨[], .raised (.NotImplementedException (MoveFile_msg source target))⟩ ↔
      (source_url.container ≠ target_url.container ∧
        source_url.storage_account_name ≠ target_url.storage_account_name)) ∧
    (¬ (source_url.container ≠ target_url.container ∧
        source_url.storage_account_name ≠ target_url.storage_account_name) →
      Event.GetOrCreateStorageContext source ∈ (MoveFile env source target opener).trace) := by
  by_cases hc : source_url.container ≠ target_url.container ∧
      source_url.storage_account_name ≠ target_url.storage_account_name
  · simp [MoveFile, hs, ht, hc]
  · constructor
    · simp only [MoveFile, hs, ht, hc, if_false, iff_false]
      cases hctx : env.GetOrCreateStorageContext opener source source_url with
      | error e => simp
      | ok ctx =>
        simp only
        cases (ctx.GetDfsFileSystemClient source_url.container).RenameFile source_url.path
          target_url.path <;> simp
    · intro _
      simp only [MoveFile, hs, ht, hc, if_false]
      cases hctx : env.GetOrCreateStorageContext opener source source_url with
      | error e => simp
      | ok ctx =>
        simp only
        cases (ctx.GetDfsFileSystemClient source_url.container).RenameFile source_url.path
          target_url.path <;> simp

/-- C4, the code where only one of the two differs. From container `c1` to container `c2` of
the same account, and from account `acct1` to account `acct2` with the container `c` in both,
`MoveFile` does not raise: it requests the storage context of the source and issues a rename
inside the source container. -/
theorem MoveFile_one_of_two_differs :
    ((sampleParseUrl "abfss://c1/x".toList).map
        (fun u => (u.storage_account_name, u.container)) = .ok ([], "c1".toList) ∧
      (sampleParseUrl "abfss://c2/y".toList).map
        (fun u => (u.storage_account_name, u.container)) = .ok ([], "c2".toList) ∧
      MoveFile (sampleEnv (sampleClient emptyListing)) "abfss://c1/x".toList
          "abfss://c2/y".toList none
        = ⟨[Event.GetOrCreateStorageContext "abfss://c1/x".toList,
            Event.RenameFile "c1".toList "x".toList "y".toList], .value ()⟩) ∧
    ((sampleParseUrl "abfss://acct1.dfs.core.windows.net/c/x".toList).map
        (fun u => (u.storage_account_name, u.container)) = .ok ("acct1".toList, "c".toList) ∧
      (sampleParseUrl "abfss://acct2.dfs.core.windows.net/c/y".toList).map
        (fun u => (u.storage_account_name, u.container)) = .ok ("acct2".toList, "c".toList) ∧
      MoveFile (sampleEnv (sampleClient emptyListing))
          "abfss://acct1.dfs.core.windows.net/c/x".toList
          "abfss://acct2.dfs.core.windows.net/c/y".toList none
        = ⟨[Event.GetOrCreateStorageContext "abfss://acct1.dfs.core.windows.net/c/x".toList,
            Event.RenameFile "c".toList "x".toList "y".toList], .value ()⟩) := by
  refine ⟨⟨by rfl, by rfl, by rfl⟩, ⟨by rfl, by rfl, by rfl⟩⟩

/-- C5: with the path parsed and the file client obtained, and `r` the outcome of the remote
get-properties call: when `r` succeeds, `FileExists` returns the negation of the reported
`IsDirectory` and `DirectoryExists` returns `IsDirectory` itself, so an object of the other
kind gives false, not an exception; hence `FileExists` is true exactly when `r` succeeds and
reports a non-directory, `DirectoryExists` exactly when `r` succeeds and reports a directory;
when `r` fails with status `NotFound` both return false; when `r` fails with another status
both raise `IOException` with the message of the code; the two are never both true. -/
theorem existence_semantics (env : Env) (name : Str) (opener : Option FileOpener)
    (parsed_url : AzureParsedUrl) (storage_context : AzureDfsContextState)
    (hparse : env.ParseUrl name = .ok parsed_url)
    (hctx : env.GetOrCreateStorageContext opener name parsed_url = .ok storage_context) :
    (∀ properties, (storage_context.GetDfsFileSystemClient parsed_url.container).GetProperties
          parsed_url.path = .ok properties →
      FileExists env name opener
        = ⟨[Event.GetOrCreateStorageContext name,
            Event.GetProperties parsed_url.container parsed_url.path],
           .value (!properties.IsDirectory)⟩ ∧
      DirectoryExists env name opener
        = ⟨[Event.GetOrCreateStorageContext name,
            Event.GetProperties parsed_url.container parsed_url.path],
           .value properties.IsDirectory⟩) ∧
    ((FileExists env name opener).outcome = .value true ↔
      ∃ properties, (storage_context.GetDfsFileSystemClient parsed_url.container).GetProperties
          parsed_url.path = .ok properties ∧ properties.IsDirectory = false) ∧
    ((DirectoryExists env name opener).outcome = .value true ↔
      ∃ properties, (storage_context.GetDfsFileSystemClient parsed_url.container).GetProperties
          parsed_url.path = .ok properties ∧ properties.IsDirectory = true) ∧
    (∀ e, (storage_context.GetDfsFileSystemClient parsed_url.container).GetProperties
          parsed_url.path = .error (.storage e) →
      (e.StatusCode = HttpStatusCode_NotFound →
        (FileExists env name opener).outcome = .value false ∧
        (DirectoryExists env name opener).outcome = .value false) ∧
      (e.StatusCode ≠ HttpStatusCode_NotFound →
        (FileExists env name opener).outcome = .raised (.IOException (FileExists_msg name e)) ∧
        (DirectoryExists env name opener).outcome
          = .raised (.IOException (DirectoryExists_msg name e)))) ∧
    ¬ ((FileExists env name opener).outcome = .value true ∧
       (DirectoryExists env name opener).outcome = .value true) := by
  cases hprops : (storage_context.GetDfsFileSystemClient parsed_url.container).GetProperties
      parsed_url.path with
  | ok properties =>
    cases hdir : properties.IsDirectory <;>
      simp [FileExists, DirectoryExists, CreateFileClient, PathFileClient.GetProperties, hparse,
        hctx, hprops, hdir]
  | error f =>
    cases f with
    | storage e =>
      by_cases hnf : e.StatusCode = HttpStatusCode_NotFound <;>
        simp [FileExists, DirectoryExists, CreateFileClient, PathFileClient.GetProperties, hparse,
          hctx, hprops, hnf]
    | other what =>
      simp [FileExists, DirectoryExists, CreateFileClient, PathFileClient.GetProperties, hparse,
        hctx, hprops]

/-- C5 on the sample store: `dir` is a directory, so `FileExists` of it is false, without an
exception, and `DirectoryExists` is true; `dir/f1.csv` is a file, so `DirectoryExists` of it
is false; `locked` answers 403, so `FileExists` raises `IOException`. -/
theorem existence_semantics_witness :
    (sampleEnv (sampleClientWith emptyListing sampleProperties)).ParseUrl "abfss://data/dir".toList
      = .ok { is_fully_qualified := false, prefix_ := PATH_PREFIX, storage_account_name := [],
              endpoint := [], container := "data".toList, path := "dir".toList } ∧
    (FileExists (sampleEnv (sampleClientWith emptyListing sampleProperties))
      "abfss://data/dir".toList none).outcome = .value false ∧
    (DirectoryExists (sampleEnv (sampleClientWith emptyListing sampleProperties))
      "abfss://data/dir".toList none).outcome = .value true ∧
    (DirectoryExists (sampleEnv (sampleClientWith emptyListing sampleProperties))
      "abfss://data/dir/f1.csv".toList none).outcome = .value false ∧
    ¬ ((FileExists (sampleEnv (sampleClientWith emptyListing sampleProperties))
        "abfss://data/dir".toList none).outcome = .value true ∧
      (DirectoryExists (sampleEnv (sampleClientWith emptyListing sampleProperties))
        "abfss://data/dir".toList none).outcome = .value true) ∧
    (FileExists (sampleEnv (sampleClientWith emptyListing sampleProperties))
      "abfss://data/locked".toList none).outcome.isIOFailure = true :=
  ⟨by rfl,
    congrArg Run.outcome
      ((existence_semantics (sampleEnv (sampleClientWith emptyListing sampleProperties))
        "abfss://data/dir".toList none
        { is_fully_qualified := false, prefix_ := PATH_PREFIX, storage_account_name := [],
          endpoint := [], container := "data".toList, path := "dir".toList }
        ⟨fun _ => sampleClientWith emptyListing sampleProperties⟩ (by rfl) (by rfl)).1
        { IsDirectory := true, FileSize := 0, LastModified := 5 } (by rfl)).1,
    (existence_semantics (sampleEnv (sampleClientWith emptyListing sampleProperties))
      "abfss://data/dir".toList none
      { is_fully_qualified := false, prefix_ := PATH_PREFIX, storage_account_name := [],
        endpoint := [], container := "data".toList, path := "dir".toList }
      ⟨fun _ => sampleClientWith emptyListing sampleProperties⟩ (by rfl) (by rfl)).2.2.1.mpr
      ⟨{ IsDirectory := true, FileSize := 0, LastModified := 5 }, by rfl, by rfl⟩,
    congrArg Run.outcome
      ((existence_semantics (sampleEnv (sampleClientWith emptyListing sampleProperties))
        "abfss://data/dir/f1.csv".toList none
        { is_fully_qualified := false, prefix_ := PATH_PREFIX, storage_account_name := [],
          endpoint := [], container := "data".toList, path := "dir/f1.csv".toList }
        ⟨fun _ => sampleClientWith emptyListing sampleProperties⟩ (by rfl) (by rfl)).1
        { IsDirectory := false, FileSize := 10, LastModified := 6 } (by rfl)).2,
    (existence_semantics (sampleEnv (sampleClientWith emptyListing sampleProperties))
      "abfss://data/dir".toList none
      { is_fully_qualified := false, prefix_ := PATH_PREFIX, storage_account_name := [],
        endpoint := [], container := "data".toList, path := "dir".toList }
      ⟨fun _ => sampleClientWith emptyListing sampleProperties⟩ (by rfl) (by rfl)).2.2.2.2,
    by rfl⟩

/-! ## Directories and removal -/

/-- The objects the five operations address for one input string: the probes and `RemoveFile`
address the locator's container and object path; `CreateDirectory` and `RemoveDirectory`
address, in the locator's container, the name that is the whole input string. -/
theorem lifecycle_addressed_objects (env : Env) (d : Str) (opener : Option FileOpener)
    (parsed_url : AzureParsedUrl) (storage_context : AzureDfsContextState)
    (hparse : env.ParseUrl d = .ok parsed_url)
    (hctx : env.GetOrCreateStorageContext opener d parsed_url = .ok storage_context) :
    addressedObjects (FileExists env d opener).trace = [(parsed_url.container, parsed_url.path)] ∧
    addressedObjects (DirectoryExists env d opener).trace
      = [(parsed_url.container, parsed_url.path)] ∧
    addressedObjects (RemoveFile env d opener).trace = [(parsed_url.container, parsed_url.path)] ∧
    addressedObjects (CreateDirectory env d opener).trace = [(parsed_url.container, d)] ∧
    addressedObjects (RemoveDirectory env d opener).trace = [(parsed_url.container, d)] := by
  refine ⟨?_, ?_, ?_, ?_, ?_⟩
  · simp only [FileExists, CreateFileClient, PathFileClient.GetProperties, hparse, hctx]
    cases (storage_context.GetDfsFileSystemClient parsed_url.container).GetProperties
        parsed_url.path with
    | ok p => rfl
    | error f =>
      cases f with
      | storage e => simp only; split <;> rfl
      | other w => rfl
  · simp only [DirectoryExists, CreateFileClient, PathFileClient.GetProperties, hparse, hctx]
    cases (storage_context.GetDfsFileSystemClient parsed_url.container).GetProperties
        parsed_url.path with
    | ok p => rfl
    | error f =>
      cases f with
      | storage e => simp only; split <;> rfl
      | other w => rfl
  · simp only [RemoveFile, CreateFileClient, hparse, hctx]
    cases (storage_context.GetDfsFileSystemClient parsed_url.container).DeleteFileIfExists
        parsed_url.path <;> rfl
  · simp only [CreateDirectory, hparse, hctx]
    cases (storage_context.GetDfsFileSystemClient
        parsed_url.container).CreateDirectoryIfNotExists d <;> rfl
  · simp only [RemoveDirectory, hparse, hctx]
    cases (storage_context.GetDfsFileSystemClient
        parsed_url.container).DeleteDirectoryRecursiveIfExists d <;> rfl

/-- C13, the code at `abfss://data/newdir` on an empty store keyed by container and name: the
locator is container `data`, object path `newdir`. `CreateDirectory` succeeds and issues its
create-if-absent on the name `abfss://data/newdir` of container `data`; `RemoveDirectory`
deletes under that same name; `DirectoryExists`, `FileExists` and `RemoveFile` address the
name `newdir`. After the successful `CreateDirectory` the store holds a directory under the
name `abfss://data/newdir`, and `DirectoryExists` of the same input string is false. -/
theorem CreateDirectory_addresses_whole_url :
    (sampleParseUrl "abfss://data/newdir".toList).map (fun u => (u.container, u.path))
      = .ok ("data".toList, "newdir".toList) ∧
    CreateDirectory (storeEnv []) "abfss://data/newdir".toList none
      = ⟨[Event.GetOrCreateStorageContext "abfss://data/newdir".toList,
          Event.CreateDirectoryIfNotExists "data".toList "abfss://data/newdir".toList],
         .value ()⟩ ∧
    RemoveDirectory (storeEnv []) "abfss://data/newdir".toList none
      = ⟨[Event.GetOrCreateStorageContext "abfss://data/newdir".toList,
          Event.DeleteDirectoryRecursiveIfExists "data".toList "abfss://data/newdir".toList],
         .value ()⟩ ∧
    addressedObjects (DirectoryExists (storeEnv []) "abfss://data/newdir".toList none).trace
      = [("data".toList, "newdir".toList)] ∧
    addressedObjects (FileExists (storeEnv []) "abfss://data/newdir".toList none).trace
      = [("data".toList, "newdir".toList)] ∧
    addressedObjects (RemoveFile (storeEnv []) "abfss://data/newdir".toList none).trace
      = [("data".toList, "newdir".toList)] ∧
    (CreateDirectory (storeEnv []) "abfss://data/newdir".toList none).trace.foldl applyCall []
      = [{ container := "data".toList, name := "abfss://data/newdir".toList,
           isDirectory := true }] ∧
    (DirectoryExists
      (storeEnv
        ((CreateDirectory (storeEnv []) "abfss://data/newdir".toList none).trace.foldl
          applyCall []))
      "abfss://data/newdir".toList none).outcome = .value false := by
  refine ⟨by rfl, by rfl, by rfl, by rfl, by rfl, by rfl, by rfl, by rfl⟩

end DuckdbAzure
